import Mathlib

/-! # ScaledInt.h and LinkedList.h of the game core

Shallow embedding of the class template `ScaledInt<SCALE,INT>` of
`CvGameCoreDLL/ScaledInt.h`; the embedding of `CvGameCoreDLL/LinkedList.h` is
described where it begins.

* A value of the class is its one data member `m_i`, a mathematical integer
  that lies in the range of the type `INT`.
* The template argument `INT` is one of the two 32-bit types for which the
  header instantiates the template: `int` and `uint`.
* C++ arithmetic is spelled out: every operation is computed in the type that
  the usual arithmetic conversions select and is reduced to 32 (or 64) bits
  there, and `/` truncates toward zero (`Int.tdiv`).
* A division whose divisor is a run-time value returns `none` where it has no
  result: for a zero divisor and for the quotient `MIN / -1` of a signed type.
-/

namespace CvGameCoreDLL

/-! ## Machine integers -/

/-- The template argument `INT`: `int` (32 bits, signed) or `uint` (32 bits). -/
inductive IntType where
  | int
  | uint
deriving DecidableEq, Repr

/-- Reduction of an integer to the 32-bit type `int` (two's complement). -/
def wrapInt (x : Int) : Int := (x + 2147483648) % 4294967296 - 2147483648

/-- Reduction of an integer to the 32-bit type `uint`. -/
def wrapUInt (x : Int) : Int := x % 4294967296

/-- Reduction of an integer to the 64-bit type `long long`. -/
def wrapLongLong (x : Int) : Int :=
  (x + 9223372036854775808) % 18446744073709551616 - 9223372036854775808

/-- Smallest value of `int` (`MIN_INT`). -/
def MIN_INT : Int := -2147483648

/-- Largest value of `int` (`MAX_INT`). -/
def MAX_INT : Int := 2147483647

namespace IntType

/-- The constant `bSIGNED`, `std::numeric_limits<INT>::is_signed`. -/
def bSIGNED : IntType → Bool
  | int => true
  | uint => false

/-- The constant `MAX`, `std::numeric_limits<INT>::max()`. -/
def MAX : IntType → Int
  | int => 2147483647
  | uint => 4294967295

/-- The constant `MIN`, `std::numeric_limits<INT>::min()`. -/
def MIN : IntType → Int
  | int => -2147483648
  | uint => 0

/-- Reduction of an integer to the type `INT` (`static_cast<INT>`, and the
result of every arithmetic operation carried out in `INT`). -/
def wrap : IntType → Int → Int
  | int, x => wrapInt x
  | uint, x => wrapUInt x

/-- An operand of type `int` after the usual arithmetic conversions with an
operand of type `INT`: unchanged for `int`, converted to `uint` otherwise. -/
def conv : IntType → Int → Int
  | int, x => x
  | uint, x => wrapUInt x

/-- The operator `/` on two operands of type `INT` where C++ gives it a result:
the quotient truncated toward zero. It is applied as it stands to divisors
that are the template constant `SCALE` or a literal; a division by a run-time
divisor is first tested with `divTraps`. -/
def div (T : IntType) (a b : Int) : Int := T.wrap (Int.tdiv a b)

/-- The division `a / b` of two operands of type `INT` has no result: the
divisor is zero, or the operands are `MIN` and `-1` of a signed type, whose
quotient `2^31` is no value of the type. C++ leaves both undefined, and the
division instruction of the target raises a hardware exception in both cases;
no value is produced. -/
def divTraps (T : IntType) (a b : Int) : Bool :=
  decide (b = 0) || (T.bSIGNED && decide (a = T.MIN) && decide (b = -1))

/-- The type in which a binary operation on operands of the two types is
carried out (usual arithmetic conversions): `uint` as soon as one operand is
unsigned. -/
def common : IntType → IntType → IntType
  | int, int => int
  | _, _ => uint

/-- The value lies in the range of `INT`. -/
def InRange (T : IntType) (x : Int) : Prop := T.MIN ≤ x ∧ x ≤ T.MAX

instance (T : IntType) (x : Int) : Decidable (T.InRange x) := by
  unfold InRange; infer_instance

end IntType

/-- Modelled from the spec: the macro `FAssertBounds(lower, upper, index)` of
FAssert.h, which is not part of the sources at hand. It is the debug-build
range check (the RangeError condition): it passes when
`lower <= index < upper`, the operands being compared after the usual
arithmetic conversions. -/
def FAssertBounds (lower upper index : Int) : Bool :=
  decide (lower ≤ index) && decide (index < upper)

/-! ## The class template -/

/-- An object of `ScaledInt<SCALE,INT>`: the data member `m_i`. -/
structure ScaledInt (SCALE : Int) (T : IntType) where
  m_i : Int
deriving DecidableEq, Repr

namespace ScaledInt

variable {SCALE : Int} {T : IntType}

/-- The constructor `ScaledInt(int i) : m_i(SCALE * i)`; the product is
computed in `int` and converted to `INT`. -/
def ctorInt (SCALE : Int) (T : IntType) (i : Int) : ScaledInt SCALE T :=
  ⟨T.wrap (wrapInt (SCALE * i))⟩

/-- The assertion of `ScaledInt(int i)`:
`FAssertBounds(MIN / SCALE, MAX / SCALE + 1, i)`. -/
def ctorIntAssert (SCALE : Int) (T : IntType) (i : Int) : Bool :=
  FAssertBounds (T.div T.MIN (T.conv SCALE))
    (T.wrap (T.div T.MAX (T.conv SCALE) + T.conv 1)) (T.conv i)

/-- The constructor `ScaledInt(uint u) : m_i(SCALE * u)`; the product is
computed in `uint` and converted to `INT`. -/
def ctorUInt (SCALE : Int) (T : IntType) (u : Int) : ScaledInt SCALE T :=
  ⟨T.wrap (wrapUInt (wrapUInt SCALE * u))⟩

/-- The assertion of `ScaledInt(uint u)`: `FAssert(u <= MAX / SCALE)`. -/
def ctorUIntAssert (SCALE : Int) (T : IntType) (u : Int) : Bool :=
  decide (u ≤ wrapUInt (T.div T.MAX (T.conv SCALE)))

/-- The member `toScale(int iNum, int iFromScale, int iToScale)`:
`long long lNum = iNum * iToScale; if (!bSIGNED) lNum += iFromScale / 2;`
`lNum /= iFromScale; return static_cast<INT>(lNum);`. -/
def toScale (T : IntType) (iNum iFromScale iToScale : Int) : Option Int :=
  let lNum := wrapInt (iNum * iToScale)
  let lNum := if !T.bSIGNED then wrapLongLong (lNum + Int.tdiv iFromScale 2) else lNum
  if iFromScale = 0 then none
  else some (T.wrap (wrapLongLong (Int.tdiv lNum iFromScale)))

/-- The constructor `ScaledInt(int iNum, int iDen)`:
`m_i = toScale(iNum, iDen)`, the target scale defaulting to `SCALE`. -/
def ctorIntInt (SCALE : Int) (T : IntType) (iNum iDen : Int) :
    Option (ScaledInt SCALE T) :=
  (toScale T iNum iDen SCALE).map fun m => ⟨m⟩

/-- The member `getInt`:
`return (m_i + SCALE / (!bSIGNED || m_i > 0 ? 2 : -2)) / SCALE;`,
computed in `INT` and returned as `int`. -/
def getInt (r : ScaledInt SCALE T) : Int :=
  wrapInt (T.div
    (T.wrap (r.m_i +
      T.conv (Int.tdiv SCALE (if !T.bSIGNED || decide (r.m_i > 0) then 2 else -2))))
    (T.conv SCALE))

/-- The member `operator-()`: `return ScaledInt<SCALE,INT>(-m_i);`. The operand
`-m_i` has the type `INT`, which selects the constructor from `int` or the one
from `uint`. -/
def operatorNeg (r : ScaledInt SCALE T) : ScaledInt SCALE T :=
  match T with
  | .int => ctorInt SCALE .int (wrapInt (-r.m_i))
  | .uint => ctorUInt SCALE .uint (wrapUInt (-r.m_i))

/-- The member `scaleForComparison(int i)`: `return i * SCALE;`, a product of
two `int` operands that is converted to `long long` on return. -/
def scaleForComparison (SCALE : Int) (i : Int) : Int :=
  wrapInt (i * SCALE)

/-- The member `operator<(int i)`: `m_i < scaleForComparison(i)`. -/
def ltInt (r : ScaledInt SCALE T) (i : Int) : Bool :=
  decide (r.m_i < scaleForComparison SCALE i)

/-- The member `operator>(int i)`. -/
def gtInt (r : ScaledInt SCALE T) (i : Int) : Bool :=
  decide (r.m_i > scaleForComparison SCALE i)

/-- The member `operator==(int i)`. -/
def eqInt (r : ScaledInt SCALE T) (i : Int) : Bool :=
  decide (r.m_i = scaleForComparison SCALE i)

/-- The member `operator!=(int i)`. -/
def neInt (r : ScaledInt SCALE T) (i : Int) : Bool :=
  decide (r.m_i ≠ scaleForComparison SCALE i)

/-- The member `operator<=(int i)`. -/
def leInt (r : ScaledInt SCALE T) (i : Int) : Bool :=
  decide (r.m_i ≤ scaleForComparison SCALE i)

/-- The member `operator>=(int i)`. -/
def geInt (r : ScaledInt SCALE T) (i : Int) : Bool :=
  decide (r.m_i ≥ scaleForComparison SCALE i)

/-- The member `operator+=(ScaledInt)`: `m_i += rOther.m_i`. -/
def addAssign (r rOther : ScaledInt SCALE T) : ScaledInt SCALE T :=
  ⟨T.wrap (r.m_i + rOther.m_i)⟩

/-- The member `operator-=(ScaledInt)`: `m_i -= rOther.m_i`. -/
def subAssign (r rOther : ScaledInt SCALE T) : ScaledInt SCALE T :=
  ⟨T.wrap (r.m_i - rOther.m_i)⟩

/-- The member `operator*=(ScaledInt)`, the branch taken by the 32-bit types
(`std::numeric_limits<INT>::digits <= 32`):
`long long lNum = (m_i * rOther.m_i + (bSIGNED ? 0 : SCALE / 2)) / SCALE;`
`m_i = static_cast<INT>(lNum);`. The initialiser is an expression of type
`INT`; it is widened to `long long` only after it has been evaluated. -/
def mulAssign (r rOther : ScaledInt SCALE T) : ScaledInt SCALE T :=
  let lNum := T.div
    (T.wrap (T.wrap (r.m_i * rOther.m_i) +
      T.conv (if T.bSIGNED then 0 else Int.tdiv SCALE 2)))
    (T.conv SCALE)
  ⟨T.wrap lNum⟩

/-- The assertion of `operator*=`: `FAssert(lNum >= MIN && lNum <= MAX)`. -/
def mulAssignAssert (r rOther : ScaledInt SCALE T) : Bool :=
  let lNum := T.div
    (T.wrap (T.wrap (r.m_i * rOther.m_i) +
      T.conv (if T.bSIGNED then 0 else Int.tdiv SCALE 2)))
    (T.conv SCALE)
  decide (lNum ≥ T.MIN) && decide (lNum ≤ T.MAX)

/-- The member `operator/=(ScaledInt)`:
`m_i *= SCALE; if (!bSIGNED) m_i += rOther.m_i / 2; m_i /= rOther.m_i;`. The
result is `none` when the last division has no result: for a zero divisor,
and for a signed `INT` when `m_i` has become `MIN` and the divisor is `-1`. -/
def divAssign (r rOther : ScaledInt SCALE T) : Option (ScaledInt SCALE T) :=
  let m := T.wrap (r.m_i * T.conv SCALE)
  let m := if !T.bSIGNED then T.wrap (m + T.div rOther.m_i 2) else m
  if T.divTraps m rOther.m_i then none else some ⟨T.div m rOther.m_i⟩

/-- The assertion of `operator/=`:
`FAssertBounds(MIN / SCALE, MAX / SCALE + 1, m_i)`. -/
def divAssignAssert (r : ScaledInt SCALE T) : Bool :=
  FAssertBounds (T.div T.MIN (T.conv SCALE))
    (T.wrap (T.div T.MAX (T.conv SCALE) + T.conv 1)) r.m_i

/-- The member `operator-=(uint u)`: `(*this) -= ScaledInt<SCALE,INT>(u)`. -/
def subAssignUInt (r : ScaledInt SCALE T) (u : Int) : ScaledInt SCALE T :=
  subAssign r (ctorUInt SCALE T u)

/-- The member `operator/=(uint u)`: `(*this) /= ScaledInt<SCALE,INT>(u)`. -/
def divAssignUInt (r : ScaledInt SCALE T) (u : Int) : Option (ScaledInt SCALE T) :=
  divAssign r (ctorUInt SCALE T u)

/-- The member `operator-(uint u) const`: `rCopy -= u; return rCopy;`. -/
def subUInt (r : ScaledInt SCALE T) (u : Int) : ScaledInt SCALE T :=
  subAssignUInt r u

/-- The member `operator/(uint u) const`: `rCopy /= u; return rCopy;`. -/
def divUInt (r : ScaledInt SCALE T) (u : Int) : Option (ScaledInt SCALE T) :=
  divAssignUInt r u

/-- Conversion of a floating-point value to an integer type: the fractional
part is discarded. -/
def truncate (d : ℚ) : Int := if 0 ≤ d then ⌊d⌋ else ⌈d⌉

/-- The member `fromDouble(double d)`:
`r.m_i = static_cast<INT>(d * SCALE + (d > 0 ? 0.5 : -0.5));`. The `double` is
modelled by an exact rational number, so no floating-point rounding occurs; a
value outside the range of `INT`, whose conversion C++ leaves undefined, is
reduced to `INT`. -/
def fromDouble (SCALE : Int) (T : IntType) (d : ℚ) : ScaledInt SCALE T :=
  ⟨T.wrap (truncate (d * (SCALE : ℚ) + (if d > 0 then 1 / 2 else -(1 / 2))))⟩

/-- The factory `fromRational<iNUM,iDEN>()`:
`return fromDouble(iNUM / static_cast<double>(iDEN));`. -/
def fromRational (SCALE : Int) (T : IntType) (iNUM iDEN : Int) : ScaledInt SCALE T :=
  fromDouble SCALE T ((iNUM : ℚ) / (iDEN : ℚ))

/-- The free `operator+(ScaledInt rLeft, ScaledInt rRight)`. -/
def add (rLeft rRight : ScaledInt SCALE T) : ScaledInt SCALE T :=
  addAssign rLeft rRight

/-- The free `operator-(ScaledInt rLeft, ScaledInt rRight)`. -/
def sub (rLeft rRight : ScaledInt SCALE T) : ScaledInt SCALE T :=
  subAssign rLeft rRight

/-- The free `operator*(ScaledInt rLeft, ScaledInt rRight)`. -/
def mul (rLeft rRight : ScaledInt SCALE T) : ScaledInt SCALE T :=
  mulAssign rLeft rRight

/-- The free `operator/(ScaledInt rLeft, ScaledInt rRight)`. -/
def div (rLeft rRight : ScaledInt SCALE T) : Option (ScaledInt SCALE T) :=
  divAssign rLeft rRight

/-- The converting constructor
`ScaledInt(ScaledInt<FROM_SCALE,FROM_T> rOther)`: for equal scales
`m_i = static_cast<INT>(rOther.m_i)`, otherwise
`m_i = static_cast<INT>((rOther.m_i * SCALE + (bSIGNED ? 0 : FROM_SCALE / 2)) / FROM_SCALE)`.
The quotient is an expression of the type of `rOther.m_i`, `FROM_T`; `bSIGNED`
is the constant of the class under construction. -/
def ctorScaledInt (SCALE : Int) (T : IntType) {FROM_SCALE : Int} {FROM_T : IntType}
    (rOther : ScaledInt FROM_SCALE FROM_T) : ScaledInt SCALE T :=
  if FROM_SCALE = SCALE then ⟨T.wrap rOther.m_i⟩
  else
    ⟨T.wrap (FROM_T.div
      (FROM_T.wrap (FROM_T.wrap (rOther.m_i * FROM_T.conv SCALE) +
        FROM_T.conv (if T.bSIGNED then 0 else Int.tdiv FROM_SCALE 2)))
      (FROM_T.conv FROM_SCALE))⟩

/-- The assertion in the branch for unequal scales of the converting
constructor: `FAssertBounds(MIN / SCALE, MAX / SCALE + 1, rOther.m_i)`. The
bounds have the type `INT`, the index has the type `FROM_T`. -/
def ctorScaledIntAssert (SCALE : Int) (T : IntType) {FROM_SCALE : Int} {FROM_T : IntType}
    (rOther : ScaledInt FROM_SCALE FROM_T) : Bool :=
  FAssertBounds ((T.common FROM_T).wrap (T.div T.MIN (T.conv SCALE)))
    ((T.common FROM_T).wrap (T.wrap (T.div T.MAX (T.conv SCALE) + T.conv 1)))
    ((T.common FROM_T).wrap rOther.m_i)

/-- The member `operator+=(int i)`: `(*this) += ScaledInt<SCALE,INT>(i)`. -/
def addAssignInt (r : ScaledInt SCALE T) (i : Int) : ScaledInt SCALE T :=
  addAssign r (ctorInt SCALE T i)

/-- The member `operator-=(int i)`: `(*this) -= ScaledInt<SCALE,INT>(i)`. -/
def subAssignInt (r : ScaledInt SCALE T) (i : Int) : ScaledInt SCALE T :=
  subAssign r (ctorInt SCALE T i)

/-- The member `operator*=(int i)`: `(*this) *= ScaledInt<SCALE,INT>(i)`. -/
def mulAssignInt (r : ScaledInt SCALE T) (i : Int) : ScaledInt SCALE T :=
  mulAssign r (ctorInt SCALE T i)

/-- The member `operator/=(int i)`: `(*this) /= ScaledInt<SCALE,INT>(i)`. -/
def divAssignInt (r : ScaledInt SCALE T) (i : Int) : Option (ScaledInt SCALE T) :=
  divAssign r (ctorInt SCALE T i)

/-- The member `operator+(int i) const`: `rCopy += i; return rCopy;`. -/
def addInt (r : ScaledInt SCALE T) (i : Int) : ScaledInt SCALE T :=
  addAssignInt r i

/-- The member `operator-(int i) const`: `rCopy -= i; return rCopy;`. -/
def subInt (r : ScaledInt SCALE T) (i : Int) : ScaledInt SCALE T :=
  subAssignInt r i

/-- The member `operator*(int i) const`: `rCopy *= i; return rCopy;`. -/
def mulInt (r : ScaledInt SCALE T) (i : Int) : ScaledInt SCALE T :=
  mulAssignInt r i

/-- The member `operator/(int i) const`: `rCopy /= i; return rCopy;`. -/
def divInt (r : ScaledInt SCALE T) (i : Int) : Option (ScaledInt SCALE T) :=
  divAssignInt r i

/-- The free `operator+(int i, ScaledInt r)`: `return r + i;`. -/
def intAdd (i : Int) (r : ScaledInt SCALE T) : ScaledInt SCALE T :=
  addInt r i

/-- The free `operator-(int i, ScaledInt r)`:
`return ScaledInt<SCALE,INT>(i) - r;`. -/
def intSub (i : Int) (r : ScaledInt SCALE T) : ScaledInt SCALE T :=
  sub (ctorInt SCALE T i) r

/-- The free `operator*(int i, ScaledInt r)`: `return r * i;`. -/
def intMul (i : Int) (r : ScaledInt SCALE T) : ScaledInt SCALE T :=
  mulInt r i

/-- The free `operator/(int i, ScaledInt r)`:
`return ScaledInt<SCALE,INT>(i) / r;`. -/
def intDiv (i : Int) (r : ScaledInt SCALE T) : Option (ScaledInt SCALE T) :=
  div (ctorInt SCALE T i) r

/-- The loop of `powNonNegative(int iExp)`,
`for (int i = 0; i < iExp; i++) r *= rCopy;`, with the number of iterations
that remain. -/
def powNonNegativeLoop (rCopy : ScaledInt SCALE T) : Nat → ScaledInt SCALE T → ScaledInt SCALE T
  | 0, r => r
  | n + 1, r => powNonNegativeLoop rCopy n (mulAssign r rCopy)

/-- The member `powNonNegative(int iExp)`: `ScaledInt<SCALE,INT> r = 1;`, then
the loop, which runs `iExp` times (not at all for `iExp <= 0`). -/
def powNonNegative (x : ScaledInt SCALE T) (iExp : Int) : ScaledInt SCALE T :=
  powNonNegativeLoop x iExp.toNat (ctorInt SCALE T 1)

/-- The member `pow(int iExp)`:
`if (iExp < 0) return 1 / powNonNegative(-iExp); return powNonNegative(iExp);`. -/
def pow (x : ScaledInt SCALE T) (iExp : Int) : Option (ScaledInt SCALE T) :=
  if iExp < 0 then intDiv 1 (powNonNegative x (wrapInt (-iExp)))
  else some (powNonNegative x iExp)

/-- The free `operator-(uint u, ScaledInt r)`: `return r - u;`. -/
def uintSub (u : Int) (r : ScaledInt SCALE T) : ScaledInt SCALE T :=
  subUInt r u

/-- The free `operator/(uint u, ScaledInt r)`: `return r / u;`. -/
def uintDiv (u : Int) (r : ScaledInt SCALE T) : Option (ScaledInt SCALE T) :=
  divUInt r u

/-! ### Same-type comparison, `abs`, member templates -/

/-- The member `operator<(ScaledInt rOther)`: `m_i < rOther.m_i`. -/
def operatorLt (r rOther : ScaledInt SCALE T) : Bool := decide (r.m_i < rOther.m_i)

/-- The member `operator>(ScaledInt rOther)`: `m_i > rOther.m_i`. -/
def operatorGt (r rOther : ScaledInt SCALE T) : Bool := decide (r.m_i > rOther.m_i)

/-- The member `operator==(ScaledInt rOther)`: `m_i == rOther.m_i`. -/
def operatorEq (r rOther : ScaledInt SCALE T) : Bool := decide (r.m_i = rOther.m_i)

/-- The member `operator!=(ScaledInt rOther)`: `m_i != rOther.m_i`. -/
def operatorNe (r rOther : ScaledInt SCALE T) : Bool := decide (r.m_i ≠ rOther.m_i)

/-- The member `operator<=(ScaledInt rOther)`: `m_i <= rOther.m_i`. -/
def operatorLe (r rOther : ScaledInt SCALE T) : Bool := decide (r.m_i ≤ rOther.m_i)

/-- The member `operator>=(ScaledInt rOther)`: `m_i >= rOther.m_i`. -/
def operatorGe (r rOther : ScaledInt SCALE T) : Bool := decide (r.m_i ≥ rOther.m_i)

/-- The member `getDouble`: `m_i / static_cast<double>(SCALE)`, the `double`
being modelled by an exact rational number. -/
def getDouble (r : ScaledInt SCALE T) : ℚ := (r.m_i : ℚ) / (SCALE : ℚ)

/-- The member `isNegative`: `bSIGNED && m_i < 0`. -/
def isNegative (r : ScaledInt SCALE T) : Bool := T.bSIGNED && decide (r.m_i < 0)

/-- The member `abs` for `INT = int`: `r.m_i = std::abs(m_i)`; the absolute
value is computed in `int`. -/
def abs (r : ScaledInt SCALE .int) : ScaledInt SCALE .int := ⟨wrapInt |r.m_i|⟩

/-- An argument of one of the member templates (`approxEquals`, `clamp`,
`increaseTo`, `decreaseTo` and their copies): a plain `int` or a value of the
class. -/
inductive Operand (SCALE : Int) (T : IntType) where
  | int (i : Int)
  | scaled (r : ScaledInt SCALE T)
deriving DecidableEq, Repr

/-- The expression `*this < lo` for either type of `lo`: `operator<(int)` or
`operator<(ScaledInt)`. -/
def ltOperand (r : ScaledInt SCALE T) : Operand SCALE T → Bool
  | .int i => ltInt r i
  | .scaled o => operatorLt r o

/-- The expression `*this > hi` for either type of `hi`. -/
def gtOperand (r : ScaledInt SCALE T) : Operand SCALE T → Bool
  | .int i => gtInt r i
  | .scaled o => operatorGt r o

/-- The expression `r <= e` for either type of `e`. -/
def leOperand (r : ScaledInt SCALE T) : Operand SCALE T → Bool
  | .int i => leInt r i
  | .scaled o => operatorLe r o

/-- The expression `*this - num` for either type of `num`: `operator-(int)` or
the free `operator-(ScaledInt, ScaledInt)`. -/
def subOperand (r : ScaledInt SCALE T) : Operand SCALE T → ScaledInt SCALE T
  | .int i => subInt r i
  | .scaled o => sub r o

/-- The assignment `*this = lo` for either type of `lo`; an `int` is converted
by the constructor `ScaledInt(int)`. -/
def ofOperand : Operand SCALE T → ScaledInt SCALE T
  | .int i => ctorInt SCALE T i
  | .scaled o => o

/-- The member template `approxEquals(num, e)` for `INT = int`:
`return ((*this - num).abs() <= e);`. -/
def approxEquals (r : ScaledInt SCALE .int) (num e : Operand SCALE .int) : Bool :=
  leOperand (abs (subOperand r num)) e

/-- The member template `increaseTo(lo)`: `if (*this < lo) *this = lo;`. -/
def increaseTo (r : ScaledInt SCALE T) (lo : Operand SCALE T) : ScaledInt SCALE T :=
  if ltOperand r lo then ofOperand lo else r

/-- The member template `decreaseTo(hi)`: `if (*this > hi) *this = hi;`. -/
def decreaseTo (r : ScaledInt SCALE T) (hi : Operand SCALE T) : ScaledInt SCALE T :=
  if gtOperand r hi then ofOperand hi else r

/-- The member template `clamp(lo, hi)`: `increaseTo(lo); decreaseTo(hi);`. -/
def clamp (r : ScaledInt SCALE T) (lo hi : Operand SCALE T) : ScaledInt SCALE T :=
  decreaseTo (increaseTo r lo) hi

/-- The member template `clamped(lo, hi)`: `rCopy.clamp(lo, hi); return rCopy;`. -/
def clamped (r : ScaledInt SCALE T) (lo hi : Operand SCALE T) : ScaledInt SCALE T :=
  clamp r lo hi

/-- The member template `increasedTo(lo)`: `rCopy.increaseTo(lo); return rCopy;`. -/
def increasedTo (r : ScaledInt SCALE T) (lo : Operand SCALE T) : ScaledInt SCALE T :=
  increaseTo r lo

/-- The member template `decreasedTo(hi)`: `rCopy.decreaseTo(hi); return rCopy;`. -/
def decreasedTo (r : ScaledInt SCALE T) (hi : Operand SCALE T) : ScaledInt SCALE T :=
  decreaseTo r hi

/-- The value, in units of `1 / SCALE`, that an argument of a member template
denotes: `i * SCALE` for an `int i`, `m_i` for a value of the class. -/
def Operand.raw : Operand SCALE T → Int
  | .int i => i * SCALE
  | .scaled o => o.m_i

/-- An `int` argument whose product with `SCALE` fits `int` and `INT`, so that
neither `scaleForComparison` nor the constructor `ScaledInt(int)` wraps around;
a value of the class always qualifies. -/
def Operand.Exact : Operand SCALE T → Prop
  | .int i => (MIN_INT ≤ i * SCALE ∧ i * SCALE ≤ MAX_INT) ∧ T.InRange (i * SCALE)
  | .scaled _ => True

/-! ### Fractions with a fixed denominator -/

/-- The factory `fromRational<iDEN>(int iNum)`:
`ScaledInt<iDEN,INT> rRational; rRational.m_i = iNum; return rRational;`, the
return converting to `ScaledInt<SCALE,INT>`. -/
def fromRationalDen (SCALE : Int) (T : IntType) (iDEN : Int) (iNum : Int) : ScaledInt SCALE T :=
  ctorScaledInt SCALE T (⟨T.wrap iNum⟩ : ScaledInt iDEN T)

/-- The function `scaled_int per100(int iNum)`:
`return scaled_int::fromRational<100>(iNum);`. -/
def per100 (iNum : Int) : ScaledInt 1024 .int :=
  fromRationalDen 1024 .int 100 iNum

/-- The function `scaled_uint per100(uint iNum)`:
`return scaled_uint::fromRational<100>(iNum);`, the argument being converted
to the parameter type `int`. -/
def per100UInt (iNum : Int) : ScaledInt 1024 .uint :=
  fromRationalDen 1024 .uint 100 (wrapInt iNum)

/-! ### Bernoulli trial -/

end ScaledInt

/-- Modelled from the spec: the class `CvRandom`, which is not part of the
sources at hand: the deterministic pseudo-random source. A state of the source
is a value of `σ`; `getInt(iNum, szLog, iData1, iData2)` draws an integer, in
`[0, iNum)` for a proper source, and advances the state. The log arguments do
not influence the draw. -/
structure CvRandom (σ : Type) where
  getInt : σ → Int → Int × σ

/-- Modelled from the spec: the two tables of FixedPointPowTables.h, which is
not part of the sources at hand: `powersOfTwoNormalized_256`, indexed by the
fraction of the exponent in 128ths, and `powersUnitInterval_256`, indexed by
the residual base in 64ths and the fraction of the exponent, both shifted by
one. -/
structure FixedPointPowTables where
  powersOfTwoNormalized_256 : Int → Int
  powersUnitInterval_256 : Int → Int → Int

/-- A sample source for the examples: its state counts the draws, and a draw
returns the count modulo `iNum`. -/
def CvRandom.counter : CvRandom Nat := ⟨fun s iNum => ((s : Int) % iNum, s + 1)⟩

namespace ScaledInt

variable {SCALE : Int} {T : IntType}

/-- The member `bernoulliSuccess(kRand, szLog, ...)`:
`if (m_i <= 0) return false; if (m_i >= SCALE) return true;`
`return (kRand.getInt(SCALE, szLog, iLogData1, iLogData2) < m_i);`. The result
is the outcome and the state in which the source is left. -/
def bernoulliSuccess {σ : Type} (r : ScaledInt SCALE T) (kRand : CvRandom σ) (s : σ) :
    Bool × σ :=
  if r.m_i ≤ 0 then (false, s)
  else if r.m_i ≥ T.conv SCALE then (true, s)
  else (decide (T.conv (kRand.getInt s SCALE).1 < r.m_i), (kRand.getInt s SCALE).2)

/-! ### Powers with a fractional exponent (`INT = int`) -/

/-- The local `rExpFrac` of `powNonNegative(ScaledInt rExp)`:
`INT expInt = rExp.m_i / SCALE; ScaledInt<128,uint> rExpFrac(rExp - expInt);`. -/
def powExpFrac (rExp : ScaledInt SCALE .int) : ScaledInt 128 .uint :=
  ctorScaledInt 128 .uint (subInt rExp (IntType.int.div rExp.m_i SCALE))

/-- The assertion `FAssertBounds(0, 128, rExpFrac.m_i)` of
`powNonNegative(ScaledInt rExp)`, compared in `uint`. -/
def powExpFracAssert (rExp : ScaledInt SCALE .int) : Bool :=
  FAssertBounds 0 128 (powExpFrac rExp).m_i

/-- The loop of `powNonNegative(ScaledInt rExp)`,
`while (baseDiv < *this) { baseDiv *= 2; rProductOfPowersOfTwo *= rPowOfTwo; }`,
run for at most `fuel` tests of its condition; `none` when the loop has not
ended by then. The condition is the free `operator<(int, ScaledInt)`, which is
`*this > baseDiv`. -/
def powDoublingLoop (x : ScaledInt SCALE .int) (rPowOfTwo : ScaledInt 256 .uint) :
    Nat → Int → ScaledInt SCALE .uint → Option (Int × ScaledInt SCALE .uint)
  | 0, _, _ => none
  | fuel + 1, baseDiv, rProductOfPowersOfTwo =>
    if gtInt x baseDiv then
      powDoublingLoop x rPowOfTwo fuel (wrapInt (baseDiv * 2))
        (mulAssign rProductOfPowersOfTwo (ctorScaledInt SCALE .uint rPowOfTwo))
    else some (baseDiv, rProductOfPowersOfTwo)

/-- The member `powNonNegative(ScaledInt rExp)` for `INT = int`, the tables
being a parameter. The result is `none` when the doubling loop has not ended
within `fuel` tests or when a division by zero occurs. -/
def powNonNegativeScaled (tables : FixedPointPowTables) (fuel : Nat)
    (x rExp : ScaledInt SCALE .int) : Option (ScaledInt SCALE .int) :=
  if x.m_i < Int.tdiv SCALE 64 then some (ctorInt SCALE .int 0)
  else
    let expInt := IntType.int.div rExp.m_i SCALE
    let rExpFrac := powExpFrac rExp
    let rPowOfTwo : ScaledInt 256 .uint :=
      addAssignInt ⟨wrapUInt (tables.powersOfTwoNormalized_256 rExpFrac.m_i)⟩ 1
    match powDoublingLoop x rPowOfTwo fuel 1 (ctorInt SCALE .uint 1) with
    | none => none
    | some (baseDiv, rProductOfPowersOfTwo) =>
      match divInt x baseDiv with
      | none => none
      | some q =>
        let iLastBaseTimes64 := wrapInt (ctorScaledInt 64 .uint q).m_i
        let rLastFactor : ScaledInt 256 .uint :=
          if rExpFrac.m_i ≠ 0 ∧ iLastBaseTimes64 ≠ 64 then
            ⟨wrapUInt (tables.powersUnitInterval_256 (wrapInt (iLastBaseTimes64 - 1))
              (wrapUInt (rExpFrac.m_i - 1)) + 1)⟩
          else ctorInt 256 .uint 1
        match pow x expInt with
        | none => none
        | some p =>
          some (ctorScaledInt SCALE .int
            (mul (mul (ctorScaledInt SCALE .uint p) rProductOfPowersOfTwo)
              (ctorScaledInt SCALE .uint rLastFactor)))

/-- The member `pow(ScaledInt rExp)` for `INT = int`:
`if (rExp.bSIGNED && rExp.isNegative()) return 1 / powNonNegative(-rExp);`
`return powNonNegative(rExp);`. -/
def powScaled (tables : FixedPointPowTables) (fuel : Nat) (x rExp : ScaledInt SCALE .int) :
    Option (ScaledInt SCALE .int) :=
  if IntType.int.bSIGNED && isNegative rExp then
    (powNonNegativeScaled tables fuel x (operatorNeg rExp)).bind fun r => intDiv 1 r
  else powNonNegativeScaled tables fuel x rExp

/-- The member `sqrt` for `INT = int`:
`return powNonNegative(fromRational<1,2>());`. -/
def sqrt (tables : FixedPointPowTables) (fuel : Nat) (x : ScaledInt SCALE .int) :
    Option (ScaledInt SCALE .int) :=
  powNonNegativeScaled tables fuel x (fromRational SCALE .int 1 2)

/-! ### Percent and permille -/

/-- The member `toScaleRound(int iNum, int iFromScale, int iToScale)`:
`long long lNum = iNum * iToScale; if (!bSIGNED) lNum += iFromScale / 2;`
`else lNum += iFromScale / (lNum >= 0 ? 2 : -2); lNum /= iFromScale;`
`return static_cast<int>(lNum);`. The product is computed in `int`. -/
def toScaleRound (T : IntType) (iNum iFromScale iToScale : Int) : Option Int :=
  let lNum := wrapInt (iNum * iToScale)
  let lNum :=
    if !T.bSIGNED then wrapLongLong (lNum + Int.tdiv iFromScale 2)
    else wrapLongLong (lNum + wrapInt (Int.tdiv iFromScale (if lNum ≥ 0 then 2 else -2)))
  if iFromScale = 0 then none
  else some (wrapInt (wrapLongLong (Int.tdiv lNum iFromScale)))

/-- The member `getPercent`: `return toScaleRound(m_i, SCALE, 100);`. -/
def getPercent (r : ScaledInt SCALE T) : Option Int :=
  toScaleRound T (wrapInt r.m_i) SCALE 100

/-- The member `getPermille`: `return toScaleRound(m_i, SCALE, 1000);`. -/
def getPermille (r : ScaledInt SCALE T) : Option Int :=
  toScaleRound T (wrapInt r.m_i) SCALE 1000

/-- The function `scaled_int per1000(int iNum)`:
`return scaled_int::fromRational<1000>(iNum);`. -/
def per1000 (iNum : Int) : ScaledInt 1024 .int :=
  fromRationalDen 1024 .int 1000 iNum

/-! ### The residual base of the fractional power -/

/-- The local `iLastBaseTimes64` of `powNonNegative(ScaledInt rExp)`:
`int iLastBaseTimes64 = (ScaledInt<64,uint>(*this / baseDiv)).m_i;`; `none`
when the division is one by zero. -/
def powLastBaseTimes64 (x : ScaledInt SCALE .int) (baseDiv : Int) : Option Int :=
  (divInt x baseDiv).map fun q => wrapInt (ctorScaledInt 64 .uint q).m_i

/-- The local `rPowOfTwo` of `powNonNegative(ScaledInt rExp)`:
`rPowOfTwo.m_i = FixedPointPowTables::powersOfTwoNormalized_256[rExpFrac.m_i];`
`++rPowOfTwo;`. -/
def powPowOfTwo (tables : FixedPointPowTables) (rExpFrac : ScaledInt 128 .uint) :
    ScaledInt 256 .uint :=
  addAssignInt ⟨wrapUInt (tables.powersOfTwoNormalized_256 rExpFrac.m_i)⟩ 1

/-- The local `rLastFactor` of `powNonNegative(ScaledInt rExp)`:
`ScaledInt<256,uint> rLastFactor(1);`, replaced by
`powersUnitInterval_256[iLastBaseTimes64-1][rExpFrac.m_i-1] + 1` when
`rExpFrac.m_i != 0 && iLastBaseTimes64 != 64`. -/
def powLastFactor (tables : FixedPointPowTables) (rExpFrac : ScaledInt 128 .uint)
    (iLastBaseTimes64 : Int) : ScaledInt 256 .uint :=
  if rExpFrac.m_i ≠ 0 ∧ iLastBaseTimes64 ≠ 64 then
    ⟨wrapUInt (tables.powersUnitInterval_256 (wrapInt (iLastBaseTimes64 - 1))
      (wrapUInt (rExpFrac.m_i - 1)) + 1)⟩
  else ctorInt 256 .uint 1

/-- The assertion `FAssertBounds(0, 64+1, iLastBaseTimes64)` of
`powNonNegative(ScaledInt rExp)`. -/
def powLastBaseAssert (iLastBaseTimes64 : Int) : Bool :=
  FAssertBounds 0 (64 + 1) iLastBaseTimes64

/-! ### Evaluation with the assertions enabled

In a debug build every `FAssert` and `FAssertBounds` is evaluated. The
functions below return `none` when an assertion fails (or when a division is
one by zero) and otherwise the value that the function without assertions
computes. -/

/-- The constructor `ScaledInt(int i)` with its assertion. -/
def ctorIntChecked (SCALE : Int) (T : IntType) (i : Int) : Option (ScaledInt SCALE T) :=
  if ctorIntAssert SCALE T i then some (ctorInt SCALE T i) else none

/-- The converting constructor with its assertion, which is evaluated in the
branch for unequal scales only. -/
def ctorScaledIntChecked (SCALE : Int) (T : IntType) {FROM_SCALE : Int} {FROM_T : IntType}
    (rOther : ScaledInt FROM_SCALE FROM_T) : Option (ScaledInt SCALE T) :=
  if FROM_SCALE = SCALE then some (ctorScaledInt SCALE T rOther)
  else if ctorScaledIntAssert SCALE T rOther then some (ctorScaledInt SCALE T rOther)
  else none

/-- The member `operator*=(ScaledInt)` with its assertion. -/
def mulAssignChecked (r rOther : ScaledInt SCALE T) : Option (ScaledInt SCALE T) :=
  if mulAssignAssert r rOther then some (mulAssign r rOther) else none

/-- The member `operator/=(ScaledInt)` with its assertion. -/
def divAssignChecked (r rOther : ScaledInt SCALE T) : Option (ScaledInt SCALE T) :=
  if divAssignAssert r then divAssign r rOther else none

/-- The loop of `powNonNegative(int iExp)` with the assertion of each
multiplication. -/
def powNonNegativeLoopChecked (rCopy : ScaledInt SCALE T) :
    Nat → ScaledInt SCALE T → Option (ScaledInt SCALE T)
  | 0, r => some r
  | n + 1, r => (mulAssignChecked r rCopy).bind (powNonNegativeLoopChecked rCopy n)

/-- The member `powNonNegative(int iExp)` with its assertions. -/
def powNonNegativeChecked (x : ScaledInt SCALE T) (iExp : Int) : Option (ScaledInt SCALE T) :=
  (ctorIntChecked SCALE T 1).bind (powNonNegativeLoopChecked x iExp.toNat)

/-- The member `pow(int iExp)` with its assertions. -/
def powChecked (x : ScaledInt SCALE T) (iExp : Int) : Option (ScaledInt SCALE T) :=
  if iExp < 0 then
    (powNonNegativeChecked x (wrapInt (-iExp))).bind fun r =>
      (ctorIntChecked SCALE T 1).bind fun rOne => divAssignChecked rOne r
  else powNonNegativeChecked x iExp

/-- The function `scaled_int per100(int iNum)` with the assertion of the
converting constructor. -/
def per100Checked (iNum : Int) : Option (ScaledInt 1024 .int) :=
  ctorScaledIntChecked 1024 .int (⟨IntType.int.wrap iNum⟩ : ScaledInt 100 .int)

/-- The expression `((per100(a) + per100(b) + per100(c)) * ScaledInt(m)).pow(iExp)`
for `scaled_int`, evaluated without assertions. -/
def sumTimesPow (a b c m iExp : Int) : Option (ScaledInt 1024 .int) :=
  pow (mul (add (add (per100 a) (per100 b)) (per100 c)) (ctorInt 1024 .int m)) iExp

/-- The expression `((per100(a) + per100(b) + per100(c)) * ScaledInt(m)).pow(iExp)`
for `scaled_int`, evaluated with every assertion enabled. Addition has no
assertion (the two in `operator+=` are commented out). -/
def sumTimesPowChecked (a b c m iExp : Int) : Option (ScaledInt 1024 .int) :=
  (per100Checked a).bind fun ra =>
  (per100Checked b).bind fun rb =>
  (per100Checked c).bind fun rc =>
  (ctorIntChecked 1024 .int m).bind fun rm =>
  (mulAssignChecked (add (add ra rb) rc) rm).bind fun rProd =>
  powChecked rProd iExp

/-- Sample tables for the examples: the two entries that the running example
of the source comment quotes, `powersOfTwoNormalized_256[13] = 19` and
`powersUnitInterval_256[41][12] = 244`, the entry `106` at position `64` of
the first table (`2^(1/2)` normalised, `(1.41421 - 1) * 256 = 106.04`), and
zero elsewhere. -/
def sampleTables : FixedPointPowTables :=
  ⟨fun i => if i = 13 then 19 else if i = 64 then 106 else 0,
    fun i j => if i = 41 ∧ j = 12 then 244 else 0⟩

end ScaledInt

/-! ## LinkedList.h: a doubly-linked list

Shallow embedding of the class templates `CLLNode<tVARTYPE>` and
`CLinkList<tVARTYPE>` of `CvGameCoreDLL/LinkedList.h`.

* A pointer to a node is an `Option Nat`: `none` is `NULL`, `some a` is the
  address `a`.
* The free store maps every address to the node that lives there, if any. An
  address is the number of a node slot: a 32-bit address space has room for
  fewer than `2^28` nodes, a node taking at least sixteen bytes (the pointer to
  the virtual table, the data and the two links).
* A member function receives the store and the list object and returns the
  store and the list object that it leaves behind. It returns `none` when it
  dereferences `NULL` or the address of no node, or deletes what is no node.
* The address that `new` returns is an argument of the inserting functions; it
  has to be the address of a free slot.
* The `assert`s of the header are separate Boolean functions.
-/

/-- A node `CLLNode<tVARTYPE>`: `m_data`, `m_pNext`, `m_pPrev`. -/
structure CLLNode (tVARTYPE : Type) where
  m_data : tVARTYPE
  m_pNext : Option Nat
  m_pPrev : Option Nat
deriving DecidableEq, Repr

/-- The free store: the node at each address, `none` for a free slot. -/
abbrev Store (tVARTYPE : Type) := Nat → Option (CLLNode tVARTYPE)

/-- The number of node slots of the address space. -/
def storeLimit : Nat := 268435456

/-- An object of `CLinkList<tVARTYPE>`: `m_iLength`, `m_pHead`, `m_pTail`. -/
structure CLinkList where
  m_iLength : Int
  m_pHead : Option Nat
  m_pTail : Option Nat
deriving DecidableEq, Repr

namespace Store

variable {tVARTYPE : Type}

/-- The expression `new CLLNode<tVARTYPE>(val)` when it returns the address
`pNode`: the constructor sets `m_data = val; m_pNext = NULL; m_pPrev = NULL;`.
The address is that of a free slot. -/
def alloc (s : Store tVARTYPE) (val : tVARTYPE) (pNode : Nat) : Option (Store tVARTYPE) :=
  if (s pNode).isNone ∧ pNode < storeLimit then
    some (Function.update s pNode (some ⟨val, none, none⟩))
  else none

/-- The expression `p->m_pNext`, read. -/
def getNext (s : Store tVARTYPE) (p : Nat) : Option (Option Nat) :=
  (s p).map fun n => n.m_pNext

/-- The expression `p->m_pPrev`, read. -/
def getPrev (s : Store tVARTYPE) (p : Nat) : Option (Option Nat) :=
  (s p).map fun n => n.m_pPrev

/-- The assignment `p->m_pNext = v`. -/
def setNext (s : Store tVARTYPE) (p : Nat) (v : Option Nat) : Option (Store tVARTYPE) :=
  (s p).map fun n => Function.update s p (some { n with m_pNext := v })

/-- The assignment `p->m_pPrev = v`. -/
def setPrev (s : Store tVARTYPE) (p : Nat) (v : Option Nat) : Option (Store tVARTYPE) :=
  (s p).map fun n => Function.update s p (some { n with m_pPrev := v })

/-- The statement `SAFE_DELETE(p)` for a pointer `p` that is not `NULL`:
`delete p`. -/
def free (s : Store tVARTYPE) (p : Nat) : Option (Store tVARTYPE) :=
  (s p).map fun _ => Function.update s p none

end Store

namespace CLinkList

variable {tVARTYPE : Type}

/-- The constructor `CLinkList()`: `m_iLength = 0; m_pHead = NULL; m_pTail = NULL;`. -/
def ctor : CLinkList := ⟨0, none, none⟩

/-- The member `getLength`. -/
def getLength (l : CLinkList) : Int := l.m_iLength

/-- The member `head`. -/
def head (l : CLinkList) : Option Nat := l.m_pHead

/-- The member `tail`. -/
def tail (l : CLinkList) : Option Nat := l.m_pTail

/-- The member `next(pNode)`: `return pNode->m_pNext;`. -/
def next (s : Store tVARTYPE) (pNode : Nat) : Option (Option Nat) := s.getNext pNode

/-- The member `prev(pNode)`: `return pNode->m_pPrev;`. -/
def prev (s : Store tVARTYPE) (pNode : Nat) : Option (Option Nat) := s.getPrev pNode

/-- The assertion at the start of each insert:
`assert((m_pHead == NULL) || (m_iLength > 0));`. -/
def insertAssert (l : CLinkList) : Bool :=
  l.m_pHead.isNone || decide (l.m_iLength > 0)

/-- The member `swap(list)`: the three data members are exchanged. The result
is this list and the argument. -/
def swap (l list : CLinkList) : CLinkList × CLinkList :=
  (⟨list.m_iLength, list.m_pHead, list.m_pTail⟩, ⟨l.m_iLength, l.m_pHead, l.m_pTail⟩)

/-- The member `concatenate(list)` for an argument that is another object
than this list:
`if (list.m_pHead == NULL) return;`
`if (m_pTail) { m_pTail->m_pNext = list.m_pHead; list.m_pHead->m_pPrev = m_pTail; }`
`else { m_pHead = list.m_pHead; }`
`m_pTail = list.m_pTail; m_iLength += list.m_iLength;`
`list.m_iLength = 0; list.m_pHead = 0; list.m_pTail = 0;`.
The result is the store, this list and the argument. -/
def concatenate (s : Store tVARTYPE) (l list : CLinkList) :
    Option (Store tVARTYPE × CLinkList × CLinkList) :=
  match list.m_pHead with
  | none => some (s, l, list)
  | some pListHead =>
    (match l.m_pTail with
      | some pTail =>
        (s.setNext pTail (some pListHead)).bind fun s =>
        (s.setPrev pListHead (some pTail)).bind fun s =>
        some (s, l)
      | none => some (s, { l with m_pHead := list.m_pHead })).bind fun (s, l) =>
    some (s, { l with m_pTail := list.m_pTail,
                      m_iLength := wrapInt (l.m_iLength + list.m_iLength) },
      ⟨0, none, none⟩)

/-- The two assertions of `concatenate`:
`assert(m_pHead == NULL && m_iLength == 0)` in the branch for `m_pTail == NULL`
and `assert(list.m_pTail != NULL)`. -/
def concatenateAssert (l list : CLinkList) : Bool :=
  list.m_pHead.isNone ||
    ((l.m_pTail.isSome || (l.m_pHead.isNone && decide (l.m_iLength = 0))) &&
      list.m_pTail.isSome)

/-- The member `insertAtBeginning(val)`, `pNode` being what `new` returns:
`if (m_pHead != NULL) { m_pHead->m_pPrev = pNode; pNode->m_pNext = m_pHead; m_pHead = pNode; }`
`else { m_pHead = pNode; m_pTail = pNode; }  m_iLength++;`. -/
def insertAtBeginning (s : Store tVARTYPE) (l : CLinkList) (val : tVARTYPE) (pNode : Nat) :
    Option (Store tVARTYPE × CLinkList) :=
  (s.alloc val pNode).bind fun s =>
  match l.m_pHead with
  | some pHead =>
    (s.setPrev pHead (some pNode)).bind fun s =>
    (s.setNext pNode (some pHead)).bind fun s =>
    some (s, { l with m_pHead := some pNode, m_iLength := wrapInt (l.m_iLength + 1) })
  | none =>
    some (s, { m_pHead := some pNode, m_pTail := some pNode,
               m_iLength := wrapInt (l.m_iLength + 1) })

/-- The member `insertAtEnd(val)`, `pNode` being what `new` returns:
`if (m_pTail != NULL) { m_pTail->m_pNext = pNode; pNode->m_pPrev = m_pTail; m_pTail = pNode; }`
`else { m_pHead = pNode; m_pTail = pNode; }  m_iLength++;`. -/
def insertAtEnd (s : Store tVARTYPE) (l : CLinkList) (val : tVARTYPE) (pNode : Nat) :
    Option (Store tVARTYPE × CLinkList) :=
  (s.alloc val pNode).bind fun s =>
  match l.m_pTail with
  | some pTail =>
    (s.setNext pTail (some pNode)).bind fun s =>
    (s.setPrev pNode (some pTail)).bind fun s =>
    some (s, { l with m_pTail := some pNode, m_iLength := wrapInt (l.m_iLength + 1) })
  | none =>
    some (s, { m_pHead := some pNode, m_pTail := some pNode,
               m_iLength := wrapInt (l.m_iLength + 1) })

/-- The member `insertBefore(val, pThisNode)`, `pNode` being what `new`
returns:
`if ((pThisNode == NULL) || (pThisNode->m_pPrev == NULL)) { insertAtBeginning(val); return; }`
`pThisNode->m_pPrev->m_pNext = pNode; pNode->m_pPrev = pThisNode->m_pPrev;`
`pThisNode->m_pPrev = pNode; pNode->m_pNext = pThisNode; m_iLength++;`. -/
def insertBefore (s : Store tVARTYPE) (l : CLinkList) (val : tVARTYPE)
    (pThisNode : Option Nat) (pNode : Nat) : Option (Store tVARTYPE × CLinkList) :=
  match pThisNode with
  | none => insertAtBeginning s l val pNode
  | some pThis =>
    (s.getPrev pThis).bind fun pThisPrev =>
    match pThisPrev with
    | none => insertAtBeginning s l val pNode
    | some _ =>
      (s.alloc val pNode).bind fun s =>
      (s.getPrev pThis).bind fun pPrev =>
      pPrev.bind fun pPrev =>
      (s.setNext pPrev (some pNode)).bind fun s =>
      (s.getPrev pThis).bind fun pPrev =>
      (s.setPrev pNode pPrev).bind fun s =>
      (s.setPrev pThis (some pNode)).bind fun s =>
      (s.setNext pNode (some pThis)).bind fun s =>
      some (s, { l with m_iLength := wrapInt (l.m_iLength + 1) })

/-- The member `insertAfter(val, pThisNode)`, `pNode` being what `new`
returns:
`if ((pThisNode == NULL) || (pThisNode->m_pNext == NULL)) { insertAtEnd(val); return; }`
`pThisNode->m_pNext->m_pPrev = pNode; pNode->m_pNext = pThisNode->m_pNext;`
`pThisNode->m_pNext = pNode; pNode->m_pPrev = pThisNode; m_iLength++;`. -/
def insertAfter (s : Store tVARTYPE) (l : CLinkList) (val : tVARTYPE)
    (pThisNode : Option Nat) (pNode : Nat) : Option (Store tVARTYPE × CLinkList) :=
  match pThisNode with
  | none => insertAtEnd s l val pNode
  | some pThis =>
    (s.getNext pThis).bind fun pThisNext =>
    match pThisNext with
    | none => insertAtEnd s l val pNode
    | some _ =>
      (s.alloc val pNode).bind fun s =>
      (s.getNext pThis).bind fun pNext =>
      pNext.bind fun pNext =>
      (s.setPrev pNext (some pNode)).bind fun s =>
      (s.getNext pThis).bind fun pNext =>
      (s.setNext pNode pNext).bind fun s =>
      (s.setNext pThis (some pNode)).bind fun s =>
      (s.setPrev pNode (some pThis)).bind fun s =>
      some (s, { l with m_iLength := wrapInt (l.m_iLength + 1) })

/-- The four cases by which `deleteNode` and `moveToEnd` take a node with the
neighbours `pPrevNode` and `pNextNode` out of the chain:
`if ((pPrevNode != NULL) && (pNextNode != NULL)) { pPrevNode->m_pNext = pNextNode; pNextNode->m_pPrev = pPrevNode; }`
`else if (pPrevNode != NULL) { pPrevNode->m_pNext = NULL; m_pTail = pPrevNode; }`
`else if (pNextNode != NULL) { pNextNode->m_pPrev = NULL; m_pHead = pNextNode; }`
`else { m_pHead = NULL; m_pTail = NULL; }`. -/
def unlink (s : Store tVARTYPE) (l : CLinkList) (pPrevNode pNextNode : Option Nat) :
    Option (Store tVARTYPE × CLinkList) :=
  match pPrevNode, pNextNode with
  | some pPrev, some pNext =>
    (s.setNext pPrev (some pNext)).bind fun s =>
    (s.setPrev pNext (some pPrev)).bind fun s =>
    some (s, l)
  | some pPrev, none =>
    (s.setNext pPrev none).bind fun s =>
    some (s, { l with m_pTail := some pPrev })
  | none, some pNext =>
    (s.setPrev pNext none).bind fun s =>
    some (s, { l with m_pHead := some pNext })
  | none, none => some (s, { l with m_pHead := none, m_pTail := none })

/-- The member `deleteNode(pNode)` for `pNode != NULL`:
`pPrevNode = pNode->m_pPrev; pNextNode = pNode->m_pNext;`, the four cases,
`SAFE_DELETE(pNode); m_iLength--; return pNextNode;`. The result is the store,
the list and the returned pointer. -/
def deleteNode (s : Store tVARTYPE) (l : CLinkList) (pNode : Nat) :
    Option (Store tVARTYPE × CLinkList × Option Nat) :=
  (s.getPrev pNode).bind fun pPrevNode =>
  (s.getNext pNode).bind fun pNextNode =>
  (unlink s l pPrevNode pNextNode).bind fun (s, l) =>
  (s.free pNode).bind fun s =>
  some (s, { l with m_iLength := wrapInt (l.m_iLength - 1) }, pNextNode)

/-- The member `moveToEnd(pNode)` for `pNode != NULL`:
`if (getLength() == 1) return; if (pNode == m_pTail) return;`
`pPrevNode = pNode->m_pPrev; pNextNode = pNode->m_pNext;`, the four cases,
`pNode->m_pNext = NULL; m_pTail->m_pNext = pNode; pNode->m_pPrev = m_pTail;`
`m_pTail = pNode;`. -/
def moveToEnd (s : Store tVARTYPE) (l : CLinkList) (pNode : Nat) :
    Option (Store tVARTYPE × CLinkList) :=
  if l.getLength = 1 then some (s, l)
  else if some pNode = l.m_pTail then some (s, l)
  else
    (s.getPrev pNode).bind fun pPrevNode =>
    (s.getNext pNode).bind fun pNextNode =>
    (unlink s l pPrevNode pNextNode).bind fun (s, l) =>
    (s.setNext pNode none).bind fun s =>
    l.m_pTail.bind fun pTail =>
    (s.setNext pTail (some pNode)).bind fun s =>
    (s.setPrev pNode l.m_pTail).bind fun s =>
    some (s, { l with m_pTail := some pNode })

/-- The loop of `clear`,
`while (pCurrNode != NULL) { pNextNode = pCurrNode->m_pNext; SAFE_DELETE(pCurrNode); pCurrNode = pNextNode; }`,
run for at most `fuel` iterations; `none` when it has not ended by then. -/
def clearLoop : Nat → Store tVARTYPE → Option Nat → Option (Store tVARTYPE)
  | _, s, none => some s
  | 0, _, some _ => none
  | fuel + 1, s, some pCurrNode =>
    (s.getNext pCurrNode).bind fun pNextNode =>
    (s.free pCurrNode).bind fun s =>
    clearLoop fuel s pNextNode

/-- The member `clear`: `pCurrNode = m_pHead;`, the loop,
`m_iLength = 0; m_pHead = NULL; m_pTail = NULL;`. -/
def clear (fuel : Nat) (s : Store tVARTYPE) (l : CLinkList) :
    Option (Store tVARTYPE × CLinkList) :=
  (clearLoop fuel s l.m_pHead).map fun s => (s, ⟨0, none, none⟩)

/-- The nodes and their data met from `pNode` on along `m_pNext`, as the loop
of `Write` visits them (`while (pNode) { … pNode->m_data …; pNode = next(pNode); }`),
at most `fuel` of them; the walk ends at `NULL` or at the address of no node. -/
def walkNext (s : Store tVARTYPE) : Nat → Option Nat → List (Nat × tVARTYPE)
  | 0, _ => []
  | _ + 1, none => []
  | fuel + 1, some pNode =>
    match s pNode with
    | none => []
    | some n => (pNode, n.m_data) :: walkNext s fuel n.m_pNext

/-- The nodes and their data met from `pNode` on along `m_pPrev`, at most
`fuel` of them. -/
def walkPrev (s : Store tVARTYPE) : Nat → Option Nat → List (Nat × tVARTYPE)
  | 0, _ => []
  | _ + 1, none => []
  | fuel + 1, some pNode =>
    match s pNode with
    | none => []
    | some n => (pNode, n.m_data) :: walkPrev s fuel n.m_pPrev

/-! ### Well-formed lists and the operations that build them -/

/-- The address of the first node of a sequence of nodes, `d` when there is
none. -/
def headPtr (xs : List (Nat × tVARTYPE)) (d : Option Nat) : Option Nat :=
  match xs with
  | [] => d
  | x :: _ => some x.1

/-- The address of the last node of a sequence of nodes, `d` when there is
none. -/
def lastPtr : List (Nat × tVARTYPE) → Option Nat → Option Nat
  | [], d => d
  | x :: xs, _ => lastPtr xs (some x.1)

/-- The nodes `xs`, given by address and data, are chained in this order: each
lives in the store with its data, its `m_pNext` is the address of its
successor (`pNext` for the last) and its `m_pPrev` the address of its
predecessor (`pPrev` for the first). -/
def Links (s : Store tVARTYPE) : Option Nat → List (Nat × tVARTYPE) → Option Nat → Prop
  | _, [], _ => True
  | pPrev, x :: xs, pNext =>
    s x.1 = some ⟨x.2, headPtr xs pNext, pPrev⟩ ∧ Links s (some x.1) xs pNext

instance Links.instDecidable [DecidableEq tVARTYPE] (s : Store tVARTYPE) :
    ∀ (pPrev : Option Nat) (xs : List (Nat × tVARTYPE)) (pNext : Option Nat),
      Decidable (Links s pPrev xs pNext)
  | _, [], _ => isTrue trivial
  | _, x :: xs, pNext =>
    @instDecidableAnd _ _ _ (Links.instDecidable s (some x.1) xs pNext)

/-- A well-formed list: the list object `l` holds the nodes `xs`, given by
address and data, in this order. The nodes are distinct slots of the store,
`m_iLength` is their number, `m_pHead` and `m_pTail` are the first and the last
(`NULL` when there is none), and they are chained from `NULL` to `NULL`. -/
def IsList (s : Store tVARTYPE) (l : CLinkList) (xs : List (Nat × tVARTYPE)) : Prop :=
  (xs.map Prod.fst).Nodup ∧ (∀ a ∈ xs.map Prod.fst, a < storeLimit) ∧
  l.m_iLength = xs.length ∧ l.m_pHead = headPtr xs none ∧ l.m_pTail = lastPtr xs none ∧
  Links s none xs none

instance IsList.instDecidable [DecidableEq tVARTYPE] (s : Store tVARTYPE) (l : CLinkList)
    (xs : List (Nat × tVARTYPE)) : Decidable (IsList s l xs) := by
  unfold IsList
  exact inferInstance

/-- The node `p` is the argument of a call on the list `l`: it is met on the
walk from `m_pHead` along `m_pNext`. -/
def IsNodeOf (s : Store tVARTYPE) (l : CLinkList) (p : Nat) : Prop :=
  ∃ fuel, p ∈ (walkNext s fuel l.m_pHead).map Prod.fst

/-- The states that two list objects reach from two empty lists in an empty
store by the operations of the class: each operation is applied to the first
list, the second list being the argument of `swap` and `concatenate`, and the
two objects may change places, so that every operation applies to either. A
node argument is a node of the list (or `NULL`, which `insertBefore` and
`insertAfter` accept). -/
inductive Reachable : Store tVARTYPE → CLinkList → CLinkList → Prop
  | ctor : Reachable (fun _ => none) CLinkList.ctor CLinkList.ctor
  | exchange {s l list} : Reachable s l list → Reachable s list l
  | insertAtBeginning {s l list} (val : tVARTYPE) (pNode : Nat) {s1 l1} :
      Reachable s l list → insertAtBeginning s l val pNode = some (s1, l1) →
      Reachable s1 l1 list
  | insertAtEnd {s l list} (val : tVARTYPE) (pNode : Nat) {s1 l1} :
      Reachable s l list → insertAtEnd s l val pNode = some (s1, l1) →
      Reachable s1 l1 list
  | insertBefore {s l list} (val : tVARTYPE) (pThisNode : Option Nat) (pNode : Nat) {s1 l1} :
      Reachable s l list → (∀ p, pThisNode = some p → IsNodeOf s l p) →
      insertBefore s l val pThisNode pNode = some (s1, l1) → Reachable s1 l1 list
  | insertAfter {s l list} (val : tVARTYPE) (pThisNode : Option Nat) (pNode : Nat) {s1 l1} :
      Reachable s l list → (∀ p, pThisNode = some p → IsNodeOf s l p) →
      insertAfter s l val pThisNode pNode = some (s1, l1) → Reachable s1 l1 list
  | deleteNode {s l list} (pNode : Nat) {s1 l1 pNext} :
      Reachable s l list → IsNodeOf s l pNode →
      deleteNode s l pNode = some (s1, l1, pNext) → Reachable s1 l1 list
  | moveToEnd {s l list} (pNode : Nat) {s1 l1} :
      Reachable s l list → IsNodeOf s l pNode →
      moveToEnd s l pNode = some (s1, l1) → Reachable s1 l1 list
  | concatenate {s l list} {s1 l1 list1} :
      Reachable s l list → concatenate s l list = some (s1, l1, list1) →
      Reachable s1 l1 list1
  | swap {s l list} : Reachable s l list → Reachable s (swap l list).1 (swap l list).2
  | clear {s l list} (fuel : Nat) {s1 l1} :
      Reachable s l list → clear fuel s l = some (s1, l1) → Reachable s1 l1 list

/-- The structural invariant of the list object `l` in the store `s`, for
some sequence `xs` of nodes: `getLength()` is the number of nodes, the walk
from `head()` along `m_pNext` visits exactly these nodes and then ends at
`NULL`, the walk from `tail()` along `m_pPrev` visits them in reverse, `head()`
is `NULL` iff `tail()` is `NULL` iff `getLength() == 0`, the head has no
predecessor and the tail no successor, and the assertion of the inserting
functions holds. -/
def StructuralInvariant (s : Store tVARTYPE) (l : CLinkList) : Prop :=
  ∃ xs : List (Nat × tVARTYPE),
    l.getLength = xs.length ∧
    (∀ k, walkNext s (xs.length + k) l.head = xs) ∧
    (∀ k, walkPrev s (xs.length + k) l.tail = xs.reverse) ∧
    (l.head = none ↔ l.tail = none) ∧ (l.tail = none ↔ l.getLength = 0) ∧
    (∀ p, l.head = some p → prev s p = some none) ∧
    (∀ p, l.tail = some p → next s p = some none) ∧
    insertAssert l = true

/-- A sample store for the examples: the nodes `10, 20, 30` at the addresses
`0, 1, 2`, chained in this order, and the nodes `40, 50` at the addresses
`3, 4`, chained in this order. -/
def sampleStore : Store Nat := fun a =>
  if a = 0 then some ⟨10, some 1, none⟩
  else if a = 1 then some ⟨20, some 2, some 0⟩
  else if a = 2 then some ⟨30, none, some 1⟩
  else if a = 3 then some ⟨40, some 4, none⟩
  else if a = 4 then some ⟨50, none, some 3⟩
  else none

/-- The list object of the first chain of the sample store. -/
def sampleListA : CLinkList := ⟨3, some 0, some 2⟩

/-- The list object of the second chain of the sample store. -/
def sampleListB : CLinkList := ⟨2, some 3, some 4⟩

/-- The store that the following calls leave behind, starting from two empty
lists in an empty store: on the first list `insertAtEnd(10)` (node at address
`0`) and `insertAtBeginning(5)` (address `1`), on the second list
`insertAtEnd(7)` (address `2`), on the first list `moveToEnd` of the node at
`1` and `concatenate` with the second list. Every assignment to a node is one
update. -/
def reachedStore : Store Nat :=
  Function.update (Function.update (Function.update (Function.update (Function.update
    (Function.update (Function.update (Function.update (Function.update (Function.update
      (Function.update (fun _ => none)
        0 (some ⟨10, none, none⟩))
        1 (some ⟨5, none, none⟩))
        0 (some ⟨10, none, some 1⟩))
        1 (some ⟨5, some 0, none⟩))
        2 (some ⟨7, none, none⟩))
        0 (some ⟨10, none, none⟩))
        1 (some ⟨5, none, none⟩))
        0 (some ⟨10, some 1, none⟩))
        1 (some ⟨5, none, some 0⟩))
        1 (some ⟨5, some 2, some 0⟩))
        2 (some ⟨7, none, some 1⟩)

end CLinkList


/-! ## Arithmetic lemmas -/

theorem wrapInt_of_range {x : Int} (h1 : -2147483648 ≤ x) (h2 : x ≤ 2147483647) :
    wrapInt x = x := by
  unfold wrapInt; omega

theorem wrapUInt_of_range {x : Int} (h1 : 0 ≤ x) (h2 : x ≤ 4294967295) :
    wrapUInt x = x := by
  unfold wrapUInt; omega

theorem wrapLongLong_of_range {x : Int} (h1 : -9223372036854775808 ≤ x)
    (h2 : x ≤ 9223372036854775807) : wrapLongLong x = x := by
  unfold wrapLongLong; omega

theorem wrap_of_inRange {T : IntType} {x : Int} (h : T.InRange x) : T.wrap x = x := by
  cases T <;> simp only [IntType.InRange, IntType.MIN, IntType.MAX] at h
  · exact wrapInt_of_range h.1 h.2
  · exact wrapUInt_of_range h.1 h.2

theorem tdiv_of_nonneg {a b : Int} (ha : 0 ≤ a) (hb : 0 ≤ b) : Int.tdiv a b = a / b :=
  Int.tdiv_eq_ediv ha hb

theorem tdiv_of_nonpos {a b : Int} (ha : a ≤ 0) (hb : 0 ≤ b) :
    Int.tdiv a b = -((-a) / b) := by
  have h : Int.tdiv (-a) b = (-a) / b := Int.tdiv_eq_ediv (by omega) hb
  rw [← h, Int.neg_tdiv, neg_neg]

theorem divTraps_int (a b : Int) :
    IntType.divTraps .int a b = true ↔ b = 0 ∨ (a = -2147483648 ∧ b = -1) := by
  simp [IntType.divTraps, IntType.bSIGNED, IntType.MIN]

theorem divTraps_uint (a b : Int) : IntType.divTraps .uint a b = true ↔ b = 0 := by
  simp [IntType.divTraps, IntType.bSIGNED]

/-- No square of an integer is an odd multiple of an odd power of two. -/
theorem sq_ne_odd_pow_two (k : Nat) :
    ∀ S m : Int, S * S ≠ 2 ^ (2 * k + 1) * (2 * m + 1) := by
  induction k with
  | zero =>
    intro S m h
    simp only [Nat.mul_zero, Nat.zero_add, pow_one] at h
    rcases Int.even_or_odd S with ⟨s, rfl⟩ | ⟨s, rfl⟩
    · have e : (s + s) * (s + s) = 4 * (s * s) := by ring
      omega
    · have e : (2 * s + 1) * (2 * s + 1) = 4 * (s * s) + 4 * s + 1 := by ring
      omega
  | succ k ih =>
    intro S m h
    have e2 : (2 : Int) ^ (2 * (k + 1) + 1) * (2 * m + 1) =
        4 * (2 ^ (2 * k + 1) * (2 * m + 1)) := by ring
    rw [e2] at h
    rcases Int.even_or_odd S with ⟨s, rfl⟩ | ⟨s, rfl⟩
    · have e : (s + s) * (s + s) = 4 * (s * s) := by ring
      exact ih s m (by omega)
    · have e : (2 * s + 1) * (2 * s + 1) = 4 * (s * s) + 4 * s + 1 := by ring
      omega

/-- The product of a scale with itself, formed in `int`, is never `MIN`. -/
theorem wrapInt_sq_ne_min (S : Int) : wrapInt (wrapInt S * S) ≠ -2147483648 := by
  intro h
  have h31 : (2 : Int) ^ (2 * 15 + 1) = 2147483648 := by norm_num
  have hw : ∃ j, wrapInt S = S - 4294967296 * j := ⟨(S + 2147483648) / 4294967296, by
    unfold wrapInt; omega⟩
  obtain ⟨j, hj⟩ := hw
  have hX : ∀ X : Int, wrapInt X = -2147483648 →
      ∃ k, X = -2147483648 + 4294967296 * k := by
    intro X hX
    exact ⟨(X + 2147483648) / 4294967296, by unfold wrapInt at hX; omega⟩
  obtain ⟨k, hk⟩ := hX _ h
  rw [hj] at hk
  have e : S * S = 2 ^ (2 * 15 + 1) * (2 * (k + j * S - 1) + 1) := by
    rw [h31]
    have : (S - 4294967296 * j) * S = S * S - 4294967296 * (j * S) := by ring
    rw [this] at hk
    have e3 : (2147483648 : Int) * (2 * (k + j * S - 1) + 1) =
        4294967296 * k + 4294967296 * (j * S) - 2147483648 := by ring
    rw [e3]
    omega
  exact sq_ne_odd_pow_two 15 S _ e

/-- The floor quotient and its defining bounds, with the product as a term. -/
theorem ediv_bounds (a : Int) {b : Int} (hb : 0 < b) :
    a / b * b ≤ a ∧ a < a / b * b + b := by
  constructor
  · exact Int.ediv_mul_le a (by omega)
  · have := Int.lt_ediv_add_one_mul_self a hb
    rw [add_mul, one_mul] at this
    exact this

theorem ediv_nonneg_le {a b : Int} (ha : 0 ≤ a) (hb : 0 < b) :
    0 ≤ a / b ∧ a / b ≤ a := by
  constructor
  · exact Int.ediv_nonneg ha (by omega)
  · exact Int.ediv_le_self b ha

theorem ediv_le_half {a b : Int} (ha : 0 ≤ a) (hb : 2 ≤ b) : 2 * (a / b) ≤ a := by
  have h1 := (ediv_bounds a (show 0 < b by omega)).1
  have h2 := (ediv_nonneg_le ha (show 0 < b by omega)).1
  have h3 : a / b * 2 ≤ a / b * b := Int.mul_le_mul_of_nonneg_left hb h2
  omega

/-- A truncating quotient by a positive divisor stays in every interval around
zero that holds the dividend. -/
theorem tdiv_bounded {a b lo hi : Int} (hb : 0 < b) (hlo : lo ≤ 0) (hhi : 0 ≤ hi)
    (h1 : lo ≤ a) (h2 : a ≤ hi) : lo ≤ Int.tdiv a b ∧ Int.tdiv a b ≤ hi := by
  by_cases ha : 0 ≤ a
  · have := ediv_nonneg_le ha hb
    rw [tdiv_of_nonneg ha (by omega)]; omega
  · have := ediv_nonneg_le (show 0 ≤ -a by omega) hb
    rw [tdiv_of_nonpos (by omega) (by omega)]; omega

/-- The quotient `(m + b / 2) / b` is an integer nearest to `m / b`, and in a
tie it is the larger one. -/
theorem round_half_up {m b : Int} (hb : 0 < b) :
    2 * |(m + b / 2) / b * b - m| ≤ b ∧
    (2 * |(m + b / 2) / b * b - m| = b → m < (m + b / 2) / b * b) := by
  have hq := ediv_bounds (m + b / 2) hb
  generalize (m + b / 2) / b * b = t at hq ⊢
  constructor
  · rcases abs_cases (t - m) with ⟨h1, _⟩ | ⟨h1, _⟩ <;> rw [h1] <;> omega
  · intro h
    rcases abs_cases (t - m) with ⟨h1, _⟩ | ⟨h1, _⟩ <;> rw [h1] at h <;> omega

/-- A truncating quotient of two `int` values fits `int`, the quotient of `MIN`
by `-1` excepted. -/
theorem tdiv_int_range {m b : Int} (hm1 : -2147483648 ≤ m) (hm2 : m ≤ 2147483647)
    (hb : b ≠ 0) (hx : ¬ (m = -2147483648 ∧ b = -1)) :
    -2147483648 ≤ Int.tdiv m b ∧ Int.tdiv m b ≤ 2147483647 := by
  by_cases hpos : 0 < b
  · exact tdiv_bounded hpos (by omega) (by omega) hm1 hm2
  · have hnb : 0 < -b := by omega
    have e : Int.tdiv m b = -(Int.tdiv m (-b)) := by
      rw [← Int.tdiv_neg, neg_neg]
    rw [e]
    by_cases hm : m = -2147483648
    · have h2 : 2 ≤ -b := by omega
      have hq := ediv_le_half (show (0 : Int) ≤ 2147483648 by omega) h2
      have hq0 := ediv_nonneg_le (show (0 : Int) ≤ 2147483648 by omega) hnb
      rw [hm, tdiv_of_nonpos (by omega) (by omega)]
      simp only [neg_neg]
      omega
    · have := tdiv_bounded (a := m) hnb (show (-2147483647 : Int) ≤ 0 by omega)
        (show (0 : Int) ≤ 2147483647 by omega) (by omega) hm2
      omega

theorem ediv_eq_of_bounds {a b q : Int} (hb : 0 < b) (h1 : q * b ≤ a) (h2 : a < q * b + b) :
    a / b = q := by
  have h3 : a < (q + 1) * b := by rw [add_mul, one_mul]; exact h2
  have h4 : a / b < q + 1 := Int.ediv_lt_of_lt_mul hb h3
  have h5 : q ≤ a / b := Int.le_ediv_of_mul_le hb h1
  omega

/-- Truncating conversion of a non-negative `v` from the scale `A` to the scale
`B` and back: the result is at most `v` and misses it by less than `A + B`
units of `1 / (A * B)`. -/
theorem trunc_round_trip {v A B : Int} (hA : 0 < A) (hB : 0 < B) :
    v * B / A * A / B ≤ v ∧ (v - v * B / A * A / B) * B < A + B ∧
    (A ∣ v * B → v * B / A * A / B = v) := by
  obtain ⟨a1, a2⟩ := ediv_bounds (v * B) hA
  obtain ⟨b1, b2⟩ := ediv_bounds (v * B / A * A) hB
  refine ⟨?_, ?_, ?_⟩
  · have : v * B / A * A / B * B ≤ v * B := by omega
    exact Int.le_of_mul_le_mul_right this hB
  · rw [sub_mul]; omega
  · intro hd
    rw [Int.ediv_mul_cancel hd, Int.mul_ediv_cancel _ (by omega)]

/-- The same for the truncating division of C++ and a value of either sign: the
result lies between zero and `v`. -/
theorem tdiv_round_trip {v A B : Int} (hA : 0 < A) (hB : 0 < B) :
    (0 ≤ v → 0 ≤ Int.tdiv (Int.tdiv (v * B) A * A) B ∧
      Int.tdiv (Int.tdiv (v * B) A * A) B ≤ v) ∧
    (v ≤ 0 → v ≤ Int.tdiv (Int.tdiv (v * B) A * A) B ∧
      Int.tdiv (Int.tdiv (v * B) A * A) B ≤ 0) ∧
    |v - Int.tdiv (Int.tdiv (v * B) A * A) B| * B < A + B ∧
    (A ∣ v * B → Int.tdiv (Int.tdiv (v * B) A * A) B = v) := by
  have pos : ∀ x : Int, 0 ≤ x →
      Int.tdiv (Int.tdiv (x * B) A * A) B = x * B / A * A / B := by
    intro x hx
    have h1 : 0 ≤ x * B := Int.mul_nonneg hx (by omega)
    have h2 := (ediv_nonneg_le h1 hA).1
    rw [tdiv_of_nonneg h1 (by omega), tdiv_of_nonneg (Int.mul_nonneg h2 (by omega)) (by omega)]
  have neg : ∀ x : Int, x ≤ 0 →
      Int.tdiv (Int.tdiv (x * B) A * A) B = -((-x) * B / A * A / B) := by
    intro x hx
    have h1 : 0 ≤ (-x) * B := Int.mul_nonneg (by omega) (by omega)
    have h2 := (ediv_nonneg_le h1 hA).1
    have h3 : x * B ≤ 0 := by rw [neg_mul] at h1; omega
    rw [tdiv_of_nonpos h3 (by omega), ← neg_mul, neg_mul (-x * B / A) A,
      tdiv_of_nonpos (by
        have := Int.mul_nonneg h2 (show 0 ≤ A by omega)
        omega) (by omega), neg_neg]
  have nonneg : ∀ x : Int, 0 ≤ x → 0 ≤ x * B / A * A / B := by
    intro x hx
    have h1 : 0 ≤ x * B := Int.mul_nonneg hx (by omega)
    have h2 := (ediv_nonneg_le h1 hA).1
    exact (ediv_nonneg_le (Int.mul_nonneg h2 (by omega)) hB).1
  by_cases hv : 0 ≤ v
  · obtain ⟨t1, t2, t3⟩ := trunc_round_trip (v := v) hA hB
    have t0 := nonneg v hv
    rw [pos v hv]
    refine ⟨fun _ => ⟨t0, t1⟩, fun h => ⟨by omega, by omega⟩, ?_, t3⟩
    rw [abs_of_nonneg (by omega)]
    exact t2
  · obtain ⟨t1, t2, t3⟩ := trunc_round_trip (v := -v) hA hB
    have t0 := nonneg (-v) (by omega)
    rw [neg v (by omega)]
    refine ⟨fun h => absurd h hv, fun _ => ⟨by omega, by omega⟩, ?_, ?_⟩
    · rw [abs_of_nonpos (by omega)]
      have e : -(v - -(-v * B / A * A / B)) = -v - -v * B / A * A / B := by ring
      rw [e]
      exact t2
    · intro hd
      have hd' : A ∣ -v * B := by rw [neg_mul]; exact (Int.dvd_neg).mpr hd
      rw [t3 hd', neg_neg]

/-- Rounding conversion of `v` from the scale `A` to a finer scale `B` and back
returns `v`. -/
theorem round_round_trip_finer {v A B : Int} (hA : 0 < A) (hAB : A < B) :
    ((v * B + A / 2) / A * A + B / 2) / B = v := by
  obtain ⟨a1, a2⟩ := ediv_bounds (v * B + A / 2) hA
  apply ediv_eq_of_bounds (by omega) <;> omega

/-- Rounding conversion of `v` from the scale `A` to a coarser scale `B` and
back misses `v` by at most `A` units of `1 / (A * B)`. -/
theorem round_round_trip_coarser {v A B : Int} (hB : 0 < B) (hBA : B < A) :
    |((v * B + A / 2) / A * A + B / 2) / B - v| * B ≤ A := by
  obtain ⟨a1, a2⟩ := ediv_bounds (v * B + A / 2) (show 0 < A by omega)
  obtain ⟨b1, b2⟩ := ediv_bounds ((v * B + A / 2) / A * A + B / 2) hB
  rcases abs_cases (((v * B + A / 2) / A * A + B / 2) / B - v) with ⟨h1, _⟩ | ⟨h1, _⟩ <;>
    rw [h1] <;> simp only [neg_sub, sub_mul] <;> omega

namespace ScaledInt

/-! ## Evaluation of `toScale` and `getInt` when nothing overflows -/

/-- The value that `fromDouble` converts to `INT`: an integer nearest to `x`,
a half being rounded away from zero. -/
theorem truncate_half_away (x : ℚ) :
    let n := truncate (x + (if x > 0 then 1 / 2 else -(1 / 2)))
    x - 1 / 2 ≤ (n : ℚ) ∧ (n : ℚ) ≤ x + 1 / 2 ∧
    (0 < x → x - 1 / 2 < (n : ℚ)) ∧ (x ≤ 0 → (n : ℚ) < x + 1 / 2) := by
  intro n
  by_cases hx : x > 0
  · have hn : n = ⌊x + 1 / 2⌋ := by
      simp only [n, hx, if_true, truncate]
      rw [if_pos (by linarith)]
    have f1 := Int.floor_le (x + 1 / 2)
    have f2 := Int.lt_floor_add_one (x + 1 / 2)
    rw [← hn] at f1 f2
    refine ⟨by linarith, f1, fun _ => by linarith, fun h => absurd hx (not_lt.mpr h)⟩
  · have hx' : x ≤ 0 := not_lt.mp hx
    have hn : n = ⌈x + -(1 / 2)⌉ := by
      simp only [n, hx, if_false, truncate]
      rw [if_neg (by linarith)]
    have f1 := Int.le_ceil (x + -(1 / 2))
    have f2 := Int.ceil_lt_add_one (x + -(1 / 2))
    rw [← hn] at f1 f2
    refine ⟨by linarith, by linarith, fun h => absurd h hx, fun _ => by linarith⟩

theorem toScale_int (iNum iDen iToScale : Int) (hden : 0 < iDen)
    (hprod : MIN_INT ≤ iNum * iToScale ∧ iNum * iToScale ≤ MAX_INT) :
    toScale .int iNum iDen iToScale = some (Int.tdiv (iNum * iToScale) iDen) := by
  unfold MIN_INT MAX_INT at hprod
  have hb := tdiv_bounded (a := iNum * iToScale) hden (show (-2147483648 : Int) ≤ 0 by omega)
    (show (0 : Int) ≤ 2147483647 by omega) hprod.1 hprod.2
  have hne : iDen ≠ 0 := by omega
  simp only [toScale, IntType.bSIGNED, IntType.wrap, Bool.not_true, Bool.false_eq_true,
    if_false, hne]
  rw [wrapInt_of_range hprod.1 hprod.2, wrapLongLong_of_range (by omega) (by omega),
    wrapInt_of_range hb.1 hb.2]

theorem toScale_uint (iNum iDen iToScale : Int) (hden : 0 < iDen) (hden' : iDen ≤ MAX_INT)
    (hprod : 0 ≤ iNum * iToScale ∧ iNum * iToScale ≤ MAX_INT) :
    toScale .uint iNum iDen iToScale = some ((iNum * iToScale + iDen / 2) / iDen) := by
  unfold MAX_INT at hprod hden'
  have hq := ediv_nonneg_le (show 0 ≤ iNum * iToScale + iDen / 2 by omega) hden
  have hne : iDen ≠ 0 := by omega
  simp only [toScale, IntType.bSIGNED, IntType.wrap, Bool.not_false, if_true, hne, if_false]
  rw [wrapInt_of_range (by omega) hprod.2,
    tdiv_of_nonneg (a := iDen) (b := 2) (by omega) (by omega),
    wrapLongLong_of_range (x := iNum * iToScale + iDen / 2) (by omega) (by omega),
    tdiv_of_nonneg (a := iNum * iToScale + iDen / 2) (by omega) (by omega),
    wrapLongLong_of_range (x := (iNum * iToScale + iDen / 2) / iDen) (by omega) (by omega),
    wrapUInt_of_range (by omega) (by omega)]

theorem getInt_int_pos (SCALE : Int) (r : ScaledInt SCALE .int) (hS : 0 < SCALE)
    (hpos : 0 < r.m_i) (hhi : r.m_i + SCALE / 2 ≤ 2147483647) :
    r.getInt = (r.m_i + SCALE / 2) / SCALE := by
  have hq := ediv_nonneg_le (show 0 ≤ r.m_i + SCALE / 2 by omega) hS
  simp only [getInt, IntType.bSIGNED, IntType.conv, IntType.wrap, IntType.div, hpos,
    Bool.not_true, Bool.false_or, decide_True, if_true]
  rw [tdiv_of_nonneg (show 0 ≤ SCALE by omega) (by omega),
    wrapInt_of_range (x := r.m_i + SCALE / 2) (by omega) hhi,
    tdiv_of_nonneg (by omega) (by omega),
    wrapInt_of_range (x := (r.m_i + SCALE / 2) / SCALE) (by omega) (by omega),
    wrapInt_of_range (x := (r.m_i + SCALE / 2) / SCALE) (by omega) (by omega)]

theorem getInt_int_nonpos (SCALE : Int) (r : ScaledInt SCALE .int) (hS : 0 < SCALE)
    (hneg : r.m_i ≤ 0) (hlo : -2147483648 ≤ r.m_i - SCALE / 2) :
    r.getInt = -((SCALE / 2 - r.m_i) / SCALE) := by
  have hq := ediv_nonneg_le (show 0 ≤ SCALE / 2 - r.m_i by omega) hS
  have hn : ¬ (r.m_i > 0) := by omega
  have e2 : Int.tdiv SCALE (-2) = -(SCALE / 2) := by
    rw [show (-2 : Int) = -(2 : Int) by rfl, Int.tdiv_neg,
      tdiv_of_nonneg (show 0 ≤ SCALE by omega) (by omega)]
  simp only [getInt, IntType.bSIGNED, IntType.conv, IntType.wrap, IntType.div, hn,
    Bool.not_true, Bool.false_or, decide_False, Bool.false_eq_true, if_false, e2]
  rw [wrapInt_of_range (x := r.m_i + -(SCALE / 2)) (by omega) (by omega),
    tdiv_of_nonpos (by omega) (by omega),
    show -(r.m_i + -(SCALE / 2)) = SCALE / 2 - r.m_i by ring,
    wrapInt_of_range (x := -((SCALE / 2 - r.m_i) / SCALE)) (by omega) (by omega),
    wrapInt_of_range (x := -((SCALE / 2 - r.m_i) / SCALE)) (by omega) (by omega)]

theorem getInt_uint (SCALE : Int) (r : ScaledInt SCALE .uint) (hS : 2 ≤ SCALE)
    (hS' : SCALE ≤ MAX_INT) (h0 : 0 ≤ r.m_i) (hhi : r.m_i + SCALE / 2 ≤ 4294967295) :
    r.getInt = (r.m_i + SCALE / 2) / SCALE := by
  have hq := ediv_nonneg_le (show 0 ≤ r.m_i + SCALE / 2 by omega) (show 0 < SCALE by omega)
  have hh := ediv_le_half (show 0 ≤ r.m_i + SCALE / 2 by omega) hS
  unfold MAX_INT at hS'
  simp only [getInt, IntType.bSIGNED, IntType.conv, IntType.wrap, IntType.div,
    Bool.not_false, Bool.true_or, if_true]
  rw [tdiv_of_nonneg (show 0 ≤ SCALE by omega) (by omega),
    wrapUInt_of_range (x := SCALE / 2) (by omega) (by omega),
    wrapUInt_of_range (x := r.m_i + SCALE / 2) (by omega) hhi,
    wrapUInt_of_range (x := SCALE) (by omega) (by omega),
    tdiv_of_nonneg (by omega) (by omega),
    wrapUInt_of_range (x := (r.m_i + SCALE / 2) / SCALE) (by omega) (by omega),
    wrapInt_of_range (x := (r.m_i + SCALE / 2) / SCALE) (by omega) (by omega)]

/-! ## Conversion from and to `int` -/

/-- Claim C1 (round trip of `ScaledInt(i).getInt()` at the endpoints), evaluated
for `scaled_int` at the lower endpoint `i = MIN / SCALE = -2097152`: the
constructor assertion accepts `i` and stores `m_i = MIN` exactly, but `getInt`
adds `SCALE / -2` to it before dividing, the sum leaves the range of `int`,
and the call returns `2097151` instead of `i`. The upper endpoint `2097151` is
returned unchanged. -/
theorem getInt_ctorInt_lower_endpoint :
    Int.tdiv (IntType.MIN .int) 1024 = -2097152 ∧
    ctorIntAssert 1024 .int (-2097152) = true ∧
    (ctorInt 1024 .int (-2097152)).m_i = -2147483648 ∧
    (ctorInt 1024 .int (-2097152)).getInt = 2097151 ∧
    (ctorInt 1024 .int 2097151).getInt = 2097151 := by
  decide

/-- The integer constructor where the bound of its assertion does not
overflow: for `INT = int` and every `SCALE > 0`, `ScaledInt(i)` stores
`SCALE * i` without wrap-around for every `i` with
`MIN / SCALE <= i <= MAX / SCALE`; and for `SCALE >= 2` its assertion
`FAssertBounds(MIN / SCALE, MAX / SCALE + 1, i)` fails for exactly the `i`
outside that closed interval. -/
theorem ctorInt_exact_and_checked (SCALE i : Int) (hS : 0 < SCALE) :
    (Int.tdiv (IntType.MIN .int) SCALE ≤ i ∧ i ≤ Int.tdiv (IntType.MAX .int) SCALE →
        (ctorInt SCALE .int i).m_i = SCALE * i) ∧
    (2 ≤ SCALE → (ctorIntAssert SCALE .int i = false ↔
        ¬ (Int.tdiv (IntType.MIN .int) SCALE ≤ i ∧
          i ≤ Int.tdiv (IntType.MAX .int) SCALE))) := by
  have hmin : Int.tdiv (IntType.MIN .int) SCALE = -(2147483648 / SCALE) := by
    rw [IntType.MIN, tdiv_of_nonpos (by omega) (by omega)]; rfl
  have hmax : Int.tdiv (IntType.MAX .int) SCALE = 2147483647 / SCALE := by
    rw [IntType.MAX, tdiv_of_nonneg (by omega) (by omega)]
  have b1 := ediv_bounds 2147483648 hS
  have b2 := ediv_bounds 2147483647 hS
  have n1 := ediv_nonneg_le (show (0 : Int) ≤ 2147483648 by omega) hS
  have n2 := ediv_nonneg_le (show (0 : Int) ≤ 2147483647 by omega) hS
  rw [hmin, hmax]
  constructor
  · rintro ⟨hlo, hhi⟩
    have h1 : SCALE * i ≤ SCALE * (2147483647 / SCALE) :=
      Int.mul_le_mul_of_nonneg_left hhi (by omega)
    have h2 : SCALE * (-(2147483648 / SCALE)) ≤ SCALE * i :=
      Int.mul_le_mul_of_nonneg_left hlo (by omega)
    have e1 : SCALE * (2147483647 / SCALE) = 2147483647 / SCALE * SCALE := by ring
    have e2 : SCALE * (-(2147483648 / SCALE)) = -(2147483648 / SCALE * SCALE) := by ring
    have hb : -2147483648 ≤ SCALE * i ∧ SCALE * i ≤ 2147483647 := by omega
    simp only [ctorInt, IntType.wrap]
    rw [wrapInt_of_range hb.1 hb.2, wrapInt_of_range hb.1 hb.2]
  · intro h2S
    have q1 := ediv_le_half (show (0 : Int) ≤ 2147483648 by omega) h2S
    have q2 := ediv_le_half (show (0 : Int) ≤ 2147483647 by omega) h2S
    simp only [ctorIntAssert, FAssertBounds, IntType.div, IntType.conv, IntType.wrap, hmin,
      hmax]
    rw [wrapInt_of_range (x := -(2147483648 / SCALE)) (by omega) (by omega),
      wrapInt_of_range (x := 2147483647 / SCALE) (by omega) (by omega),
      wrapInt_of_range (x := 2147483647 / SCALE + 1) (by omega) (by omega)]
    simp only [Bool.and_eq_false_iff, decide_eq_false_iff_not]
    constructor
    · rintro (h | h) <;> omega
    · intro h
      by_cases h' : -(2147483648 / SCALE) ≤ i
      · right; omega
      · left; exact h'

/-- Witness of `ctorInt_exact_and_checked` for `scaled_int` at `i = 5`. -/
theorem ctorInt_exact_and_checked_witness :
    (Int.tdiv (IntType.MIN .int) 1024 ≤ 5 ∧ 5 ≤ Int.tdiv (IntType.MAX .int) 1024 →
        (ctorInt 1024 .int 5).m_i = 1024 * 5) ∧
    ((2 : Int) ≤ 1024 → (ctorIntAssert 1024 .int 5 = false ↔
        ¬ (Int.tdiv (IntType.MIN .int) 1024 ≤ 5 ∧
          5 ≤ Int.tdiv (IntType.MAX .int) 1024))) :=
  ctorInt_exact_and_checked 1024 5 (by decide)

/-- Claim C8 (the integer constructor is exact and range-checked), evaluated
for `ScaledInt<1,int>` at `i = 0`, which lies inside `[MIN / SCALE, MAX / SCALE]`
and is stored exactly: the exclusive bound `MAX / SCALE + 1` of the assertion
`FAssertBounds(MIN / SCALE, MAX / SCALE + 1, i)` is formed in `int`, where
`MAX + 1` overflows; reduced to `int` it is `MIN`, and the assertion fails for
`i = 0` (and for `MAX` and `MIN`). The assertion `u <= MAX / SCALE` of the sibling
constructor `ScaledInt(uint)` has no such sum and passes, and for `scaled_int`
the assertion passes at `i = 0`. -/
theorem ctorIntAssert_scale_one :
    (Int.tdiv (IntType.MIN .int) 1 ≤ 0 ∧ 0 ≤ Int.tdiv (IntType.MAX .int) 1) ∧
    (ctorInt 1 .int 0).m_i = 1 * 0 ∧
    IntType.int.div (IntType.MAX .int) 1 + 1 = 2147483648 ∧
    ¬ IntType.int.InRange (IntType.int.div (IntType.MAX .int) 1 + 1) ∧
    IntType.int.wrap (IntType.int.div (IntType.MAX .int) 1 + 1) = IntType.MIN .int ∧
    ctorIntAssert 1 .int 0 = false ∧
    ctorIntAssert 1 .int 2147483647 = false ∧
    ctorIntAssert 1 .int (-2147483648) = false ∧
    ctorUIntAssert 1 .int 0 = true ∧
    ctorIntAssert 1024 .int 0 = true := by
  decide

/-- Claim C9, as amended (`getInt` rounds to nearest, with the tie rule): for
`0 < SCALE`, with `2 <= SCALE` when `INT` is unsigned, and every `m_i` such that
`m_i + SCALE / 2` (and, for a signed `INT`, `m_i - SCALE / 2`) stays in the
range of `INT`, the result `n` of `getInt` satisfies `|n - m_i / SCALE| <= 1/2`,
written `2 * |n * SCALE - m_i| <= SCALE`; and in a tie a signed `INT` returns
the integer farther from zero, an unsigned `INT` the larger one. -/
theorem getInt_nearest (SCALE : Int) (T : IntType) (r : ScaledInt SCALE T)
    (hS : 0 < SCALE) (hS' : SCALE ≤ MAX_INT) (hU : T = .uint → 2 ≤ SCALE)
    (hr : T.InRange r.m_i)
    (hlo : T = .int → T.MIN ≤ r.m_i - SCALE / 2)
    (hhi : r.m_i + SCALE / 2 ≤ T.MAX) :
    2 * |r.getInt * SCALE - r.m_i| ≤ SCALE ∧
    (2 * |r.getInt * SCALE - r.m_i| = SCALE →
      (T = .int → |r.m_i| < |r.getInt * SCALE|) ∧
      (T = .uint → r.m_i < r.getInt * SCALE)) := by
  cases T with
  | int =>
    have hlo' := hlo rfl
    simp only [IntType.MIN, IntType.MAX] at hlo' hhi
    by_cases hpos : 0 < r.m_i
    · rw [getInt_int_pos SCALE r hS hpos hhi]
      have hq := ediv_nonneg_le (show 0 ≤ r.m_i + SCALE / 2 by omega) hS
      have ht : 0 ≤ (r.m_i + SCALE / 2) / SCALE * SCALE := Int.mul_nonneg hq.1 (by omega)
      obtain ⟨h1, h2⟩ := round_half_up (m := r.m_i) hS
      refine ⟨h1, fun h => ⟨fun _ => ?_, fun h' => by cases h'⟩⟩
      have h3 := h2 h
      rw [abs_of_pos hpos, abs_of_nonneg ht]
      exact h3
    · rw [getInt_int_nonpos SCALE r hS (by omega) hlo']
      have hq := ediv_nonneg_le (show 0 ≤ SCALE / 2 - r.m_i by omega) hS
      have ht : 0 ≤ (SCALE / 2 - r.m_i) / SCALE * SCALE := Int.mul_nonneg hq.1 (by omega)
      obtain ⟨h1, h2⟩ := round_half_up (m := -r.m_i) hS
      rw [show -r.m_i + SCALE / 2 = SCALE / 2 - r.m_i by ring] at h1 h2
      have e : -((SCALE / 2 - r.m_i) / SCALE) * SCALE - r.m_i =
          -((SCALE / 2 - r.m_i) / SCALE * SCALE - -r.m_i) := by ring
      rw [e, abs_neg]
      refine ⟨h1, fun h => ⟨fun _ => ?_, fun h' => by cases h'⟩⟩
      have h3 := h2 h
      rw [abs_of_nonpos (show r.m_i ≤ 0 by omega), neg_mul, abs_neg, abs_of_nonneg ht]
      exact h3
  | uint =>
    have h2S := hU rfl
    simp only [IntType.InRange, IntType.MIN, IntType.MAX] at hr hhi
    rw [getInt_uint SCALE r h2S hS' hr.1 hhi]
    obtain ⟨h1, h2⟩ := round_half_up (m := r.m_i) hS
    exact ⟨h1, fun h => ⟨fun h' => (by cases h'), fun _ => h2 h⟩⟩

/-- Witness of `getInt_nearest` for `scaled_int` at the tie `m_i = -512`, which
`getInt` rounds to `-1`. -/
theorem getInt_nearest_witness :
    (⟨-512⟩ : ScaledInt 1024 .int).getInt = -1 ∧
    (2 * |(⟨-512⟩ : ScaledInt 1024 .int).getInt * 1024 - (-512)| ≤ 1024 ∧
    (2 * |(⟨-512⟩ : ScaledInt 1024 .int).getInt * 1024 - (-512)| = 1024 →
      (IntType.int = .int →
        |(-512 : Int)| < |(⟨-512⟩ : ScaledInt 1024 .int).getInt * 1024|) ∧
      (IntType.int = .uint →
        (-512 : Int) < (⟨-512⟩ : ScaledInt 1024 .int).getInt * 1024))) :=
  ⟨by decide, getInt_nearest 1024 .int ⟨-512⟩ (by decide) (by decide) (by intro h; cases h)
    (by decide) (by intro _; decide) (by decide)⟩

/-- Claim C9 as stated fails for an unsigned `INT` at `SCALE = 1`: with
`m_i = 3000000000` nothing overflows in `uint`, yet the quotient does not fit
the return type `int` and `getInt` returns `-1294967296`. -/
theorem getInt_uint_scale_one :
    IntType.uint.InRange 3000000000 ∧
    (3000000000 : Int) + 1 / 2 ≤ IntType.MAX .uint ∧
    (⟨3000000000⟩ : ScaledInt 1 .uint).getInt = -1294967296 ∧
    ¬ (2 * |(⟨3000000000⟩ : ScaledInt 1 .uint).getInt * 1 - 3000000000| ≤ 1) := by
  decide

/-! ## Negation, multiplication and comparison with `int` -/

/-- Claim C2 (unary minus negates `m_i`), evaluated for `scaled_int` at
`ScaledInt(1)`, whose `m_i` is `1024`: `operator-()` hands `-m_i` to the
constructor from `int`, which multiplies by `SCALE` once more, so the result
has `m_i = -1048576` and is `ScaledInt(-1024)`, not the value `ScaledInt(-1)`
with `m_i = -1024`. -/
theorem operatorNeg_rescales :
    (ctorInt 1024 .int 1).m_i = 1024 ∧
    (operatorNeg (ctorInt 1024 .int 1)).m_i = -1048576 ∧
    operatorNeg (ctorInt 1024 .int 1) = ctorInt 1024 .int (-1024) ∧
    operatorNeg (ctorInt 1024 .int 1) ≠ ctorInt 1024 .int (-1) ∧
    (ctorInt 1024 .int (-1)).m_i = -1024 := by
  decide

/-- Claim C3 (additive inverse `a + (-a) == ScaledInt(0)`), evaluated for
`scaled_int` at `a = ScaledInt(1)`: no step overflows, and the sum has
`m_i = 1024 - 1048576 = -1047552`, while `ScaledInt(0)` has `m_i = 0`. -/
theorem add_operatorNeg_not_zero :
    (add (ctorInt 1024 .int 1) (operatorNeg (ctorInt 1024 .int 1))).m_i = -1047552 ∧
    add (ctorInt 1024 .int 1) (operatorNeg (ctorInt 1024 .int 1)) ≠ ctorInt 1024 .int 0 ∧
    (ctorInt 1024 .int 0).m_i = 0 := by
  decide

/-- Claim C4 (signed multiplication through a widened intermediate), evaluated
for `scaled_int` at `ScaledInt(46) * ScaledInt(46)`: the exact quotient
`47104 * 47104 / 1024 = 2166784` fits `int`, but the product is formed in
`int`, wraps around to `-2076180480`, and the result has `m_i = -2027520`, the
value `ScaledInt(-1980)` instead of `ScaledInt(2116)`. -/
theorem mul_46_46_wraps :
    (ctorInt 1024 .int 46).m_i = 47104 ∧
    Int.tdiv (47104 * 47104) 1024 = 2166784 ∧
    IntType.int.InRange 2166784 ∧
    (ctorInt 1024 .int 2116).m_i = 2166784 ∧
    wrapInt (47104 * 47104) = -2076180480 ∧
    (mul (ctorInt 1024 .int 46) (ctorInt 1024 .int 46)).m_i = -2027520 ∧
    mul (ctorInt 1024 .int 46) (ctorInt 1024 .int 46) = ctorInt 1024 .int (-1980) := by
  decide

/-- Claim C5 (comparison with an `int` is exact for every `int`), evaluated for
`scaled_int` at `i = 2097152`: `scaleForComparison` forms `i * SCALE` in `int`,
where it wraps around to `MIN`. So `ScaledInt(0) < i` and `ScaledInt(0) <= i`
are false and `>`, `>=` are true although `0 < 2097152 * 1024`, and the value
with `m_i = MIN` compares `==` to `i` although `MIN` differs from
`2097152 * 1024`. -/
theorem compare_int_wraps :
    scaleForComparison 1024 2097152 = -2147483648 ∧
    (0 : Int) < 2097152 * 1024 ∧
    ltInt (ctorInt 1024 .int 0) 2097152 = false ∧
    leInt (ctorInt 1024 .int 0) 2097152 = false ∧
    gtInt (ctorInt 1024 .int 0) 2097152 = true ∧
    geInt (ctorInt 1024 .int 0) 2097152 = true ∧
    (-2147483648 : Int) ≠ 2097152 * 1024 ∧
    eqInt (⟨-2147483648⟩ : ScaledInt 1024 .int) 2097152 = true ∧
    neInt (⟨-2147483648⟩ : ScaledInt 1024 .int) 2097152 = false := by
  decide

/-! ## Construction from a fraction -/

/-- Claim C6, as amended (the constructor from numerator and denominator): for
`0 < SCALE`, `0 < iDen` and a product `iNum * SCALE` that fits `int`, a signed
`INT` stores the quotient `iNum * SCALE / iDen` truncated toward zero, and an
unsigned `INT` with `0 <= iNum` stores an integer nearest to
`iNum * SCALE / iDen`, the larger one in a tie. -/
theorem ctorIntInt_rounding (SCALE : Int) (T : IntType) (iNum iDen : Int)
    (hS : 0 < SCALE) (hden : 0 < iDen) (hden' : iDen ≤ MAX_INT)
    (hprod : MIN_INT ≤ iNum * SCALE ∧ iNum * SCALE ≤ MAX_INT) :
    (T = .int → ctorIntInt SCALE T iNum iDen = some ⟨Int.tdiv (iNum * SCALE) iDen⟩) ∧
    (T = .uint → 0 ≤ iNum →
      ∃ r : ScaledInt SCALE T, ctorIntInt SCALE T iNum iDen = some r ∧
        2 * |r.m_i * iDen - iNum * SCALE| ≤ iDen ∧
        (2 * |r.m_i * iDen - iNum * SCALE| = iDen → iNum * SCALE < r.m_i * iDen)) := by
  constructor
  · intro hT
    subst hT
    simp only [ctorIntInt, toScale_int iNum iDen SCALE hden hprod, Option.map_some']
  · intro hT hnum
    subst hT
    have h0 : 0 ≤ iNum * SCALE := Int.mul_nonneg hnum (by omega)
    refine ⟨⟨(iNum * SCALE + iDen / 2) / iDen⟩, ?_, round_half_up hden⟩
    simp only [ctorIntInt, toScale_uint iNum iDen SCALE hden hden' ⟨h0, hprod.2⟩,
      Option.map_some']

/-- Witness of `ctorIntInt_rounding` for `scaled_uint(2, 3)`. -/
theorem ctorIntInt_rounding_witness :
    ctorIntInt 1024 .uint 2 3 = some ⟨683⟩ ∧
    ((IntType.uint = .int →
      ctorIntInt 1024 .uint 2 3 = some ⟨Int.tdiv (2 * 1024) 3⟩) ∧
    (IntType.uint = .uint → (0 : Int) ≤ 2 →
      ∃ r : ScaledInt 1024 .uint, ctorIntInt 1024 .uint 2 3 = some r ∧
        2 * |r.m_i * 3 - 2 * 1024| ≤ 3 ∧
        (2 * |r.m_i * 3 - 2 * 1024| = 3 → 2 * 1024 < r.m_i * 3))) :=
  ⟨by decide, ctorIntInt_rounding 1024 .uint 2 3 (by decide) (by decide) (by decide)
    (by decide)⟩

/-- Claim C6 as stated fails for a signed `INT`: `scaled_int(2, 3)` stores
`2048 / 3` truncated, `682`, which is farther than `1/2` from `2048/3`; the
nearest integer is `683`. -/
theorem ctorIntInt_signed_truncates :
    ctorIntInt 1024 .int 2 3 = some ⟨682⟩ ∧
    ¬ (2 * |(682 : Int) * 3 - 2 * 1024| ≤ 3) ∧
    2 * |(683 : Int) * 3 - 2 * 1024| ≤ 3 := by
  decide

/-- Claim C7 (`fromRational<N,D>()` rounds to nearest, a half away from zero),
with `N / D` an exact rational: for `0 < SCALE`, `D != 0` and a quotient
`x = N * SCALE / D` whose rounded value fits `INT` (`MIN - 1/2 < x < MAX + 1/2`),
the stored `m_i` lies in the range of `INT`, `|m_i - x| <= 1/2`, and in a tie
`m_i` is the integer of the larger absolute value. -/
theorem fromRational_nearest (SCALE : Int) (T : IntType) (N D : Int) (hS : 0 < SCALE)
    (_hD : D ≠ 0)
    (hlo : (T.MIN : ℚ) - 1 / 2 < (N : ℚ) * SCALE / D)
    (hhi : (N : ℚ) * SCALE / D < (T.MAX : ℚ) + 1 / 2) :
    T.InRange (fromRational SCALE T N D).m_i ∧
    |((fromRational SCALE T N D).m_i : ℚ) - (N : ℚ) * SCALE / D| ≤ 1 / 2 ∧
    (|((fromRational SCALE T N D).m_i : ℚ) - (N : ℚ) * SCALE / D| = 1 / 2 →
      |(N : ℚ) * SCALE / D| < |((fromRational SCALE T N D).m_i : ℚ)|) := by
  have hSq : (0 : ℚ) < (SCALE : ℚ) := by exact_mod_cast hS
  have hx : (N : ℚ) / D * SCALE = (N : ℚ) * SCALE / D := by ring
  have hsign : ((N : ℚ) / D > 0) ↔ ((N : ℚ) * SCALE / D > 0) := by
    rw [← hx]
    exact (mul_pos_iff_of_pos_right hSq).symm
  have key := truncate_half_away ((N : ℚ) * SCALE / D)
  have hm : (fromRational SCALE T N D).m_i =
      T.wrap (truncate ((N : ℚ) * SCALE / D +
        (if (N : ℚ) * SCALE / D > 0 then 1 / 2 else -(1 / 2)))) := by
    simp only [fromRational, fromDouble, hx]
    by_cases h : (N : ℚ) / D > 0
    · rw [if_pos h, if_pos (hsign.mp h)]
    · rw [if_neg h, if_neg (fun h' => h (hsign.mpr h'))]
  generalize truncate ((N : ℚ) * SCALE / D +
    (if (N : ℚ) * SCALE / D > 0 then 1 / 2 else -(1 / 2))) = n at key hm
  generalize (N : ℚ) * SCALE / D = x at key hlo hhi
  obtain ⟨k1, k2, k3, k4⟩ := key
  have hr : T.InRange n := by
    cases T <;> simp only [IntType.InRange, IntType.MIN, IntType.MAX] at hlo hhi ⊢
    · constructor
      · have : ((-2147483648 : Int) : ℚ) - 1 < (n : ℚ) := by push_cast at hlo ⊢; linarith
        have : (-2147483648 : Int) - 1 < n := by exact_mod_cast this
        omega
      · have : (n : ℚ) < ((2147483647 : Int) : ℚ) + 1 := by push_cast at hhi ⊢; linarith
        have : n < (2147483647 : Int) + 1 := by exact_mod_cast this
        omega
    · constructor
      · have : ((0 : Int) : ℚ) - 1 < (n : ℚ) := by push_cast at hlo ⊢; linarith
        have : (0 : Int) - 1 < n := by exact_mod_cast this
        omega
      · have : (n : ℚ) < ((4294967295 : Int) : ℚ) + 1 := by push_cast at hhi ⊢; linarith
        have : n < (4294967295 : Int) + 1 := by exact_mod_cast this
        omega
  rw [hm, wrap_of_inRange hr]
  refine ⟨hr, ?_, ?_⟩
  · rw [abs_le]; constructor <;> linarith
  · intro h
    by_cases hx0 : 0 < x
    · have := k3 hx0
      rcases abs_cases ((n : ℚ) - x) with ⟨h1, _⟩ | ⟨h1, _⟩
      · rw [h1] at h
        rw [abs_of_pos hx0, abs_of_pos (by linarith)]
        linarith
      · rw [h1] at h; linarith
    · have hx1 : x ≤ 0 := not_lt.mp hx0
      have := k4 hx1
      rcases abs_cases ((n : ℚ) - x) with ⟨h1, _⟩ | ⟨h1, _⟩
      · rw [h1] at h; linarith
      · rw [h1] at h
        rw [abs_of_nonpos hx1, abs_of_neg (by linarith)]
        linarith

/-- Witness of `fromRational_nearest` for `scaled_int::fromRational<-1,2048>()`,
the tie `x = -1/2`. -/
theorem fromRational_nearest_witness :
    IntType.int.InRange (fromRational 1024 .int (-1) 2048).m_i ∧
    |((fromRational 1024 .int (-1) 2048).m_i : ℚ) -
      ((-1 : Int) : ℚ) * ((1024 : Int) : ℚ) / ((2048 : Int) : ℚ)| ≤ 1 / 2 ∧
    (|((fromRational 1024 .int (-1) 2048).m_i : ℚ) -
      ((-1 : Int) : ℚ) * ((1024 : Int) : ℚ) / ((2048 : Int) : ℚ)| = 1 / 2 →
      |((-1 : Int) : ℚ) * ((1024 : Int) : ℚ) / ((2048 : Int) : ℚ)| <
        |((fromRational 1024 .int (-1) 2048).m_i : ℚ)|) :=
  fromRational_nearest 1024 .int (-1) 2048 (by decide) (by decide)
    (by norm_num [IntType.MIN]) (by norm_num [IntType.MAX])

/-! ## Operators with a `uint` on the left -/

/-- Claim C10 (`u - r` and `u / r` convert `u` and keep the operand order),
evaluated for `scaled_int` at `u = 3`, `r = ScaledInt(1)`: the free
`operator-(uint, ScaledInt)` returns `r - u`, the value with `m_i = -2048`,
while `ScaledInt(u) - r` has `m_i = 2048`; the free `operator/(uint, ScaledInt)`
returns `r / u`, the value with `m_i = 341`, while `ScaledInt(u) / r` has
`m_i = 3072`. -/
theorem uintSub_uintDiv_swapped :
    ctorUIntAssert 1024 .int 3 = true ∧
    uintSub 3 (ctorInt 1024 .int 1) = ⟨-2048⟩ ∧
    sub (ctorUInt 1024 .int 3) (ctorInt 1024 .int 1) = ⟨2048⟩ ∧
    uintSub 3 (ctorInt 1024 .int 1) = sub (ctorInt 1024 .int 1) (ctorUInt 1024 .int 3) ∧
    uintDiv 3 (ctorInt 1024 .int 1) = some ⟨341⟩ ∧
    div (ctorUInt 1024 .int 3) (ctorInt 1024 .int 1) = some ⟨3072⟩ ∧
    uintDiv 3 (ctorInt 1024 .int 1) = div (ctorInt 1024 .int 1) (ctorUInt 1024 .int 3) := by
  decide

/-! ## Operators with an `int` operand, division by zero, integer powers -/

/-- Claim C11 (the overloads for `int` convert the integer operand and keep the
operand order): for every `int i` and every value `r`, `i + r`, `i - r`,
`i * r`, `i / r` equal `ScaledInt(i) + r`, `ScaledInt(i) - r`,
`ScaledInt(i) * r`, `ScaledInt(i) / r`, and `r + i`, `r - i`, `r * i`, `r / i`
equal `r + ScaledInt(i)`, `r - ScaledInt(i)`, `r * ScaledInt(i)`,
`r / ScaledInt(i)`. `i + r` and `i * r` are computed as `r + i` and `r * i`,
which give the same `m_i`. -/
theorem int_overloads_convert (SCALE : Int) (T : IntType) (i : Int) (r : ScaledInt SCALE T) :
    (intAdd i r = add (ctorInt SCALE T i) r ∧
     intSub i r = sub (ctorInt SCALE T i) r ∧
     intMul i r = mul (ctorInt SCALE T i) r ∧
     intDiv i r = div (ctorInt SCALE T i) r) ∧
    (addInt r i = add r (ctorInt SCALE T i) ∧
     subInt r i = sub r (ctorInt SCALE T i) ∧
     mulInt r i = mul r (ctorInt SCALE T i) ∧
     divInt r i = div r (ctorInt SCALE T i)) := by
  refine ⟨⟨?_, rfl, ?_, rfl⟩, rfl, rfl, rfl, rfl⟩
  · simp only [intAdd, addInt, addAssignInt, add, addAssign, Int.add_comm]
  · simp only [intMul, mulInt, mulAssignInt, mul, mulAssign, Int.mul_comm]

/-- Claim C19 (`x.pow(0) == ScaledInt(1)`, `x.pow(1) == x`,
`x.pow(2) == x * x` for every `m_i` of `scaled_int`), evaluated at
`x = ScaledInt(2048)`, whose `m_i` is `2097152`: `pow(1)` computes
`ScaledInt(1) * x`, the product `1024 * 2097152` is formed in `int` and wraps
around, and the result has `m_i = -2097152`. For `m_i = 2097153` the loop gives
`pow(2)` the `m_i` `0`, while `x * x` has `m_i = 4096`. `pow(0)` is
`ScaledInt(1)`, and for `ScaledInt(3)` the three equations hold. -/
theorem pow_one_wraps :
    ctorIntAssert 1024 .int 2048 = true ∧
    (ctorInt 1024 .int 2048).m_i = 2097152 ∧
    pow (ctorInt 1024 .int 2048) 0 = some (ctorInt 1024 .int 1) ∧
    pow (ctorInt 1024 .int 2048) 1 = some ⟨-2097152⟩ ∧
    pow (ctorInt 1024 .int 2048) 1 ≠ some (ctorInt 1024 .int 2048) ∧
    pow (⟨2097153⟩ : ScaledInt 1024 .int) 2 = some ⟨0⟩ ∧
    mul (⟨2097153⟩ : ScaledInt 1024 .int) ⟨2097153⟩ = ⟨4096⟩ ∧
    pow (ctorInt 1024 .int 3) 1 = some (ctorInt 1024 .int 3) ∧
    pow (ctorInt 1024 .int 3) 2 = some (mul (ctorInt 1024 .int 3) (ctorInt 1024 .int 3)) := by
  decide

/-- Claim C20 (a negative integer exponent gives the reciprocal): for every
value `x` and every `int n > 0`, `x.pow(n)` is `powNonNegative(n)` and
`x.pow(-n)` is `ScaledInt(1) / x.pow(n)`, computed by `operator/`; it returns a
value whenever `x.pow(n)` has `m_i != 0`. -/
theorem pow_neg_reciprocal (SCALE : Int) (T : IntType) (x : ScaledInt SCALE T) (n : Int)
    (hn : 0 < n) (hn' : n ≤ MAX_INT) :
    pow x n = some (powNonNegative x n) ∧
    pow x (-n) = div (ctorInt SCALE T 1) (powNonNegative x n) ∧
    ((powNonNegative x n).m_i ≠ 0 → ∃ q, pow x (-n) = some q) := by
  unfold MAX_INT at hn'
  have h1 : ¬ n < 0 := by omega
  have h2 : -n < 0 := by omega
  have h3 : wrapInt n = n := wrapInt_of_range (by omega) hn'
  have hpow : pow x (-n) = div (ctorInt SCALE T 1) (powNonNegative x n) := by
    simp [pow, h2, h3, intDiv, neg_neg]
  refine ⟨by simp [pow, h1], hpow, ?_⟩
  intro hne
  rw [hpow]
  cases T with
  | int =>
    have hone : (ctorInt SCALE .int 1).m_i = wrapInt SCALE := by
      simp only [ctorInt, IntType.wrap, mul_one]
      unfold wrapInt
      omega
    have hnt : ¬ IntType.divTraps .int (wrapInt (wrapInt SCALE * SCALE))
        (powNonNegative x n).m_i = true := by
      rw [divTraps_int]
      rintro (h0 | ⟨hmin, -⟩)
      · exact hne h0
      · exact wrapInt_sq_ne_min SCALE hmin
    simp only [div, divAssign, IntType.bSIGNED, IntType.conv, IntType.wrap, Bool.not_true,
      Bool.false_eq_true, if_false, hone, hnt]
    exact ⟨_, rfl⟩
  | uint =>
    simp only [div, divAssign, IntType.bSIGNED, Bool.not_false, if_true]
    rw [if_neg (by rw [divTraps_uint]; exact hne)]
    exact ⟨_, rfl⟩

/-- Witness of `pow_neg_reciprocal` for `scaled_int` at `x = ScaledInt(3)`,
`n = 2`: `x.pow(2)` has `m_i = 9216` and `x.pow(-2)` has `m_i = 113`. -/
theorem pow_neg_reciprocal_witness :
    pow (ctorInt 1024 .int 3) (-2) = some ⟨113⟩ ∧
    (pow (ctorInt 1024 .int 3) 2 = some (powNonNegative (ctorInt 1024 .int 3) 2) ∧
    pow (ctorInt 1024 .int 3) (-2) =
      div (ctorInt 1024 .int 1) (powNonNegative (ctorInt 1024 .int 3) 2) ∧
    ((powNonNegative (ctorInt 1024 .int 3) 2).m_i ≠ 0 →
      ∃ q, pow (ctorInt 1024 .int 3) (-2) = some q)) :=
  ⟨by decide, pow_neg_reciprocal 1024 .int (ctorInt 1024 .int 3) 2 (by decide) (by decide)⟩

/-! ## Multiplication, division and conversion between scales -/

/-- The range that the assertion `FAssertBounds(MIN / SCALE, MAX / SCALE + 1, x)`
describes keeps the product `x * SCALE` in the range of `INT`. -/
theorem mul_scale_inRange {SCALE x : Int} (T : IntType) (hS : 0 < SCALE)
    (hx : Int.tdiv T.MIN SCALE ≤ x ∧ x ≤ Int.tdiv T.MAX SCALE) :
    T.InRange (x * SCALE) := by
  have h1 : x * SCALE ≤ Int.tdiv T.MAX SCALE * SCALE :=
    Int.mul_le_mul_of_nonneg_right hx.2 (by omega)
  have h2 : Int.tdiv T.MIN SCALE * SCALE ≤ x * SCALE :=
    Int.mul_le_mul_of_nonneg_right hx.1 (by omega)
  cases T <;> simp only [IntType.InRange, IntType.MIN, IntType.MAX] at *
  · rw [tdiv_of_nonneg (by omega) (by omega)] at h1
    rw [tdiv_of_nonpos (by omega) (by omega)] at h2
    have b1 := ediv_bounds 2147483647 hS
    have b2 := ediv_bounds (-(-2147483648)) hS
    rw [neg_mul] at h2
    omega
  · rw [tdiv_of_nonneg (by omega) (by omega)] at h1
    rw [tdiv_of_nonneg (by omega) (by omega)] at h2
    have b1 := ediv_bounds 4294967295 hS
    simp only [Int.zero_ediv, zero_mul] at h2
    omega

/-! ## Evaluation of the converting constructor when nothing overflows -/

theorem ctorScaledInt_int_int (S1 S2 : Int) (rOther : ScaledInt S2 .int)
    (hS2 : 0 < S2) (hne : S2 ≠ S1)
    (hp : IntType.int.InRange (rOther.m_i * S1)) :
    (ctorScaledInt S1 .int rOther).m_i = Int.tdiv (rOther.m_i * S1) S2 := by
  simp only [IntType.InRange, IntType.MIN, IntType.MAX] at hp
  have hq := tdiv_bounded (a := rOther.m_i * S1) hS2 (show (-2147483648 : Int) ≤ 0 by omega)
    (show (0 : Int) ≤ 2147483647 by omega) hp.1 hp.2
  simp only [ctorScaledInt, hne, if_false, IntType.bSIGNED, IntType.conv, IntType.wrap,
    IntType.div, if_true, add_zero]
  rw [wrapInt_of_range hp.1 hp.2, wrapInt_of_range hp.1 hp.2, wrapInt_of_range hq.1 hq.2,
    wrapInt_of_range hq.1 hq.2]

theorem ctorScaledInt_int_uint (S1 S2 : Int) (rOther : ScaledInt S2 .uint)
    (hS1 : 0 < S1) (hS1' : S1 ≤ MAX_INT) (hS2 : 0 < S2) (hS2' : S2 ≤ MAX_INT) (hne : S2 ≠ S1)
    (hr : 0 ≤ rOther.m_i) (hp : rOther.m_i * S1 ≤ 2147483647) :
    (ctorScaledInt S1 .int rOther).m_i = Int.tdiv (rOther.m_i * S1) S2 := by
  unfold MAX_INT at hS1' hS2'
  have hp0 : 0 ≤ rOther.m_i * S1 := Int.mul_nonneg hr (by omega)
  have hq := ediv_nonneg_le hp0 hS2
  simp only [ctorScaledInt, hne, if_false, IntType.bSIGNED, IntType.conv, IntType.wrap,
    IntType.div, if_true]
  rw [wrapUInt_of_range (x := S1) (by omega) (by omega),
    wrapUInt_of_range (x := S2) (by omega) (by omega),
    wrapUInt_of_range (x := rOther.m_i * S1) hp0 (by omega),
    wrapUInt_of_range (x := 0) (by omega) (by omega), add_zero,
    wrapUInt_of_range (x := rOther.m_i * S1) hp0 (by omega),
    tdiv_of_nonneg hp0 (by omega),
    wrapUInt_of_range (x := rOther.m_i * S1 / S2) (by omega) (by omega),
    wrapInt_of_range (x := rOther.m_i * S1 / S2) (by omega) (by omega)]

theorem ctorScaledInt_uint_uint (S1 S2 : Int) (rOther : ScaledInt S2 .uint)
    (hS1 : 0 < S1) (hS1' : S1 ≤ MAX_INT) (hS2 : 0 < S2) (hS2' : S2 ≤ MAX_INT) (hne : S2 ≠ S1)
    (hr : 0 ≤ rOther.m_i) (hp : rOther.m_i * S1 + S2 / 2 ≤ 4294967295) :
    (ctorScaledInt S1 .uint rOther).m_i = (rOther.m_i * S1 + S2 / 2) / S2 := by
  unfold MAX_INT at hS1' hS2'
  have hp0 : 0 ≤ rOther.m_i * S1 := Int.mul_nonneg hr (by omega)
  have hq := ediv_nonneg_le (show 0 ≤ rOther.m_i * S1 + S2 / 2 by omega) hS2
  simp only [ctorScaledInt, hne, if_false, IntType.bSIGNED, IntType.conv, IntType.wrap,
    IntType.div, Bool.false_eq_true]
  rw [wrapUInt_of_range (x := S1) (by omega) (by omega),
    wrapUInt_of_range (x := S2) (by omega) (by omega),
    wrapUInt_of_range (x := rOther.m_i * S1) hp0 (by omega),
    tdiv_of_nonneg (a := S2) (b := 2) (by omega) (by omega),
    wrapUInt_of_range (x := S2 / 2) (by omega) (by omega),
    wrapUInt_of_range (x := rOther.m_i * S1 + S2 / 2) (by omega) hp,
    tdiv_of_nonneg (by omega) (by omega),
    wrapUInt_of_range (x := (rOther.m_i * S1 + S2 / 2) / S2) (by omega) (by omega),
    wrapUInt_of_range (x := (rOther.m_i * S1 + S2 / 2) / S2) (by omega) (by omega)]

theorem ctorScaledInt_uint_int (S1 S2 : Int) (rOther : ScaledInt S2 .int)
    (hS1 : 0 < S1) (hS2 : 0 < S2) (hne : S2 ≠ S1)
    (hr : 0 ≤ rOther.m_i) (hp : rOther.m_i * S1 + S2 / 2 ≤ 2147483647) :
    (ctorScaledInt S1 .uint rOther).m_i = (rOther.m_i * S1 + S2 / 2) / S2 := by
  have hp0 : 0 ≤ rOther.m_i * S1 := Int.mul_nonneg hr (by omega)
  have hq := ediv_nonneg_le (show 0 ≤ rOther.m_i * S1 + S2 / 2 by omega) hS2
  simp only [ctorScaledInt, hne, if_false, IntType.bSIGNED, IntType.conv, IntType.wrap,
    IntType.div, Bool.false_eq_true]
  rw [wrapInt_of_range (x := rOther.m_i * S1) (by omega) (by omega),
    tdiv_of_nonneg (a := S2) (b := 2) (by omega) (by omega),
    wrapInt_of_range (x := rOther.m_i * S1 + S2 / 2) (by omega) hp,
    tdiv_of_nonneg (by omega) (by omega),
    wrapInt_of_range (x := (rOther.m_i * S1 + S2 / 2) / S2) (by omega) (by omega),
    wrapUInt_of_range (x := (rOther.m_i * S1 + S2 / 2) / S2) (by omega) (by omega)]

/-- A source value that passes the assertion of the converting constructor lies
in `[MIN / SCALE, MAX / SCALE]`, both types being the same. -/
theorem ctorScaledIntAssert_guards (S1 S2 : Int) (R : IntType) (rOther : ScaledInt S2 R)
    (hS1 : 0 < S1) (hS1' : S1 ≤ MAX_INT) (hr : R.InRange rOther.m_i)
    (ha : ctorScaledIntAssert S1 R rOther = true) :
    Int.tdiv R.MIN S1 ≤ rOther.m_i ∧ rOther.m_i ≤ Int.tdiv R.MAX S1 := by
  unfold MAX_INT at hS1'
  cases R
  · simp only [IntType.InRange, IntType.MIN, IntType.MAX] at hr ⊢
    have b1 := tdiv_bounded (a := -2147483648) hS1 (show (-2147483648 : Int) ≤ 0 by omega)
      (show (0 : Int) ≤ 0 by omega) (by omega) (by omega)
    have b2 := tdiv_bounded (a := 2147483647) hS1 (show (0 : Int) ≤ 0 by omega)
      (show (0 : Int) ≤ 2147483647 by omega) (by omega) (by omega)
    simp only [ctorScaledIntAssert, FAssertBounds, IntType.common, IntType.div, IntType.conv,
      IntType.wrap, IntType.MIN, IntType.MAX, Bool.and_eq_true, decide_eq_true_eq] at ha
    unfold wrapInt at ha
    omega
  · simp only [IntType.InRange, IntType.MIN, IntType.MAX] at hr ⊢
    have b1 := tdiv_bounded (a := 0) hS1 (show (0 : Int) ≤ 0 by omega)
      (show (0 : Int) ≤ 0 by omega) (by omega) (by omega)
    have b2 := tdiv_bounded (a := 4294967295) hS1 (show (0 : Int) ≤ 0 by omega)
      (show (0 : Int) ≤ 4294967295 by omega) (by omega) (by omega)
    simp only [ctorScaledIntAssert, FAssertBounds, IntType.common, IntType.div, IntType.conv,
      IntType.wrap, IntType.MIN, IntType.MAX, Bool.and_eq_true, decide_eq_true_eq] at ha
    rw [wrapUInt_of_range (x := S1) (by omega) (by omega)] at ha
    unfold wrapUInt at ha
    omega

/-- Claim C14 (unsigned multiplication rounds to nearest): for `INT = uint` and
every `a`, `b` with `a.m_i * b.m_i + SCALE / 2 < 2^32`, the product has
`m_i = (a.m_i * b.m_i + SCALE / 2) / SCALE`, which is an integer nearest to
`a.m_i * b.m_i / SCALE`, the larger one in a tie. -/
theorem mul_uint_rounds (SCALE : Int) (a b : ScaledInt SCALE .uint) (hS : 0 < SCALE)
    (hS' : SCALE ≤ MAX_INT) (ha : IntType.uint.InRange a.m_i)
    (hb : IntType.uint.InRange b.m_i)
    (hfit : a.m_i * b.m_i + SCALE / 2 < 4294967296) :
    (mul a b).m_i = (a.m_i * b.m_i + SCALE / 2) / SCALE ∧
    2 * |(mul a b).m_i * SCALE - a.m_i * b.m_i| ≤ SCALE ∧
    (2 * |(mul a b).m_i * SCALE - a.m_i * b.m_i| = SCALE →
      a.m_i * b.m_i < (mul a b).m_i * SCALE) := by
  unfold MAX_INT at hS'
  simp only [IntType.InRange, IntType.MIN, IntType.MAX] at ha hb
  have hp : 0 ≤ a.m_i * b.m_i := Int.mul_nonneg ha.1 hb.1
  have hq := ediv_nonneg_le (show 0 ≤ a.m_i * b.m_i + SCALE / 2 by omega) hS
  have e : (mul a b).m_i = (a.m_i * b.m_i + SCALE / 2) / SCALE := by
    simp only [mul, mulAssign, IntType.bSIGNED, IntType.conv, IntType.wrap, IntType.div,
      Bool.false_eq_true, if_false]
    rw [wrapUInt_of_range (x := a.m_i * b.m_i) hp (by omega),
      tdiv_of_nonneg (a := SCALE) (b := 2) (by omega) (by omega),
      wrapUInt_of_range (x := SCALE / 2) (by omega) (by omega),
      wrapUInt_of_range (x := a.m_i * b.m_i + SCALE / 2) (by omega) (by omega),
      wrapUInt_of_range (x := SCALE) (by omega) (by omega),
      tdiv_of_nonneg (by omega) (by omega),
      wrapUInt_of_range (x := (a.m_i * b.m_i + SCALE / 2) / SCALE) (by omega) (by omega),
      wrapUInt_of_range (x := (a.m_i * b.m_i + SCALE / 2) / SCALE) (by omega) (by omega)]
  rw [e]
  exact ⟨rfl, round_half_up hS⟩


/-- Witness of `mul_uint_rounds` for `scaled_uint` at the tie
`1536 * 1025 / 1024 = 1537.5`, which is rounded up to `1538`. -/
theorem mul_uint_rounds_witness :
    (mul (⟨1536⟩ : ScaledInt 1024 .uint) ⟨1025⟩).m_i = 1538 ∧
    ((mul (⟨1536⟩ : ScaledInt 1024 .uint) ⟨1025⟩).m_i = (1536 * 1025 + 1024 / 2) / 1024 ∧
    2 * |(mul (⟨1536⟩ : ScaledInt 1024 .uint) ⟨1025⟩).m_i * 1024 - 1536 * 1025| ≤ 1024 ∧
    (2 * |(mul (⟨1536⟩ : ScaledInt 1024 .uint) ⟨1025⟩).m_i * 1024 - 1536 * 1025| = 1024 →
      1536 * 1025 < (mul (⟨1536⟩ : ScaledInt 1024 .uint) ⟨1025⟩).m_i * 1024)) :=
  ⟨by decide, mul_uint_rounds 1024 ⟨1536⟩ ⟨1025⟩ (by decide) (by decide) (by decide)
    (by decide) (by decide)⟩

/-- Claim C12, as amended (the division formula): for `0 < SCALE`, every `a`
with `MIN / SCALE <= a.m_i <= MAX / SCALE` and every `b` with `b.m_i != 0`, a
signed `INT` gives `(a / b).m_i == (a.m_i * SCALE) / b.m_i` truncated toward
zero, unless `a.m_i * SCALE == MIN` and `b.m_i == -1`, where the quotient does
not fit `INT`; an unsigned `INT` gives
`(a / b).m_i == (a.m_i * SCALE + b.m_i / 2) / b.m_i`, provided that the sum
fits `INT`. -/
theorem div_formula (SCALE : Int) (T : IntType) (a b : ScaledInt SCALE T) (hS : 0 < SCALE)
    (hS' : SCALE ≤ MAX_INT)
    (ha : Int.tdiv T.MIN SCALE ≤ a.m_i ∧ a.m_i ≤ Int.tdiv T.MAX SCALE)
    (hb : T.InRange b.m_i) (hb0 : b.m_i ≠ 0) :
    (T = .int → ¬ (a.m_i * SCALE = IntType.MIN .int ∧ b.m_i = -1) →
      div a b = some ⟨Int.tdiv (a.m_i * SCALE) b.m_i⟩) ∧
    (T = .uint → a.m_i * SCALE + b.m_i / 2 ≤ IntType.MAX .uint →
      div a b = some ⟨(a.m_i * SCALE + b.m_i / 2) / b.m_i⟩) := by
  unfold MAX_INT at hS'
  have hp := mul_scale_inRange T hS ha
  constructor
  · intro hT hx
    subst hT
    simp only [IntType.InRange, IntType.MIN, IntType.MAX] at hp hb hx
    have hq := tdiv_int_range hp.1 hp.2 hb0 hx
    have hnt : ¬ IntType.divTraps .int (a.m_i * SCALE) b.m_i = true := by
      rw [divTraps_int]
      rintro (h0 | h1)
      · exact hb0 h0
      · exact hx h1
    simp only [div, divAssign, IntType.bSIGNED, IntType.conv, IntType.wrap, IntType.div,
      Bool.not_true, Bool.false_eq_true, if_false, wrapInt_of_range hp.1 hp.2, hnt]
    rw [wrapInt_of_range hq.1 hq.2]
  · intro hT hfit
    subst hT
    simp only [IntType.InRange, IntType.MIN, IntType.MAX] at hp hb hfit
    have hbpos : 0 < b.m_i := by omega
    have hq := ediv_nonneg_le (show 0 ≤ a.m_i * SCALE + b.m_i / 2 by omega) hbpos
    have hnt : ∀ m : Int, ¬ IntType.divTraps .uint m b.m_i = true := by
      intro m
      rw [divTraps_uint]
      exact hb0
    simp only [div, divAssign, IntType.bSIGNED, IntType.conv, IntType.wrap, IntType.div,
      Bool.not_false, if_true, hnt, Bool.false_eq_true, if_false]
    rw [wrapUInt_of_range (x := SCALE) (by omega) (by omega),
      wrapUInt_of_range (x := a.m_i * SCALE) hp.1 hp.2,
      tdiv_of_nonneg (a := b.m_i) (b := 2) (by omega) (by omega),
      wrapUInt_of_range (x := b.m_i / 2) (by omega) (by omega),
      wrapUInt_of_range (x := a.m_i * SCALE + b.m_i / 2) (by omega) hfit,
      tdiv_of_nonneg (by omega) (by omega),
      wrapUInt_of_range (x := (a.m_i * SCALE + b.m_i / 2) / b.m_i) (by omega) (by omega)]


/-- Witness of `div_formula` for `scaled_int`: `3 / 2` has `m_i = 1536`. -/
theorem div_formula_witness :
    div (⟨3072⟩ : ScaledInt 1024 .int) ⟨2048⟩ = some ⟨1536⟩ ∧
    ((IntType.int = .int →
      ¬ ((3072 : Int) * 1024 = IntType.MIN .int ∧ (2048 : Int) = -1) →
      div (⟨3072⟩ : ScaledInt 1024 .int) ⟨2048⟩ = some ⟨Int.tdiv (3072 * 1024) 2048⟩) ∧
    (IntType.int = .uint → (3072 : Int) * 1024 + 2048 / 2 ≤ IntType.MAX .uint →
      div (⟨3072⟩ : ScaledInt 1024 .int) ⟨2048⟩ =
        some ⟨(3072 * 1024 + 2048 / 2) / 2048⟩)) :=
  ⟨by decide, div_formula 1024 .int ⟨3072⟩ ⟨2048⟩ (by decide) (by decide) (by decide)
    (by decide) (by decide)⟩

/-- Claim C12 as stated fails for `scaled_int` at `a = ScaledInt(-2048)`
(`m_i = -2097152`, inside the asserted range) and `b.m_i = -1`: the quotient
`(a.m_i * SCALE) / b.m_i` is `2^31`, which is not a value of `int`; the
division `MIN / -1`, carried out in `int`, has no result, and `a / b` returns
no value instead of the claimed one. -/
theorem div_min_by_minus_one :
    (Int.tdiv (IntType.MIN .int) 1024 ≤ -2097152 ∧
      -2097152 ≤ Int.tdiv (IntType.MAX .int) 1024) ∧
    divAssignAssert (⟨-2097152⟩ : ScaledInt 1024 .int) = true ∧
    (⟨-1⟩ : ScaledInt 1024 .int).m_i ≠ 0 ∧
    Int.tdiv (-2097152 * 1024) (-1) = 2147483648 ∧
    ¬ IntType.int.InRange (Int.tdiv (-2097152 * 1024) (-1)) ∧
    IntType.divTraps .int (-2097152 * 1024) (-1) = true ∧
    div (⟨-2097152⟩ : ScaledInt 1024 .int) ⟨-1⟩ = none ∧
    div (⟨-2097152⟩ : ScaledInt 1024 .int) ⟨-1⟩ ≠
      some ⟨Int.tdiv (-2097152 * 1024) (-1)⟩ := by
  decide

/-- Claim C15, as amended (the formula of the converting constructor from
`ScaledInt<S2,R2>` to `ScaledInt<S1,R1>`): for `S1 != S2` and every source
`m_i` in `[MIN / S1, MAX / S1]`, a signed `R1` stores `(m_i * S1) / S2`
truncated toward zero, and an unsigned `R1` stores `(m_i * S1 + S2 / 2) / S2`
provided that the sum fits the type `R2` in which it is computed; for
`S1 == S2` the stored value is `m_i` converted to `R1`, which is `m_i` itself
when it lies in the range of `R1`. -/
theorem ctorScaledInt_formula (S1 S2 : Int) (R1 R2 : IntType) (rOther : ScaledInt S2 R2)
    (hS1 : 0 < S1) (hS1' : S1 ≤ MAX_INT) (hS2 : 0 < S2) (hS2' : S2 ≤ MAX_INT)
    (hr : R2.InRange rOther.m_i) :
    (S2 ≠ S1 → Int.tdiv R1.MIN S1 ≤ rOther.m_i ∧ rOther.m_i ≤ Int.tdiv R1.MAX S1 →
      (R1 = .int →
        (ctorScaledInt S1 R1 rOther).m_i = Int.tdiv (rOther.m_i * S1) S2) ∧
      (R1 = .uint → rOther.m_i * S1 + S2 / 2 ≤ R2.MAX →
        (ctorScaledInt S1 R1 rOther).m_i = (rOther.m_i * S1 + S2 / 2) / S2)) ∧
    (S2 = S1 → (ctorScaledInt S1 R1 rOther).m_i = R1.wrap rOther.m_i ∧
      (R1.InRange rOther.m_i → (ctorScaledInt S1 R1 rOther).m_i = rOther.m_i)) := by
  constructor
  · intro hne hx
    have hp := mul_scale_inRange R1 hS1 hx
    constructor
    · intro h1
      subst h1
      cases R2
      · exact ctorScaledInt_int_int S1 S2 rOther hS2 hne hp
      · simp only [IntType.InRange, IntType.MIN, IntType.MAX] at hp hr
        exact ctorScaledInt_int_uint S1 S2 rOther hS1 hS1' hS2 hS2' hne hr.1 hp.2
    · intro h1 hfit
      subst h1
      have h0 : 0 ≤ rOther.m_i := by
        have := hx.1
        simp only [IntType.MIN] at this
        rw [tdiv_of_nonneg (by omega) (by omega)] at this
        simpa using this
      cases R2
      · exact ctorScaledInt_uint_int S1 S2 rOther hS1 hS2 hne h0 hfit
      · exact ctorScaledInt_uint_uint S1 S2 rOther hS1 hS1' hS2 hS2' hne h0 hfit
  · intro he
    have e : (ctorScaledInt S1 R1 rOther).m_i = R1.wrap rOther.m_i := by
      simp only [ctorScaledInt, he, if_true]
    exact ⟨e, fun h => by rw [e, wrap_of_inRange h]⟩


/-- Witness of `ctorScaledInt_formula`: the value `2.5` at the scale `100`
(`m_i = 250`) converted to `scaled_int` has `m_i = 2560`. -/
theorem ctorScaledInt_formula_witness :
    (ctorScaledInt 1024 .int (⟨250⟩ : ScaledInt 100 .int)).m_i = 2560 ∧
    (((100 : Int) ≠ 1024 →
      Int.tdiv (IntType.MIN .int) 1024 ≤ 250 ∧ 250 ≤ Int.tdiv (IntType.MAX .int) 1024 →
      (IntType.int = .int →
        (ctorScaledInt 1024 .int (⟨250⟩ : ScaledInt 100 .int)).m_i =
          Int.tdiv (250 * 1024) 100) ∧
      (IntType.int = .uint → (250 : Int) * 1024 + 100 / 2 ≤ IntType.MAX .int →
        (ctorScaledInt 1024 .int (⟨250⟩ : ScaledInt 100 .int)).m_i =
          (250 * 1024 + 100 / 2) / 100)) ∧
    ((100 : Int) = 1024 →
      (ctorScaledInt 1024 .int (⟨250⟩ : ScaledInt 100 .int)).m_i = IntType.int.wrap 250 ∧
      (IntType.int.InRange 250 →
        (ctorScaledInt 1024 .int (⟨250⟩ : ScaledInt 100 .int)).m_i = 250))) :=
  ⟨by decide, ctorScaledInt_formula 1024 100 .int .int ⟨250⟩ (by decide) (by decide)
    (by decide) (by decide) (by decide)⟩

/-- Claim C15 as stated fails for an unsigned destination: the source
`m_i = 4194303 = MAX / 1024` at the scale `2048` passes the assertion of
`ScaledInt<1024,uint>`, the sum `4194303 * 1024 + 1024` is `2^32` and wraps
around to `0` in `uint`, and the constructor stores `0` instead of
`2^32 / 2048 = 2097152`. And with equal scales the `m_i = -1` of a signed
source is stored in an unsigned destination as `4294967295`. -/
theorem ctorScaledInt_uint_sum_wraps :
    (Int.tdiv (IntType.MIN .uint) 1024 ≤ 4194303 ∧
      4194303 ≤ Int.tdiv (IntType.MAX .uint) 1024) ∧
    ctorScaledIntAssert 1024 .uint (⟨4194303⟩ : ScaledInt 2048 .uint) = true ∧
    ((4194303 : Int) * 1024 + 2048 / 2) / 2048 = 2097152 ∧
    (ctorScaledInt 1024 .uint (⟨4194303⟩ : ScaledInt 2048 .uint)).m_i = 0 ∧
    (ctorScaledInt 1024 .uint (⟨-1⟩ : ScaledInt 1024 .int)).m_i = 4294967295 := by
  decide

/-- Claim C16, as amended (the intermediate of the scale conversion is not
widened): for source and destination of one 32-bit type `INT`, `S1 != S2` and a
source `m_i` whose product `m_i * S1` (for an unsigned `INT` the sum
`m_i * S1 + S2 / 2`) fits `INT`, the converting constructor stores the exact
converted value, `(m_i * S1) / S2` truncated toward zero for a signed `INT`
and `(m_i * S1 + S2 / 2) / S2` for an unsigned one; and every source that
passes the assertion of the constructor has a product that fits `INT`. -/
theorem ctorScaledInt_exact_when_fits (S1 S2 : Int) (R : IntType) (rOther : ScaledInt S2 R)
    (hS1 : 0 < S1) (hS1' : S1 ≤ MAX_INT) (hS2 : 0 < S2) (hS2' : S2 ≤ MAX_INT) (hne : S2 ≠ S1)
    (hr : R.InRange rOther.m_i) :
    (R.InRange (rOther.m_i * S1 + (if R.bSIGNED then 0 else S2 / 2)) →
      (ctorScaledInt S1 R rOther).m_i =
        if R.bSIGNED then Int.tdiv (rOther.m_i * S1) S2
        else (rOther.m_i * S1 + S2 / 2) / S2) ∧
    (ctorScaledIntAssert S1 R rOther = true → R.InRange (rOther.m_i * S1)) := by
  refine ⟨?_, fun ha =>
    mul_scale_inRange R hS1 (ctorScaledIntAssert_guards S1 S2 R rOther hS1 hS1' hr ha)⟩
  intro hfit
  cases R
  · simp only [IntType.bSIGNED, if_true, add_zero] at hfit ⊢
    exact ctorScaledInt_int_int S1 S2 rOther hS2 hne hfit
  · simp only [IntType.bSIGNED, Bool.false_eq_true, if_false, IntType.InRange, IntType.MIN,
      IntType.MAX] at hfit hr ⊢
    exact ctorScaledInt_uint_uint S1 S2 rOther hS1 hS1' hS2 hS2' hne hr.1 hfit.2


/-- Witness of `ctorScaledInt_exact_when_fits`: `m_i = 2^20` at the scale `2048`
converted to the scale `1024` has `m_i = 2^19`. -/
theorem ctorScaledInt_exact_when_fits_witness :
    (ctorScaledInt 1024 .int (⟨1048576⟩ : ScaledInt 2048 .int)).m_i = 524288 ∧
    ((IntType.int.InRange
        (1048576 * 1024 + (if IntType.int.bSIGNED then 0 else 2048 / 2)) →
      (ctorScaledInt 1024 .int (⟨1048576⟩ : ScaledInt 2048 .int)).m_i =
        if IntType.int.bSIGNED then Int.tdiv (1048576 * 1024) 2048
        else (1048576 * 1024 + 2048 / 2) / 2048) ∧
    (ctorScaledIntAssert 1024 .int (⟨1048576⟩ : ScaledInt 2048 .int) = true →
      IntType.int.InRange (1048576 * 1024))) :=
  ⟨by decide, ctorScaledInt_exact_when_fits 1024 2048 .int ⟨1048576⟩ (by decide)
    (by decide) (by decide) (by decide) (by decide) (by decide)⟩

/-- Claim C16 as stated fails at its own example: for `m_i = 2^30` at the scale
`2048` the exact value at the scale `1024`, `2^29`, fits `int`, but the product
`2^30 * 1024` is formed in `int`, wraps around to `0`, and the constructor
stores `0`; the assertion of the constructor rejects this source. -/
theorem ctorScaledInt_product_wraps :
    Int.tdiv (1073741824 * 1024) 2048 = 536870912 ∧
    IntType.int.InRange 536870912 ∧
    wrapInt (1073741824 * 1024) = 0 ∧
    (ctorScaledInt 1024 .int (⟨1073741824⟩ : ScaledInt 2048 .int)).m_i = 0 ∧
    ctorScaledIntAssert 1024 .int (⟨1073741824⟩ : ScaledInt 2048 .int) = false := by
  decide

/-! ## Round trips between two scales -/

/-- Claim C17, as amended (round trip through a finer scale): for `S1 < S2`, one
type `INT` on both sides and every value `v` of `ScaledInt<S1,INT>` for which
no intermediate overflows, converting `v` to `ScaledInt<S2,INT>` and back
returns `v.m_i` exactly when `INT` is unsigned; when `INT` is signed it returns
`v.m_i` or the neighbour one unit closer to zero, and `v.m_i` exactly when
`v.m_i * S2` is a multiple of `S1`. -/
theorem finer_scale_round_trip (S1 S2 : Int) (R : IntType) (v : ScaledInt S1 R)
    (hS1 : 0 < S1) (h12 : S1 < S2) (hS2' : S2 ≤ MAX_INT) (hv : R.InRange v.m_i)
    (h1 : R.InRange (v.m_i * S2 + (if R.bSIGNED then 0 else S1 / 2)))
    (h2 : R.InRange ((ctorScaledInt S2 R v).m_i * S1 + (if R.bSIGNED then 0 else S2 / 2))) :
    (R = .uint → (ctorScaledInt S1 R (ctorScaledInt S2 R v)).m_i = v.m_i) ∧
    (R = .int →
      (S1 ∣ v.m_i * S2 → (ctorScaledInt S1 R (ctorScaledInt S2 R v)).m_i = v.m_i) ∧
      (0 ≤ v.m_i → v.m_i - 1 ≤ (ctorScaledInt S1 R (ctorScaledInt S2 R v)).m_i ∧
        (ctorScaledInt S1 R (ctorScaledInt S2 R v)).m_i ≤ v.m_i) ∧
      (v.m_i ≤ 0 → v.m_i ≤ (ctorScaledInt S1 R (ctorScaledInt S2 R v)).m_i ∧
        (ctorScaledInt S1 R (ctorScaledInt S2 R v)).m_i ≤ v.m_i + 1)) := by
  have hS2 : 0 < S2 := by omega
  have hS1' : S1 ≤ MAX_INT := by omega
  have hne1 : S1 ≠ S2 := by omega
  have hne2 : S2 ≠ S1 := by omega
  cases R
  · refine ⟨fun h => (by cases h), fun _ => ?_⟩
    simp only [IntType.bSIGNED, if_true, add_zero] at h1 h2
    have e1 := ctorScaledInt_int_int S2 S1 v hS1 hne1 h1
    have e2 := ctorScaledInt_int_int S1 S2 (ctorScaledInt S2 .int v) hS2 hne2 h2
    rw [e2, e1]
    obtain ⟨t1, t2, t3, t4⟩ := tdiv_round_trip (v := v.m_i) hS1 hS2
    refine ⟨t4, fun h => ⟨?_, (t1 h).2⟩, fun h => ⟨(t2 h).1, ?_⟩⟩
    · have := (t1 h).2
      rw [abs_of_nonneg (by omega)] at t3
      by_contra hc
      have h5 : 2 * S2 ≤ (v.m_i - Int.tdiv (Int.tdiv (v.m_i * S2) S1 * S1) S2) * S2 :=
        Int.mul_le_mul_of_nonneg_right (by omega) (by omega)
      omega
    · have := (t2 h).1
      rw [abs_of_nonpos (by omega)] at t3
      by_contra hc
      have h5 : 2 * S2 ≤ -(v.m_i - Int.tdiv (Int.tdiv (v.m_i * S2) S1 * S1) S2) * S2 :=
        Int.mul_le_mul_of_nonneg_right (by omega) (by omega)
      omega
  · refine ⟨fun _ => ?_, fun h => by cases h⟩
    simp only [IntType.bSIGNED, Bool.false_eq_true, if_false, IntType.InRange, IntType.MIN,
      IntType.MAX] at h1 h2 hv
    have e1 := ctorScaledInt_uint_uint S2 S1 v hS2 hS2' hS1 hS1' hne1 hv.1 h1.2
    have hu : 0 ≤ (ctorScaledInt S2 .uint v).m_i := by
      rw [e1]
      have hp0 : 0 ≤ v.m_i * S2 := Int.mul_nonneg hv.1 (by omega)
      exact (ediv_nonneg_le (show 0 ≤ v.m_i * S2 + S1 / 2 by omega) hS1).1
    have e2 := ctorScaledInt_uint_uint S1 S2 (ctorScaledInt S2 .uint v) hS1 hS1' hS2 hS2' hne2
      hu h2.2
    rw [e2, e1]
    exact round_round_trip_finer hS1 h12


/-- Witness of `finer_scale_round_trip` for an unsigned type: `m_i = 1` at the
scale `100` becomes `10` at the scale `1024` and `1` again at the scale `100`. -/
theorem finer_scale_round_trip_witness :
    (ctorScaledInt 1024 .uint (⟨1⟩ : ScaledInt 100 .uint)).m_i = 10 ∧
    ((IntType.uint = .uint →
      (ctorScaledInt 100 .uint
        (ctorScaledInt 1024 .uint (⟨1⟩ : ScaledInt 100 .uint))).m_i = 1) ∧
    (IntType.uint = .int →
      ((100 : Int) ∣ 1 * 1024 →
        (ctorScaledInt 100 .uint
          (ctorScaledInt 1024 .uint (⟨1⟩ : ScaledInt 100 .uint))).m_i = 1) ∧
      ((0 : Int) ≤ 1 →
        1 - 1 ≤ (ctorScaledInt 100 .uint
          (ctorScaledInt 1024 .uint (⟨1⟩ : ScaledInt 100 .uint))).m_i ∧
        (ctorScaledInt 100 .uint
          (ctorScaledInt 1024 .uint (⟨1⟩ : ScaledInt 100 .uint))).m_i ≤ 1) ∧
      ((1 : Int) ≤ 0 →
        1 ≤ (ctorScaledInt 100 .uint
          (ctorScaledInt 1024 .uint (⟨1⟩ : ScaledInt 100 .uint))).m_i ∧
        (ctorScaledInt 100 .uint
          (ctorScaledInt 1024 .uint (⟨1⟩ : ScaledInt 100 .uint))).m_i ≤ 1 + 1))) :=
  ⟨by decide, finer_scale_round_trip 100 1024 .uint ⟨1⟩ (by decide) (by decide) (by decide)
    (by decide) (by decide) (by decide)⟩

/-- Claim C17 as stated fails for a signed type at its own example: `m_i = 1` at
the scale `100` becomes `1024 / 100 = 10` at the scale `1024`, and
`10 * 100 / 1024 = 0` at the scale `100`; no intermediate overflows. -/
theorem finer_scale_round_trip_signed :
    IntType.int.InRange (1 * 1024) ∧
    (ctorScaledInt 1024 .int (⟨1⟩ : ScaledInt 100 .int)).m_i = 10 ∧
    IntType.int.InRange (10 * 100) ∧
    (ctorScaledInt 100 .int (ctorScaledInt 1024 .int (⟨1⟩ : ScaledInt 100 .int))).m_i = 0 ∧
    (ctorScaledInt 100 .int (ctorScaledInt 1024 .int (⟨1⟩ : ScaledInt 100 .int))).m_i ≠ 1 := by
  decide

/-- An error of `d` units of `1 / A` is at most `1 / B` when `|d| * B <= A`. -/
theorem abs_div_le_of_mul_le {d A B : Int} (hA : 0 < A) (hB : 0 < B) (h : |d| * B ≤ A) :
    |(d : ℚ) / A| ≤ 1 / B := by
  have hA' : (0 : ℚ) < A := by exact_mod_cast hA
  have hB' : (0 : ℚ) < B := by exact_mod_cast hB
  have h' : |(d : ℚ)| * B ≤ A := by exact_mod_cast h
  rw [abs_div, abs_of_pos hA', div_le_div_iff₀ hA' hB']
  linarith

/-- An error of `d` units of `1 / A` is below `1 / B + 1 / A` when
`|d| * B < A + B`. -/
theorem abs_div_lt_of_mul_lt {d A B : Int} (hA : 0 < A) (hB : 0 < B) (h : |d| * B < A + B) :
    |(d : ℚ) / A| < 1 / B + 1 / A := by
  have hA' : (0 : ℚ) < A := by exact_mod_cast hA
  have hB' : (0 : ℚ) < B := by exact_mod_cast hB
  have h' : |(d : ℚ)| * B < A + B := by exact_mod_cast h
  have e : (1 : ℚ) / B + 1 / A = (A + B) / (A * B) := by
    rw [div_add_div _ _ hB'.ne' hA'.ne']
    congr 1 <;> ring
  rw [abs_div, abs_of_pos hA', e, div_lt_div_iff₀ hA' (mul_pos hA' hB')]
  nlinarith [mul_pos hA' hB', abs_nonneg (d : ℚ)]

/-- Claim C18, as amended (round trip through a coarser scale): for `S2 < S1`,
one type `INT` on both sides and every value `v` of `ScaledInt<S1,INT>` for
which no intermediate overflows, converting `v` to `ScaledInt<S2,INT>` and back
yields `w` with `|w.m_i / S1 - v.m_i / S1| <= 1 / S2` when `INT` is unsigned;
when `INT` is signed the error is below `1 / S2 + 1 / S1` and
`|w.m_i| <= |v.m_i|`. -/
theorem coarser_scale_round_trip (S1 S2 : Int) (R : IntType) (v : ScaledInt S1 R)
    (hS2 : 0 < S2) (h21 : S2 < S1) (hS1' : S1 ≤ MAX_INT) (hv : R.InRange v.m_i)
    (h1 : R.InRange (v.m_i * S2 + (if R.bSIGNED then 0 else S1 / 2)))
    (h2 : R.InRange ((ctorScaledInt S2 R v).m_i * S1 + (if R.bSIGNED then 0 else S2 / 2))) :
    (R = .uint →
      |((ctorScaledInt S1 R (ctorScaledInt S2 R v)).m_i : ℚ) / S1 - (v.m_i : ℚ) / S1|
        ≤ 1 / S2) ∧
    (R = .int →
      |((ctorScaledInt S1 R (ctorScaledInt S2 R v)).m_i : ℚ) / S1 - (v.m_i : ℚ) / S1|
        < 1 / S2 + 1 / S1 ∧
      |(ctorScaledInt S1 R (ctorScaledInt S2 R v)).m_i| ≤ |v.m_i|) := by
  have hS1 : 0 < S1 := by omega
  have hS2' : S2 ≤ MAX_INT := by omega
  have hne1 : S1 ≠ S2 := by omega
  have hne2 : S2 ≠ S1 := by omega
  cases R
  · refine ⟨fun h => (by cases h), fun _ => ?_⟩
    simp only [IntType.bSIGNED, if_true, add_zero] at h1 h2
    have e1 := ctorScaledInt_int_int S2 S1 v hS1 hne1 h1
    have e2 := ctorScaledInt_int_int S1 S2 (ctorScaledInt S2 .int v) hS2 hne2 h2
    rw [e2, e1]
    obtain ⟨t1, t2, t3, t4⟩ := tdiv_round_trip (v := v.m_i) hS1 hS2
    constructor
    · rw [← sub_div, ← Int.cast_sub, ← abs_neg, ← neg_div, ← Int.cast_neg, neg_sub]
      have := abs_div_lt_of_mul_lt (d := v.m_i - Int.tdiv (Int.tdiv (v.m_i * S2) S1 * S1) S2)
        hS1 hS2 t3
      exact this
    · by_cases h : 0 ≤ v.m_i
      · rw [abs_of_nonneg (t1 h).1, abs_of_nonneg h]; exact (t1 h).2
      · rw [abs_of_nonpos (t2 (by omega)).2, abs_of_nonpos (by omega)]
        have := (t2 (by omega)).1
        omega
  · refine ⟨fun _ => ?_, fun h => by cases h⟩
    simp only [IntType.bSIGNED, Bool.false_eq_true, if_false, IntType.InRange, IntType.MIN,
      IntType.MAX] at h1 h2 hv
    have e1 := ctorScaledInt_uint_uint S2 S1 v hS2 hS2' hS1 hS1' hne1 hv.1 h1.2
    have hu : 0 ≤ (ctorScaledInt S2 .uint v).m_i := by
      rw [e1]
      have hp0 : 0 ≤ v.m_i * S2 := Int.mul_nonneg hv.1 (by omega)
      exact (ediv_nonneg_le (show 0 ≤ v.m_i * S2 + S1 / 2 by omega) hS1).1
    have e2 := ctorScaledInt_uint_uint S1 S2 (ctorScaledInt S2 .uint v) hS1 hS1' hS2 hS2' hne2
      hu h2.2
    rw [e2, e1, ← sub_div, ← Int.cast_sub]
    exact abs_div_le_of_mul_le hS1 hS2 (round_round_trip_coarser hS2 h21)


/-- Witness of `coarser_scale_round_trip` for an unsigned type: `m_i = 4` at the
scale `7` becomes `3` at the scale `5` and `4` again at the scale `7`. -/
theorem coarser_scale_round_trip_witness :
    (ctorScaledInt 7 .uint (ctorScaledInt 5 .uint (⟨4⟩ : ScaledInt 7 .uint))).m_i = 4 ∧
    ((IntType.uint = .uint →
      |((ctorScaledInt 7 .uint
          (ctorScaledInt 5 .uint (⟨4⟩ : ScaledInt 7 .uint))).m_i : ℚ) / (7 : Int) -
        ((4 : Int) : ℚ) / (7 : Int)| ≤ 1 / (5 : Int)) ∧
    (IntType.uint = .int →
      |((ctorScaledInt 7 .uint
          (ctorScaledInt 5 .uint (⟨4⟩ : ScaledInt 7 .uint))).m_i : ℚ) / (7 : Int) -
        ((4 : Int) : ℚ) / (7 : Int)| < 1 / (5 : Int) + 1 / (7 : Int) ∧
      |(ctorScaledInt 7 .uint
          (ctorScaledInt 5 .uint (⟨4⟩ : ScaledInt 7 .uint))).m_i| ≤ |(4 : Int)|)) :=
  ⟨by decide, coarser_scale_round_trip 7 5 .uint ⟨4⟩ (by decide) (by decide) (by decide)
    (by decide) (by decide) (by decide)⟩

/-- Claim C18 as stated fails for a signed type at its own example: `m_i = 4` at
the scale `7` becomes `4 * 5 / 7 = 2` at the scale `5` and `2 * 7 / 5 = 2` at
the scale `7`, and `|2/7 - 4/7| = 2/7` exceeds `1/5`; no intermediate
overflows. -/
theorem coarser_scale_round_trip_signed :
    (ctorScaledInt 5 .int (⟨4⟩ : ScaledInt 7 .int)).m_i = 2 ∧
    (ctorScaledInt 7 .int (ctorScaledInt 5 .int (⟨4⟩ : ScaledInt 7 .int))).m_i = 2 ∧
    ¬ (|((ctorScaledInt 7 .int
          (ctorScaledInt 5 .int (⟨4⟩ : ScaledInt 7 .int))).m_i : ℚ) / 7 - 4 / 7|
        ≤ 1 / 5) := by
  have h : (ctorScaledInt 7 .int (ctorScaledInt 5 .int (⟨4⟩ : ScaledInt 7 .int))).m_i = 2 := by
    decide
  refine ⟨by decide, h, ?_⟩
  rw [h]
  norm_num [abs_of_neg]

/-! ## Bernoulli trial -/

/-- An `int` in `[0, MAX_INT]` is unchanged by the conversion to `INT`. -/
theorem conv_of_int_range (T : IntType) {x : Int} (h0 : 0 ≤ x) (h1 : x ≤ MAX_INT) :
    T.conv x = x := by
  unfold MAX_INT at h1
  cases T
  · rfl
  · exact wrapUInt_of_range h0 (by omega)

/-- Claim C21 (outcome of the Bernoulli trial): for every value `p` and every
random source whose draw `d` with the bound `SCALE` lies in `[0, SCALE)`,
`bernoulliSuccess` returns `false` when `p.m_i <= 0`, `true` when
`p.m_i >= SCALE`, and otherwise `true` exactly when `d < p.m_i`. -/
theorem bernoulliSuccess_outcome {σ : Type} (SCALE : Int) (T : IntType) (p : ScaledInt SCALE T)
    (kRand : CvRandom σ) (s : σ) (hS : 0 < SCALE) (hS' : SCALE ≤ MAX_INT)
    (hd : 0 ≤ (kRand.getInt s SCALE).1 ∧ (kRand.getInt s SCALE).1 < SCALE) :
    (p.m_i ≤ 0 → (bernoulliSuccess p kRand s).1 = false) ∧
    (p.m_i ≥ SCALE → (bernoulliSuccess p kRand s).1 = true) ∧
    (0 < p.m_i → p.m_i < SCALE →
      ((bernoulliSuccess p kRand s).1 = true ↔ (kRand.getInt s SCALE).1 < p.m_i)) := by
  have c1 : T.conv SCALE = SCALE := conv_of_int_range T (by omega) hS'
  have c2 : T.conv (kRand.getInt s SCALE).1 = (kRand.getInt s SCALE).1 :=
    conv_of_int_range T hd.1 (by omega)
  refine ⟨?_, ?_, ?_⟩
  · intro h
    simp only [bernoulliSuccess, h, if_true]
  · intro h
    have h0 : ¬ p.m_i ≤ 0 := by omega
    simp only [bernoulliSuccess, h0, if_false, c1, h, ge_iff_le, if_true]
  · intro h0 h1
    have h0' : ¬ p.m_i ≤ 0 := by omega
    have h1' : ¬ p.m_i ≥ SCALE := by omega
    simp only [bernoulliSuccess, h0', if_false, c1, h1', c2, decide_eq_true_eq]


/-- Witness of `bernoulliSuccess_outcome` for `scaled_int`, `p.m_i = 256` and
the sample source in the state `300`: the draw is `300` and the trial fails. -/
theorem bernoulliSuccess_outcome_witness :
    (bernoulliSuccess (⟨256⟩ : ScaledInt 1024 .int) CvRandom.counter 300).1 = false ∧
    (((256 : Int) ≤ 0 →
      (bernoulliSuccess (⟨256⟩ : ScaledInt 1024 .int) CvRandom.counter 300).1 = false) ∧
    ((256 : Int) ≥ 1024 →
      (bernoulliSuccess (⟨256⟩ : ScaledInt 1024 .int) CvRandom.counter 300).1 = true) ∧
    ((0 : Int) < 256 → (256 : Int) < 1024 →
      ((bernoulliSuccess (⟨256⟩ : ScaledInt 1024 .int) CvRandom.counter 300).1 = true ↔
        (CvRandom.counter.getInt 300 1024).1 < 256))) :=
  ⟨by decide, bernoulliSuccess_outcome 1024 .int ⟨256⟩ CvRandom.counter 300 (by decide)
    (by decide) (by decide)⟩

/-- Claim C22 (the Bernoulli trial and the random stream): with the source as
explicit state, `bernoulliSuccess` leaves the state unchanged whenever
`p.m_i <= 0` or `p.m_i >= SCALE`, and whenever `0 < p.m_i < SCALE` it leaves
the state that one call of `getInt` with the bound `SCALE` produces. -/
theorem bernoulliSuccess_draws {σ : Type} (SCALE : Int) (T : IntType) (p : ScaledInt SCALE T)
    (kRand : CvRandom σ) (s : σ) (hS : 0 < SCALE) (hS' : SCALE ≤ MAX_INT) :
    (p.m_i ≤ 0 ∨ p.m_i ≥ SCALE → (bernoulliSuccess p kRand s).2 = s) ∧
    (0 < p.m_i → p.m_i < SCALE →
      (bernoulliSuccess p kRand s).2 = (kRand.getInt s SCALE).2) := by
  have c1 : T.conv SCALE = SCALE := conv_of_int_range T (by omega) hS'
  refine ⟨?_, ?_⟩
  · rintro (h | h)
    · simp only [bernoulliSuccess, h, if_true]
    · have h0 : ¬ p.m_i ≤ 0 := by omega
      simp only [bernoulliSuccess, h0, if_false, c1, h, ge_iff_le, if_true]
  · intro h0 h1
    have h0' : ¬ p.m_i ≤ 0 := by omega
    have h1' : ¬ p.m_i ≥ SCALE := by omega
    simp only [bernoulliSuccess, h0', if_false, c1, h1']


/-- Witness of `bernoulliSuccess_draws` for `scaled_int`, `p.m_i = 256` and the
sample source, whose state counts the draws: the count goes from `300` to
`301`. -/
theorem bernoulliSuccess_draws_witness :
    (bernoulliSuccess (⟨256⟩ : ScaledInt 1024 .int) CvRandom.counter 300).2 = 301 ∧
    (((256 : Int) ≤ 0 ∨ (256 : Int) ≥ 1024 →
      (bernoulliSuccess (⟨256⟩ : ScaledInt 1024 .int) CvRandom.counter 300).2 = 300) ∧
    ((0 : Int) < 256 → (256 : Int) < 1024 →
      (bernoulliSuccess (⟨256⟩ : ScaledInt 1024 .int) CvRandom.counter 300).2 =
        (CvRandom.counter.getInt 300 1024).2)) :=
  ⟨by decide, bernoulliSuccess_draws 1024 .int ⟨256⟩ CvRandom.counter 300 (by decide)
    (by decide)⟩

/-! ## Addition, subtraction and comparison of two values -/

theorem wrap_inRange (T : IntType) (x : Int) : T.InRange (T.wrap x) := by
  cases T <;> simp only [IntType.InRange, IntType.MIN, IntType.MAX, IntType.wrap, wrapInt,
    wrapUInt] <;> omega

theorem wrap_sub_emod (T : IntType) (x : Int) : (T.wrap x - x) % 4294967296 = 0 := by
  cases T <;> simp only [IntType.wrap, wrapInt, wrapUInt] <;> omega

theorem wrap_add_wrap_left (T : IntType) (x y : Int) : T.wrap (T.wrap x + y) = T.wrap (x + y) := by
  cases T <;> simp only [IntType.wrap, wrapInt, wrapUInt] <;> omega

theorem wrap_add_wrap_right (T : IntType) (x y : Int) :
    T.wrap (x + T.wrap y) = T.wrap (x + y) := by
  cases T <;> simp only [IntType.wrap, wrapInt, wrapUInt] <;> omega

/-- Claim C26 (addition and subtraction act on `m_i`): `(a + b).m_i` is
`a.m_i + b.m_i` and `(a - b).m_i` is `a.m_i - b.m_i` whenever that lies in the
range of `INT`; in every case the result lies in the range of `INT` and is
congruent to it modulo `2^32`; and `a + b == b + a` and
`(a + b) + c == a + (b + c)` for every `a`, `b`, `c`. -/
theorem add_sub_raw (SCALE : Int) (T : IntType) (a b c : ScaledInt SCALE T) :
    ((T.InRange (a.m_i + b.m_i) → (add a b).m_i = a.m_i + b.m_i) ∧
     (T.InRange (a.m_i - b.m_i) → (sub a b).m_i = a.m_i - b.m_i)) ∧
    ((T.InRange (add a b).m_i ∧ ((add a b).m_i - (a.m_i + b.m_i)) % 4294967296 = 0) ∧
     (T.InRange (sub a b).m_i ∧ ((sub a b).m_i - (a.m_i - b.m_i)) % 4294967296 = 0)) ∧
    (add a b = add b a ∧ add (add a b) c = add a (add b c)) := by
  refine ⟨⟨fun h => wrap_of_inRange h, fun h => wrap_of_inRange h⟩,
    ⟨⟨wrap_inRange T _, wrap_sub_emod T _⟩, ⟨wrap_inRange T _, wrap_sub_emod T _⟩⟩, ?_, ?_⟩
  · simp only [add, addAssign, Int.add_comm]
  · simp only [add, addAssign, wrap_add_wrap_left, wrap_add_wrap_right, Int.add_assoc]


/-- Claim C27 (comparison of two values of one type): for `0 < SCALE`, each of
`<`, `==`, `!=`, `<=`, `>`, `>=` agrees with the comparison of the represented
values `m_i / SCALE`, taken as exact rationals, and with the comparison of the
`m_i`; and exactly one of `a < b`, `a == b`, `a > b` holds. -/
theorem compare_same_type (SCALE : Int) (T : IntType) (a b : ScaledInt SCALE T) (hS : 0 < SCALE) :
    ((operatorLt a b = true ↔ getDouble a < getDouble b) ∧
     (operatorEq a b = true ↔ getDouble a = getDouble b) ∧
     (operatorNe a b = true ↔ getDouble a ≠ getDouble b) ∧
     (operatorLe a b = true ↔ getDouble a ≤ getDouble b) ∧
     (operatorGt a b = true ↔ getDouble a > getDouble b) ∧
     (operatorGe a b = true ↔ getDouble a ≥ getDouble b)) ∧
    ((operatorLt a b = true ↔ a.m_i < b.m_i) ∧
     (operatorEq a b = true ↔ a.m_i = b.m_i) ∧
     (operatorNe a b = true ↔ a.m_i ≠ b.m_i) ∧
     (operatorLe a b = true ↔ a.m_i ≤ b.m_i) ∧
     (operatorGt a b = true ↔ a.m_i > b.m_i) ∧
     (operatorGe a b = true ↔ a.m_i ≥ b.m_i)) ∧
    ((operatorLt a b = true ∧ operatorEq a b = false ∧ operatorGt a b = false) ∨
     (operatorLt a b = false ∧ operatorEq a b = true ∧ operatorGt a b = false) ∨
     (operatorLt a b = false ∧ operatorEq a b = false ∧ operatorGt a b = true)) := by
  have hSq : (0 : ℚ) < (SCALE : ℚ) := by exact_mod_cast hS
  have hlt : getDouble a < getDouble b ↔ a.m_i < b.m_i := by
    unfold getDouble
    rw [div_lt_div_iff_of_pos_right hSq]
    exact Int.cast_lt
  have hle : getDouble a ≤ getDouble b ↔ a.m_i ≤ b.m_i := by
    unfold getDouble
    rw [div_le_div_iff_of_pos_right hSq]
    exact Int.cast_le
  have heq : getDouble a = getDouble b ↔ a.m_i = b.m_i := by
    unfold getDouble
    rw [div_left_inj' hSq.ne']
    exact Int.cast_inj
  have hgt : getDouble a > getDouble b ↔ a.m_i > b.m_i := by
    unfold getDouble
    rw [gt_iff_lt, div_lt_div_iff_of_pos_right hSq]
    exact Int.cast_lt
  have hge : getDouble a ≥ getDouble b ↔ a.m_i ≥ b.m_i := by
    unfold getDouble
    rw [ge_iff_le, div_le_div_iff_of_pos_right hSq]
    exact Int.cast_le
  simp only [operatorLt, operatorEq, operatorNe, operatorLe, operatorGt, operatorGe,
    decide_eq_true_eq, decide_eq_false_iff_not, hlt, hle, heq, hgt, hge, Ne, and_self,
    true_and]
  omega



/-- Witness of `compare_same_type` for `scaled_int` at `a.m_i = 512`,
`b.m_i = 1024`. -/
theorem compare_same_type_witness :
    operatorLt (⟨512⟩ : ScaledInt 1024 .int) ⟨1024⟩ = true ∧
    (((operatorLt (⟨512⟩ : ScaledInt 1024 .int) ⟨1024⟩ = true ↔
        getDouble (⟨512⟩ : ScaledInt 1024 .int) < getDouble (⟨1024⟩ : ScaledInt 1024 .int)) ∧
     (operatorEq (⟨512⟩ : ScaledInt 1024 .int) ⟨1024⟩ = true ↔
        getDouble (⟨512⟩ : ScaledInt 1024 .int) = getDouble (⟨1024⟩ : ScaledInt 1024 .int)) ∧
     (operatorNe (⟨512⟩ : ScaledInt 1024 .int) ⟨1024⟩ = true ↔
        getDouble (⟨512⟩ : ScaledInt 1024 .int) ≠ getDouble (⟨1024⟩ : ScaledInt 1024 .int)) ∧
     (operatorLe (⟨512⟩ : ScaledInt 1024 .int) ⟨1024⟩ = true ↔
        getDouble (⟨512⟩ : ScaledInt 1024 .int) ≤ getDouble (⟨1024⟩ : ScaledInt 1024 .int)) ∧
     (operatorGt (⟨512⟩ : ScaledInt 1024 .int) ⟨1024⟩ = true ↔
        getDouble (⟨512⟩ : ScaledInt 1024 .int) > getDouble (⟨1024⟩ : ScaledInt 1024 .int)) ∧
     (operatorGe (⟨512⟩ : ScaledInt 1024 .int) ⟨1024⟩ = true ↔
        getDouble (⟨512⟩ : ScaledInt 1024 .int) ≥ getDouble (⟨1024⟩ : ScaledInt 1024 .int))) ∧
    ((operatorLt (⟨512⟩ : ScaledInt 1024 .int) ⟨1024⟩ = true ↔ (512 : Int) < 1024) ∧
     (operatorEq (⟨512⟩ : ScaledInt 1024 .int) ⟨1024⟩ = true ↔ (512 : Int) = 1024) ∧
     (operatorNe (⟨512⟩ : ScaledInt 1024 .int) ⟨1024⟩ = true ↔ (512 : Int) ≠ 1024) ∧
     (operatorLe (⟨512⟩ : ScaledInt 1024 .int) ⟨1024⟩ = true ↔ (512 : Int) ≤ 1024) ∧
     (operatorGt (⟨512⟩ : ScaledInt 1024 .int) ⟨1024⟩ = true ↔ (512 : Int) > 1024) ∧
     (operatorGe (⟨512⟩ : ScaledInt 1024 .int) ⟨1024⟩ = true ↔ (512 : Int) ≥ 1024)) ∧
    ((operatorLt (⟨512⟩ : ScaledInt 1024 .int) ⟨1024⟩ = true ∧
        operatorEq (⟨512⟩ : ScaledInt 1024 .int) ⟨1024⟩ = false ∧
        operatorGt (⟨512⟩ : ScaledInt 1024 .int) ⟨1024⟩ = false) ∨
     (operatorLt (⟨512⟩ : ScaledInt 1024 .int) ⟨1024⟩ = false ∧
        operatorEq (⟨512⟩ : ScaledInt 1024 .int) ⟨1024⟩ = true ∧
        operatorGt (⟨512⟩ : ScaledInt 1024 .int) ⟨1024⟩ = false) ∨
     (operatorLt (⟨512⟩ : ScaledInt 1024 .int) ⟨1024⟩ = false ∧
        operatorEq (⟨512⟩ : ScaledInt 1024 .int) ⟨1024⟩ = false ∧
        operatorGt (⟨512⟩ : ScaledInt 1024 .int) ⟨1024⟩ = true))) :=
  ⟨by decide, compare_same_type 1024 .int ⟨512⟩ ⟨1024⟩ (by decide)⟩

/-! ## Powers with a fractional exponent: index, guard, square root -/

/-- The fraction index of `powNonNegative(ScaledInt)` for `scaled_int` and a
non-negative exponent: the fraction `m_i mod 1024` in 128ths, rounded to
nearest, which is `128` for a fraction of `1020` or more. -/
theorem powExpFrac_eval (rExp : ScaledInt 1024 .int) (h0 : 0 ≤ rExp.m_i) :
    (powExpFrac rExp).m_i = (rExp.m_i % 1024 * 128 + 512) / 1024 ∧
    (powExpFrac rExp).m_i ≤ 128 ∧
    ((powExpFrac rExp).m_i = 128 ↔ 1020 ≤ rExp.m_i % 1024) := by
  have e1 : (subInt rExp (IntType.int.div rExp.m_i 1024)).m_i = rExp.m_i % 1024 := by
    simp only [subInt, subAssignInt, subAssign, ctorInt, IntType.div, IntType.wrap]
    rw [tdiv_of_nonneg h0 (by omega)]
    unfold wrapInt
    omega
  have e2 := ctorScaledInt_uint_int 128 1024
    (subInt rExp (IntType.int.div rExp.m_i 1024)) (by omega) (by omega) (by omega)
    (by rw [e1]; omega) (by rw [e1]; omega)
  unfold powExpFrac
  rw [e2, e1]
  omega

/-- Claim C23 (the index of the exponent fraction is below `128`), evaluated for
`scaled_int` at the exponent with `m_i = 1020`: the fraction `1020 / 1024` is
converted to `ScaledInt<128,uint>` with rounding, `(1020 * 128 + 512) / 1024`,
which is `128`; the assertion `FAssertBounds(0, 128, rExpFrac.m_i)` fails and
the table of 128 entries is read at the index `128`. For the exponent of the
running example, `m_i = 2150`, the index is `13`. -/
theorem powExpFrac_index_128 :
    IntType.int.InRange 1020 ∧
    (powExpFrac (⟨1020⟩ : ScaledInt 1024 .int)).m_i = 128 ∧
    powExpFracAssert (⟨1020⟩ : ScaledInt 1024 .int) = false ∧
    (powExpFrac (⟨1023⟩ : ScaledInt 1024 .int)).m_i = 128 ∧
    (powExpFrac (⟨1019⟩ : ScaledInt 1024 .int)).m_i = 127 ∧
    (powExpFrac (⟨2150⟩ : ScaledInt 1024 .int)).m_i = 13 ∧
    powExpFracAssert (⟨2150⟩ : ScaledInt 1024 .int) = true := by
  decide

/-- Claim C24 (the guard for a base near zero): for every base `x` with
`x.m_i < SCALE / 64`, every non-negative exponent `e`, all tables and any
fuel, `x.pow(e)` and `x.sqrt()` return the value with `m_i = 0`, which is
`ScaledInt(0)`; in particular, the guard covering `m_i = 0` for `SCALE >= 64`,
`ScaledInt(0).sqrt() == ScaledInt(0)`. -/
theorem near_zero_base_guard (SCALE : Int) (tables : FixedPointPowTables) (fuel : Nat)
    (x e : ScaledInt SCALE .int) (hx : x.m_i < Int.tdiv SCALE 64) (he : 0 ≤ e.m_i) :
    powScaled tables fuel x e = some ⟨0⟩ ∧
    sqrt tables fuel x = some ⟨0⟩ ∧
    (ctorInt SCALE .int 0).m_i = 0 ∧
    (64 ≤ SCALE → sqrt tables fuel (ctorInt SCALE .int 0) = some (ctorInt SCALE .int 0)) := by
  have z : ctorInt SCALE .int 0 = ⟨0⟩ := by
    simp [ctorInt, IntType.wrap, wrapInt]
  have g : ∀ (y r : ScaledInt SCALE .int), y.m_i < Int.tdiv SCALE 64 →
      powNonNegativeScaled tables fuel y r = some ⟨0⟩ := by
    intro y r hy
    simp only [powNonNegativeScaled, hy, if_true, z]
  have hn : isNegative e = false := by
    simp only [isNegative, IntType.bSIGNED, Bool.true_and, decide_eq_false_iff_not]
    omega
  refine ⟨?_, g x _ hx, by rw [z], ?_⟩
  · simp only [powScaled, hn, Bool.and_false, Bool.false_eq_true, if_false]
    exact g x e hx
  · intro hS
    have h64 : 0 < Int.tdiv SCALE 64 := by
      rw [tdiv_of_nonneg (by omega) (by omega)]
      omega
    rw [z]
    exact g ⟨0⟩ _ h64


/-- Witness of `near_zero_base_guard` for `scaled_int`: the base with
`m_i = 15 < 1024 / 64` and the exponent `1/2`. -/
theorem near_zero_base_guard_witness :
    powScaled ⟨fun _ => 0, fun _ _ => 0⟩ 0 (⟨15⟩ : ScaledInt 1024 .int) ⟨512⟩ = some ⟨0⟩ ∧
    sqrt ⟨fun _ => 0, fun _ _ => 0⟩ 0 (⟨15⟩ : ScaledInt 1024 .int) = some ⟨0⟩ ∧
    (ctorInt 1024 .int 0).m_i = 0 ∧
    ((64 : Int) ≤ 1024 →
      sqrt ⟨fun _ => 0, fun _ _ => 0⟩ 0 (ctorInt 1024 .int 0) =
        some (ctorInt 1024 .int 0)) :=
  near_zero_base_guard 1024 ⟨fun _ => 0, fun _ _ => 0⟩ 0 ⟨15⟩ ⟨512⟩ (by decide) (by decide)

/-- The value `fromRational<1,2>()`: `SCALE / 2` rounded to the nearest
integer. -/
theorem fromRational_half (SCALE : Int) (hS : 0 < SCALE) (hS' : SCALE ≤ MAX_INT) :
    (fromRational SCALE .int 1 2).m_i = (SCALE + 1) / 2 := by
  unfold MAX_INT at hS'
  have hSq : (0 : ℚ) < (SCALE : ℚ) := by exact_mod_cast hS
  have key := truncate_half_away ((SCALE : ℚ) / 2)
  have hpos : (SCALE : ℚ) / 2 > 0 := by positivity
  have hd : (((1 : Int) : ℚ) / ((2 : Int) : ℚ)) > 0 := by norm_num
  have hm : (fromRational SCALE .int 1 2).m_i =
      wrapInt (truncate ((SCALE : ℚ) / 2 + (if (SCALE : ℚ) / 2 > 0 then 1 / 2 else -(1 / 2)))) := by
    simp only [fromRational, fromDouble, IntType.wrap, hd, hpos, if_true]
    congr 2
    push_cast
    ring
  generalize truncate ((SCALE : ℚ) / 2 +
    (if (SCALE : ℚ) / 2 > 0 then 1 / 2 else -(1 / 2))) = n at key hm
  obtain ⟨_, k2, k3, _⟩ := key
  have k3' := k3 hpos
  have a1 : ((SCALE - 1 : Int) : ℚ) < ((2 * n : Int) : ℚ) := by push_cast; linarith
  have a2 : ((2 * n : Int) : ℚ) ≤ ((SCALE + 1 : Int) : ℚ) := by push_cast; linarith
  have b1 : SCALE - 1 < 2 * n := by exact_mod_cast a1
  have b2 : 2 * n ≤ SCALE + 1 := by exact_mod_cast a2
  rw [hm, wrapInt_of_range (by omega) (by omega)]
  omega

/-- Claim C25 (`sqrt` is `pow(1/2)`): for `0 < SCALE`, every value `x`, all
tables and any fuel, `x.sqrt()` equals `x.pow(h)` with `h = fromRational<1,2>()`,
whose `m_i` is `SCALE / 2` rounded to nearest, `(SCALE + 1) / 2`, which is
`SCALE / 2` for an even `SCALE`. -/
theorem sqrt_eq_pow_half (SCALE : Int) (tables : FixedPointPowTables) (fuel : Nat)
    (x : ScaledInt SCALE .int) (hS : 0 < SCALE) (hS' : SCALE ≤ MAX_INT) :
    sqrt tables fuel x = powScaled tables fuel x (fromRational SCALE .int 1 2) ∧
    (fromRational SCALE .int 1 2).m_i = (SCALE + 1) / 2 ∧
    (2 ∣ SCALE → (fromRational SCALE .int 1 2).m_i = SCALE / 2) := by
  have h := fromRational_half SCALE hS hS'
  have hn : isNegative (fromRational SCALE .int 1 2) = false := by
    simp only [isNegative, IntType.bSIGNED, Bool.true_and, decide_eq_false_iff_not, h]
    omega
  refine ⟨?_, h, fun hd => by rw [h]; omega⟩
  simp only [sqrt, powScaled, hn, Bool.and_false, Bool.false_eq_true, if_false]


/-- Witness of `sqrt_eq_pow_half` for `scaled_int`, where `h` has `m_i = 512`,
at the base `4` with tables of zeros: both calls return the same value. -/
theorem sqrt_eq_pow_half_witness :
    (sqrt ⟨fun _ => 0, fun _ _ => 0⟩ 40 (⟨4096⟩ : ScaledInt 1024 .int)).isSome = true ∧
    (sqrt ⟨fun _ => 0, fun _ _ => 0⟩ 40 (⟨4096⟩ : ScaledInt 1024 .int) =
      powScaled ⟨fun _ => 0, fun _ _ => 0⟩ 40 (⟨4096⟩ : ScaledInt 1024 .int)
        (fromRational 1024 .int 1 2) ∧
    (fromRational 1024 .int 1 2).m_i = (1024 + 1) / 2 ∧
    ((2 : Int) ∣ 1024 → (fromRational 1024 .int 1 2).m_i = 1024 / 2)) := by
  have h := sqrt_eq_pow_half 1024 ⟨fun _ => 0, fun _ _ => 0⟩ 40 ⟨4096⟩ (by decide) (by decide)
  refine ⟨?_, h⟩
  rw [h.1]
  have e : fromRational 1024 .int 1 2 = ⟨512⟩ := by
    have := h.2.1
    cases hf : fromRational 1024 .int 1 2 with
    | mk m => rw [hf] at this; simp only at this; rw [this]; rfl
  rw [e]
  decide

/-! ## Member templates: `approxEquals` and the clamp family -/

theorem ltOperand_iff {SCALE : Int} {T : IntType} (x : ScaledInt SCALE T)
    (o : Operand SCALE T) (ho : o.Exact) : ltOperand x o = true ↔ x.m_i < o.raw := by
  cases o with
  | int i =>
    obtain ⟨⟨h1, h2⟩, _⟩ := ho
    unfold MIN_INT at h1
    unfold MAX_INT at h2
    simp only [ltOperand, ltInt, scaleForComparison, Operand.raw, decide_eq_true_eq,
      wrapInt_of_range h1 h2]
  | scaled r => simp only [ltOperand, operatorLt, Operand.raw, decide_eq_true_eq]

theorem gtOperand_iff {SCALE : Int} {T : IntType} (x : ScaledInt SCALE T)
    (o : Operand SCALE T) (ho : o.Exact) : gtOperand x o = true ↔ x.m_i > o.raw := by
  cases o with
  | int i =>
    obtain ⟨⟨h1, h2⟩, _⟩ := ho
    unfold MIN_INT at h1
    unfold MAX_INT at h2
    simp only [gtOperand, gtInt, scaleForComparison, Operand.raw, decide_eq_true_eq,
      wrapInt_of_range h1 h2]
  | scaled r => simp only [gtOperand, operatorGt, Operand.raw, decide_eq_true_eq]

theorem leOperand_iff {SCALE : Int} {T : IntType} (x : ScaledInt SCALE T)
    (o : Operand SCALE T) (ho : o.Exact) : leOperand x o = true ↔ x.m_i ≤ o.raw := by
  cases o with
  | int i =>
    obtain ⟨⟨h1, h2⟩, _⟩ := ho
    unfold MIN_INT at h1
    unfold MAX_INT at h2
    simp only [leOperand, leInt, scaleForComparison, Operand.raw, decide_eq_true_eq,
      wrapInt_of_range h1 h2]
  | scaled r => simp only [leOperand, operatorLe, Operand.raw, decide_eq_true_eq]

theorem ofOperand_raw {SCALE : Int} {T : IntType} (o : Operand SCALE T) (ho : o.Exact) :
    (ofOperand o).m_i = o.raw := by
  cases o with
  | int i =>
    obtain ⟨⟨h1, h2⟩, h3⟩ := ho
    unfold MIN_INT at h1
    unfold MAX_INT at h2
    simp only [ofOperand, ctorInt, Operand.raw]
    rw [Int.mul_comm SCALE i, wrapInt_of_range h1 h2, wrap_of_inRange h3]
  | scaled r => rfl

theorem subOperand_raw {SCALE : Int} {T : IntType} (x : ScaledInt SCALE T)
    (o : Operand SCALE T) (ho : o.Exact) (hd : T.InRange (x.m_i - o.raw)) :
    (subOperand x o).m_i = x.m_i - o.raw := by
  cases o with
  | int i =>
    have h := ofOperand_raw (Operand.int i : Operand SCALE T) ho
    simp only [ofOperand] at h
    simp only [subOperand, subInt, subAssignInt, subAssign, h]
    exact wrap_of_inRange hd
  | scaled r =>
    simp only [subOperand, sub, subAssign]
    exact wrap_of_inRange hd

/-- In-range `int` arguments of a signed class are exact. -/
theorem exact_of_inRange {SCALE : Int} (hS : 0 < SCALE) (i : Int)
    (hi : Int.tdiv (IntType.MIN .int) SCALE ≤ i ∧ i ≤ Int.tdiv (IntType.MAX .int) SCALE) :
    (Operand.int i : Operand SCALE .int).Exact := by
  have h := mul_scale_inRange .int hS hi
  exact ⟨by simpa [IntType.InRange, IntType.MIN, IntType.MAX, MIN_INT, MAX_INT] using h, h⟩

/-- The member template `approxEquals` when nothing wraps around: with exact
arguments and a difference that fits `int` and is not `MIN`, the result is
`|x - num| <= e` on the denoted raw values. -/
theorem approxEquals_iff {SCALE : Int} (x : ScaledInt SCALE .int) (num e : Operand SCALE .int)
    (hnum : num.Exact) (he : e.Exact) (hd : IntType.int.InRange (x.m_i - num.raw))
    (hmin : x.m_i - num.raw ≠ IntType.MIN .int) :
    approxEquals x num e = true ↔ |x.m_i - num.raw| ≤ e.raw := by
  have hs := subOperand_raw x num hnum hd
  simp only [IntType.InRange, IntType.MIN, IntType.MAX] at hd hmin
  have ha : (abs (subOperand x num)).m_i = |x.m_i - num.raw| := by
    simp only [abs, hs]
    rcases abs_cases (x.m_i - num.raw) with ⟨h1, _⟩ | ⟨h1, _⟩ <;> rw [h1] <;>
      exact wrapInt_of_range (by omega) (by omega)
  unfold approxEquals
  rw [leOperand_iff _ e he, ha]

/-- The member templates `clamped`, `increasedTo` and `decreasedTo` when the
bounds are exact and `lo <= hi`. -/
theorem clamped_spec {SCALE : Int} {T : IntType} (x : ScaledInt SCALE T)
    (lo hi : Operand SCALE T) (hlo : lo.Exact) (hhi : hi.Exact) (h : lo.raw ≤ hi.raw) :
    (clamped x lo hi).m_i =
      (if x.m_i < lo.raw then lo.raw else if x.m_i > hi.raw then hi.raw else x.m_i) ∧
    (lo.raw ≤ (clamped x lo hi).m_i ∧ (clamped x lo hi).m_i ≤ hi.raw) ∧
    clamped (clamped x lo hi) lo hi = clamped x lo hi ∧
    (increasedTo x lo).m_i = max x.m_i lo.raw ∧
    (decreasedTo x hi).m_i = min x.m_i hi.raw := by
  have inc : ∀ y : ScaledInt SCALE T,
      (increaseTo y lo).m_i = if y.m_i < lo.raw then lo.raw else y.m_i := by
    intro y
    unfold increaseTo
    by_cases c : y.m_i < lo.raw
    · rw [if_pos ((ltOperand_iff y lo hlo).mpr c), if_pos c, ofOperand_raw lo hlo]
    · rw [if_neg (fun h' => c ((ltOperand_iff y lo hlo).mp h')), if_neg c]
  have dec : ∀ y : ScaledInt SCALE T,
      (decreaseTo y hi).m_i = if y.m_i > hi.raw then hi.raw else y.m_i := by
    intro y
    unfold decreaseTo
    by_cases c : y.m_i > hi.raw
    · rw [if_pos ((gtOperand_iff y hi hhi).mpr c), if_pos c, ofOperand_raw hi hhi]
    · rw [if_neg (fun h' => c ((gtOperand_iff y hi hhi).mp h')), if_neg c]
  have cl : ∀ y : ScaledInt SCALE T, (clamped y lo hi).m_i =
      (if y.m_i < lo.raw then lo.raw else if y.m_i > hi.raw then hi.raw else y.m_i) := by
    intro y
    simp only [clamped, clamp, dec, inc]
    split_ifs <;> omega
  have ext : ∀ a b : ScaledInt SCALE T, a.m_i = b.m_i → a = b := by
    intro a b hab
    cases a; cases b; simp only at hab; rw [hab]
  refine ⟨cl x, ?_, ?_, ?_, ?_⟩
  · rw [cl x]; split_ifs <;> omega
  · apply ext
    rw [cl (clamped x lo hi), cl x]
    split_ifs <;> omega
  · simp only [increasedTo, inc]
    split_ifs <;> omega
  · simp only [decreasedTo, dec]
    split_ifs <;> omega

/-- Claim C28 (`approxEquals`), evaluated for `scaled_int` at
`x = v = ScaledInt(0)` and the `int` epsilon `2097152`: `(x - v).abs() <= e`
compares with `scaleForComparison(e)`, whose product `e * SCALE` is formed in
`int` and wraps around to `MIN`, so the result is `false` although
`|x.m_i - v.m_i| = 0 <= e * SCALE`. With an epsilon of the class, and with
`int` arguments whose product with `SCALE` fits `int`, the equivalence holds
(`approxEquals_iff`). -/
theorem approxEquals_int_epsilon_wraps :
    approxEquals (ctorInt 1024 .int 0) (.scaled (ctorInt 1024 .int 0)) (.int 2097152) = false ∧
    |(ctorInt 1024 .int 0).m_i - (ctorInt 1024 .int 0).m_i| ≤ 2097152 * 1024 ∧
    scaleForComparison 1024 2097152 = -2147483648 ∧
    approxEquals (ctorInt 1024 .int 0) (.int 0) (.int 2097152) = false ∧
    approxEquals (⟨1024⟩ : ScaledInt 1024 .int) (.scaled ⟨1000⟩) (.scaled ⟨24⟩) = true ∧
    approxEquals (⟨1024⟩ : ScaledInt 1024 .int) (.scaled ⟨1000⟩) (.scaled ⟨23⟩) = false ∧
    approxEquals (⟨1024⟩ : ScaledInt 1024 .int) (.int 2) (.int 1) = true := by
  decide

/-- Claim C29 (`clamped`, `increasedTo`, `decreasedTo`), evaluated for
`scaled_uint` at `x = 0` and the `int` bounds `3000000 <= 4000000`, both inside
`[MIN / SCALE, MAX / SCALE]`: the comparisons use `scaleForComparison`, whose
products wrap around in `int` to negative values, so `x < lo` is `false`,
`x > hi` is `true`, and `clamped` returns `hi` (`m_i = 4096000000`) where the
claim has `lo`; `increasedTo(lo)` leaves `x` at `0`. With exact bounds the
claim holds (`clamped_spec`), in particular for every signed type
(`exact_of_inRange`). -/
theorem clamped_uint_int_bounds_wrap :
    (ctorIntAssert 1024 .uint 3000000 = true ∧ ctorIntAssert 1024 .uint 4000000 = true) ∧
    ((ctorInt 1024 .uint 3000000).m_i = 3000000 * 1024 ∧
      (ctorInt 1024 .uint 4000000).m_i = 4000000 * 1024) ∧
    (⟨0⟩ : ScaledInt 1024 .uint).m_i < 3000000 * 1024 ∧
    ltOperand (⟨0⟩ : ScaledInt 1024 .uint) (.int 3000000) = false ∧
    gtOperand (⟨0⟩ : ScaledInt 1024 .uint) (.int 4000000) = true ∧
    clamped (⟨0⟩ : ScaledInt 1024 .uint) (.int 3000000) (.int 4000000) =
      ctorInt 1024 .uint 4000000 ∧
    clamped (⟨0⟩ : ScaledInt 1024 .uint) (.int 3000000) (.int 4000000) ≠
      ctorInt 1024 .uint 3000000 ∧
    increasedTo (⟨0⟩ : ScaledInt 1024 .uint) (.int 3000000) = ⟨0⟩ ∧
    clamped (⟨0⟩ : ScaledInt 1024 .int) (.int 3) (.int 4) = ctorInt 1024 .int 3 := by
  decide

/-! ## Percentages -/

/-- Claim C30 (percent round trip): for `scaled_int` and for `scaled_uint`,
`per100(25)` has `m_i = 256`, `per100(25).getInt()` is `0`, and `per100(25)`
added up four times has `m_i = 1024` and equals `ScaledInt(1)`. -/
theorem per100_round_trip :
    ((per100 25).m_i = 256 ∧ (per100 25).getInt = 0 ∧
      (add (add (add (per100 25) (per100 25)) (per100 25)) (per100 25)).m_i = 1024 ∧
      add (add (add (per100 25) (per100 25)) (per100 25)) (per100 25) =
        ctorInt 1024 .int 1) ∧
    ((per100UInt 25).m_i = 256 ∧ (per100UInt 25).getInt = 0 ∧
      (add (add (add (per100UInt 25) (per100UInt 25)) (per100UInt 25))
        (per100UInt 25)).m_i = 1024 ∧
      add (add (add (per100UInt 25) (per100UInt 25)) (per100UInt 25)) (per100UInt 25) =
        ctorInt 1024 .uint 1) := by
  decide

/-! ## Percent and permille read back -/

theorem per100_raw (n : Int) (h1 : -2097151 ≤ n) (h2 : n ≤ 2097151) :
    (per100 n).m_i = Int.tdiv (n * 1024) 100 := by
  have hw : wrapInt n = n := wrapInt_of_range (by omega) (by omega)
  unfold per100 fromRationalDen
  rw [ctorScaledInt_int_int 1024 100 _ (by norm_num) (by norm_num)]
  · simp only [IntType.wrap, hw]
  · simp only [IntType.wrap, hw, IntType.InRange, IntType.MIN, IntType.MAX]
    omega

theorem per1000_raw (n : Int) (h1 : -2097151 ≤ n) (h2 : n ≤ 2097151) :
    (per1000 n).m_i = Int.tdiv (n * 1024) 1000 := by
  have hw : wrapInt n = n := wrapInt_of_range (by omega) (by omega)
  unfold per1000 fromRationalDen
  rw [ctorScaledInt_int_int 1024 1000 _ (by norm_num) (by norm_num)]
  · simp only [IntType.wrap, hw]
  · simp only [IntType.wrap, hw, IntType.InRange, IntType.MIN, IntType.MAX]
    omega

/-- Evaluation of `toScaleRound` for `INT = int` from scale 1024 when the
product fits: the quotient rounded half away from zero. -/
theorem toScaleRound_int_1024 (m iTo : Int)
    (hp1 : -2147483000 ≤ m * iTo) (hp2 : m * iTo ≤ 2147483000) :
    toScaleRound .int m 1024 iTo =
      some (if 0 ≤ m * iTo then (m * iTo + 512) / 1024 else -((-(m * iTo) + 512) / 1024)) := by
  have hw : wrapInt (m * iTo) = m * iTo := wrapInt_of_range (by omega) (by omega)
  unfold toScaleRound
  simp only [IntType.bSIGNED, Bool.not_true, Bool.false_eq_true, if_false, hw]
  have hne : (1024 : Int) ≠ 0 := by norm_num
  simp only [hne, if_false]
  congr 1
  by_cases hs : 0 ≤ m * iTo
  · have hs' : m * iTo ≥ 0 := hs
    simp only [hs, hs', if_true]
    have h512 : wrapInt (Int.tdiv 1024 2) = 512 := by decide
    rw [h512, wrapLongLong_of_range (x := m * iTo + 512) (by omega) (by omega),
      tdiv_of_nonneg (by omega) (by norm_num),
      wrapLongLong_of_range (by omega) (by omega), wrapInt_of_range (by omega) (by omega)]
  · have hs' : ¬ (m * iTo ≥ 0) := hs
    simp only [hs, hs', if_false]
    have h512 : wrapInt (Int.tdiv 1024 (-2)) = -512 := by decide
    rw [h512, wrapLongLong_of_range (x := m * iTo + -512) (by omega) (by omega),
      tdiv_of_nonpos (by omega) (by norm_num),
      wrapLongLong_of_range (by omega) (by omega), wrapInt_of_range (by omega) (by omega)]
    congr 2
    ring

/-- Claim C37 (percent round trip through `getPercent`): for every `int n`
with `|n| ≤ 200000`, the signed `per100(n).getPercent()` returns `n`. -/
theorem per100_getPercent (n : Int) (h : |n| ≤ 200000) :
    getPercent (per100 n) = some n := by
  have hb := abs_le.mp h
  have hraw := per100_raw n (by omega) (by omega)
  unfold getPercent
  rw [hraw]
  rcases le_or_lt 0 n with hn | hn
  · rw [tdiv_of_nonneg (by omega) (by norm_num)]
    rw [wrapInt_of_range (by omega) (by omega), toScaleRound_int_1024 _ _ (by omega) (by omega)]
    congr 1
    split_ifs <;> omega
  · rw [tdiv_of_nonpos (by omega) (by norm_num)]
    rw [wrapInt_of_range (by omega) (by omega), toScaleRound_int_1024 _ _ (by omega) (by omega)]
    congr 1
    split_ifs <;> omega

theorem per100_getPercent_witness :
    |(-7 : Int)| ≤ 200000 ∧ getPercent (per100 (-7)) = some (-7) :=
  ⟨by decide, per100_getPercent (-7) (by decide)⟩

/-- Claim C38, as it holds (permille round trip through `getPermille`): for
every `int n` with `0 ≤ n ≤ 1000`, the signed `per1000(n).getPermille()`
returns `n` when the remainder of `n * 1024` by `1000`, which the truncating
conversion discards, is at most `512`, and `n - 1` otherwise. -/
theorem per1000_getPermille (n : Int) (h0 : 0 ≤ n) (h1 : n ≤ 1000) :
    getPermille (per1000 n) = some (if n * 1024 % 1000 ≤ 512 then n else n - 1) := by
  have hraw := per1000_raw n (by omega) (by omega)
  unfold getPermille
  rw [hraw, tdiv_of_nonneg (by omega) (by norm_num),
    wrapInt_of_range (by omega) (by omega), toScaleRound_int_1024 _ _ (by omega) (by omega)]
  congr 1
  split_ifs <;> omega

theorem per1000_getPermille_witness :
    (0 : Int) ≤ 21 ∧ (21 : Int) ≤ 1000 ∧
      getPermille (per1000 21) = some (if (21 : Int) * 1024 % 1000 ≤ 512 then 21 else 21 - 1) :=
  ⟨by decide, by decide, per1000_getPermille 21 (by decide) (by decide)⟩

/-- The permille round trip fails at `n = 22`: `per1000(22)` has `m_i = 22`
(`22.528` truncated), and `getPermille()` returns `(22000 + 512) / 1024 = 21`. -/
theorem per1000_getPermille_22 :
    (per1000 22).m_i = 22 ∧ getPermille (per1000 22) = some 21 := by
  decide

/-! ## Evaluation with and without assertions -/

theorem ctorIntChecked_refines {i : Int} {r : ScaledInt SCALE T}
    (h : ctorIntChecked SCALE T i = some r) : r = ctorInt SCALE T i := by
  unfold ctorIntChecked at h
  split_ifs at h
  exact (Option.some.inj h).symm

theorem ctorScaledIntChecked_refines {FROM_SCALE : Int} {FROM_T : IntType}
    {rOther : ScaledInt FROM_SCALE FROM_T} {r : ScaledInt SCALE T}
    (h : ctorScaledIntChecked SCALE T rOther = some r) : r = ctorScaledInt SCALE T rOther := by
  unfold ctorScaledIntChecked at h
  split_ifs at h <;> exact (Option.some.inj h).symm

theorem mulAssignChecked_refines {a b r : ScaledInt SCALE T}
    (h : mulAssignChecked a b = some r) : r = mulAssign a b := by
  unfold mulAssignChecked at h
  split_ifs at h
  exact (Option.some.inj h).symm

theorem divAssignChecked_refines {a b r : ScaledInt SCALE T}
    (h : divAssignChecked a b = some r) : divAssign a b = some r := by
  unfold divAssignChecked at h
  split_ifs at h
  exact h

theorem powNonNegativeLoopChecked_refines (x : ScaledInt SCALE T) :
    ∀ (n : Nat) (r v : ScaledInt SCALE T),
      powNonNegativeLoopChecked x n r = some v → v = powNonNegativeLoop x n r := by
  intro n
  induction n with
  | zero =>
    intro r v h
    exact (Option.some.inj h).symm
  | succ n ih =>
    intro r v h
    simp only [powNonNegativeLoopChecked, Option.bind_eq_some] at h
    obtain ⟨w, hw, hv⟩ := h
    rw [mulAssignChecked_refines hw] at hv
    exact ih _ _ hv

theorem powNonNegativeChecked_refines {x v : ScaledInt SCALE T} {iExp : Int}
    (h : powNonNegativeChecked x iExp = some v) : v = powNonNegative x iExp := by
  simp only [powNonNegativeChecked, Option.bind_eq_some] at h
  obtain ⟨w, hw, hv⟩ := h
  rw [ctorIntChecked_refines hw] at hv
  exact powNonNegativeLoopChecked_refines x _ _ _ hv

theorem powChecked_refines {x v : ScaledInt SCALE T} {iExp : Int}
    (h : powChecked x iExp = some v) : pow x iExp = some v := by
  unfold powChecked at h
  unfold pow
  split_ifs at h ⊢
  · simp only [Option.bind_eq_some] at h
    obtain ⟨w, hw, one, hone, hv⟩ := h
    rw [← powNonNegativeChecked_refines hw, intDiv, div, ← ctorIntChecked_refines hone]
    exact divAssignChecked_refines hv
  · rw [powNonNegativeChecked_refines h]

/-- Whenever the evaluation with assertions yields a value, the evaluation
without assertions yields the same value. -/
theorem sumTimesPowChecked_refines (a b c m iExp : Int) (v : ScaledInt 1024 .int)
    (h : sumTimesPowChecked a b c m iExp = some v) : sumTimesPow a b c m iExp = some v := by
  simp only [sumTimesPowChecked, per100Checked, Option.bind_eq_some] at h
  obtain ⟨ra, hra, rb, hrb, rc, hrc, rm, hrm, rp, hrp, hv⟩ := h
  have h1 := ctorScaledIntChecked_refines hra
  have h2 := ctorScaledIntChecked_refines hrb
  have h3 := ctorScaledIntChecked_refines hrc
  have h4 := ctorIntChecked_refines hrm
  have h5 := mulAssignChecked_refines hrp
  subst h1 h2 h3 h4 h5
  exact powChecked_refines hv

/-- Claim C31 (determinism scenario, debug versus optimized): for `scaled_int`,
`((per100(33) + per100(33) + per100(34)) * ScaledInt(3)).pow(2)` evaluated with
every assertion checked raises no assertion and yields `m_i = 9180`, and the
evaluation without assertions yields the same `m_i = 9180`; the intermediate
values are `337`, `337`, `348`, their sum `1022` and the product `3066`. -/
theorem sumTimesPow_checked_and_unchecked :
    sumTimesPowChecked 33 33 34 3 2 = some ⟨9180⟩ ∧
    sumTimesPow 33 33 34 3 2 = some ⟨9180⟩ ∧
    sumTimesPowChecked 33 33 34 3 2 = sumTimesPow 33 33 34 3 2 ∧
    (per100 33).m_i = 337 ∧ (per100 34).m_i = 348 ∧
    (add (add (per100 33) (per100 33)) (per100 34)).m_i = 1022 ∧
    (mul (add (add (per100 33) (per100 33)) (per100 34)) (ctorInt 1024 .int 3)).m_i = 3066 := by
  decide

/-! ## The doubling loop of the fractional power -/

/-- For a base above `2^30 / 1024` the condition of the doubling loop holds at
`baseDiv = 1, 2, 4, …, 2^20` and at every multiple of `2^21`, where the product
`baseDiv * SCALE` wraps to `MIN` or to `0`; doubling stays within these values,
so the loop does not end. -/
theorem powDoublingLoop_none_of_large (x : ScaledInt 1024 .int) (hx : 1073741824 < x.m_i)
    (r : ScaledInt 256 .uint) :
    ∀ (fuel : Nat) (b : Int) (p : ScaledInt 1024 .uint),
      (b = 1 ∨ b = 2 ∨ b = 4 ∨ b = 8 ∨ b = 16 ∨ b = 32 ∨ b = 64 ∨ b = 128 ∨ b = 256 ∨
        b = 512 ∨ b = 1024 ∨ b = 2048 ∨ b = 4096 ∨ b = 8192 ∨ b = 16384 ∨ b = 32768 ∨
        b = 65536 ∨ b = 131072 ∨ b = 262144 ∨ b = 524288 ∨ b = 1048576 ∨
        b % 2097152 = 0) →
      powDoublingLoop x r fuel b p = none := by
  intro fuel
  induction fuel with
  | zero => intro b p _; rfl
  | succ fuel ih =>
    intro b p hb
    have hgt : gtInt x b = true := by
      simp only [gtInt, scaleForComparison, decide_eq_true_eq, wrapInt]
      omega
    simp only [powDoublingLoop, hgt, if_true]
    apply ih
    simp only [wrapInt]
    omega

/-- Claim C33 (the doubling loop of the fractional power): for `scaled_int`
and the base `ScaledInt(1048577)`, whose `m_i = 1073742848` lies between
`Scale/64` and `MAX`, the loop `while (baseDiv < *this) baseDiv *= 2` does not
end within any number of tests of its condition, whatever the factor and the
initial product are; for the base `5325/1024` it ends with `baseDiv = 8`. -/
theorem powDoublingLoop_never_ends :
    (ctorInt 1024 .int 1048577).m_i = 1073742848 ∧
    Int.tdiv 1024 64 ≤ (1073742848 : Int) ∧ (1073742848 : Int) ≤ MAX_INT ∧
    (∀ (rPowOfTwo : ScaledInt 256 .uint) (fuel : Nat) (p : ScaledInt 1024 .uint),
      powDoublingLoop (ctorInt 1024 .int 1048577) rPowOfTwo fuel 1 p = none) ∧
    gtInt (ctorInt 1024 .int 1048577) 2097152 = true ∧
    scaleForComparison 1024 2097152 = MIN_INT ∧
    powDoublingLoop (⟨5325⟩ : ScaledInt 1024 .int) ⟨275⟩ 4 1 (ctorInt 1024 .uint 1) =
      some (8, ⟨1270⟩) := by
  refine ⟨by decide, by decide, by decide, ?_, by decide, by decide, by decide⟩
  intro r fuel p
  exact powDoublingLoop_none_of_large _ (by decide) r fuel 1 p (Or.inl rfl)

theorem two_pow_bounds (j : Nat) (hj : j ≤ 20) : (1 : Int) ≤ 2 ^ j ∧ (2 : Int) ^ j ≤ 1048576 := by
  constructor
  · have := pow_pos (show (0 : Int) < 2 by norm_num) j
    omega
  · have := pow_le_pow_right₀ (show (1 : Int) ≤ 2 by norm_num) hj
    norm_num at this
    exact this

/-- For a base of at most `2^30 / 1024` the doubling loop, entered with
`baseDiv = 2^j`, ends with `baseDiv = 2^k`, the least power of two from `2^j`
on with `x.m_i ≤ 2^k * 1024`, the product having been multiplied `k - j`
times. -/
theorem powDoublingLoop_ends_aux (x : ScaledInt 1024 .int) (r : ScaledInt 256 .uint)
    (hx : x.m_i ≤ 1073741824) :
    ∀ (d j fuel : Nat) (p : ScaledInt 1024 .uint), j + d = 20 → d < fuel →
      (j = 0 ∨ (2 : Int) ^ (j - 1) * 1024 < x.m_i) →
      ∃ k, j ≤ k ∧ k ≤ 20 ∧
        powDoublingLoop x r fuel ((2 : Int) ^ j) p =
          some ((2 : Int) ^ k,
            (fun q => mulAssign q (ctorScaledInt 1024 .uint r))^[k - j] p) ∧
        x.m_i ≤ (2 : Int) ^ k * 1024 ∧ (k = 0 ∨ (2 : Int) ^ (k - 1) * 1024 < x.m_i) := by
  intro d
  induction d with
  | zero =>
    intro j fuel p hj hfuel hprev
    obtain ⟨fuel, rfl⟩ : ∃ f, fuel = f + 1 := ⟨fuel - 1, by omega⟩
    have hb := two_pow_bounds j (by omega)
    have hj20 : j = 20 := by omega
    have h20 : (2 : Int) ^ j = 1048576 := by rw [hj20]; norm_num
    have hgt : gtInt x ((2 : Int) ^ j) = false := by
      simp only [gtInt, scaleForComparison, decide_eq_false_iff_not, wrapInt]
      omega
    refine ⟨j, le_refl _, by omega, ?_, by omega, hprev⟩
    simp [powDoublingLoop, hgt]
  | succ d ih =>
    intro j fuel p hj hfuel hprev
    obtain ⟨fuel, rfl⟩ : ∃ f, fuel = f + 1 := ⟨fuel - 1, by omega⟩
    have hb := two_pow_bounds j (by omega)
    by_cases hc : (2 : Int) ^ j * 1024 < x.m_i
    · have hgt : gtInt x ((2 : Int) ^ j) = true := by
        simp only [gtInt, scaleForComparison, decide_eq_true_eq, wrapInt]
        omega
      have hdbl : wrapInt ((2 : Int) ^ j * 2) = (2 : Int) ^ (j + 1) := by
        rw [pow_succ]
        exact wrapInt_of_range (by omega) (by omega)
      obtain ⟨k, hk1, hk2, hk3, hk4, hk5⟩ :=
        ih (j + 1) fuel (mulAssign p (ctorScaledInt 1024 .uint r)) (by omega) (by omega)
          (Or.inr (by simpa using hc))
      refine ⟨k, by omega, hk2, ?_, hk4, hk5⟩
      simp only [powDoublingLoop, hgt, if_true, hdbl, hk3]
      have hkj : k - j = (k - (j + 1)) + 1 := by omega
      rw [hkj, Function.iterate_succ_apply]
    · have hgt : gtInt x ((2 : Int) ^ j) = false := by
        simp only [gtInt, scaleForComparison, decide_eq_false_iff_not, wrapInt]
        omega
      refine ⟨j, le_refl _, by omega, ?_, by omega, hprev⟩
      simp [powDoublingLoop, hgt]

/-- The doubling loop ends for every base of at most `2^30 / 1024`: twenty-one
tests of the condition suffice, and on exit `baseDiv = 2^k` with
`x.m_i ≤ baseDiv * 1024` and `k = 0` or `2^(k-1) * 1024 < x.m_i`. -/
theorem powDoublingLoop_ends (x : ScaledInt 1024 .int) (r : ScaledInt 256 .uint)
    (hx : x.m_i ≤ 1073741824) (fuel : Nat) (hfuel : 20 < fuel) (p : ScaledInt 1024 .uint) :
    ∃ k, k ≤ 20 ∧
      powDoublingLoop x r fuel 1 p =
        some ((2 : Int) ^ k, (fun q => mulAssign q (ctorScaledInt 1024 .uint r))^[k] p) ∧
      x.m_i ≤ (2 : Int) ^ k * 1024 ∧ (k = 0 ∨ (2 : Int) ^ (k - 1) * 1024 < x.m_i) := by
  obtain ⟨k, _, hk2, hk3, hk4, hk5⟩ :=
    powDoublingLoop_ends_aux x r hx 20 0 fuel p (by omega) hfuel (Or.inl rfl)
  exact ⟨k, hk2, by simpa using hk3, hk4, hk5⟩

/-- Evaluation of `iLastBaseTimes64` when nothing overflows: the quotient
`x.m_i / baseDiv`, rounded to 64ths. -/
theorem powLastBaseTimes64_eval (x : ScaledInt 1024 .int) (B : Int)
    (hx0 : 0 ≤ x.m_i) (hx : x.m_i ≤ 2097151) (hB1 : 1 ≤ B) (hB2 : B ≤ 1048576)
    (hxB : x.m_i ≤ B * 1024) :
    powLastBaseTimes64 x B = some ((x.m_i / B * 64 + 512) / 1024) ∧
      0 ≤ x.m_i / B ∧ x.m_i / B ≤ 1024 := by
  have hq0 : 0 ≤ x.m_i / B := Int.ediv_nonneg hx0 (by omega)
  have hx' : x.m_i ≤ 1024 * B := by omega
  have hq1 : x.m_i / B ≤ 1024 := Int.ediv_le_of_le_mul (by omega) hx'
  have hdiv : divInt x B = some ⟨x.m_i / B⟩ := by
    simp only [divInt, divAssignInt, divAssign, ctorInt, IntType.wrap, IntType.conv,
      IntType.bSIGNED, IntType.div, Bool.not_true, Bool.false_eq_true, if_false]
    rw [wrapInt_of_range (x := 1024 * B) (by omega) (by omega),
      wrapInt_of_range (x := 1024 * B) (by omega) (by omega),
      wrapInt_of_range (x := x.m_i * 1024) (by omega) (by omega)]
    rw [if_neg (by rw [divTraps_int]; omega)]
    rw [tdiv_of_nonneg (by omega) (by omega), mul_comm 1024 B,
      Int.mul_ediv_mul_of_pos_left _ _ (by norm_num), wrapInt_of_range (by omega) (by omega)]
  have hconv := ctorScaledInt_uint_int 64 1024 (⟨x.m_i / B⟩ : ScaledInt 1024 .int)
    (by norm_num) (by norm_num) (by norm_num) hq0 (by show x.m_i / B * 64 + 1024 / 2 ≤ _; omega)
  refine ⟨?_, hq0, hq1⟩
  simp only [powLastBaseTimes64, hdiv, Option.map_some', hconv]
  congr 1
  exact wrapInt_of_range (by omega) (by omega)

/-- Claim C34 (the residual-base table index is in range): for `scaled_int`
and every base with `Scale/64 ≤ x.m_i ≤ MAX/Scale`, the doubling loop ends
(twenty-one tests of its condition suffice), `iLastBaseTimes64` is computed
without a division by zero and satisfies `1 ≤ iLastBaseTimes64 ≤ 64`, the
assertion `FAssertBounds(0, 64+1, iLastBaseTimes64)` passes, and when the
second table is consulted (`rExpFrac.m_i ≠ 0` and `iLastBaseTimes64 ≠ 64`) the
row index `iLastBaseTimes64 - 1` lies in `[0, 62]` and the column index
`rExpFrac.m_i - 1` is at least `0`, neither index wrapping. -/
theorem powLastBaseTimes64_in_range (x : ScaledInt 1024 .int)
    (h1 : Int.tdiv 1024 64 ≤ x.m_i) (h2 : x.m_i ≤ Int.tdiv MAX_INT 1024)
    (rPowOfTwo : ScaledInt 256 .uint) (p : ScaledInt 1024 .uint)
    (fuel : Nat) (hfuel : 20 < fuel)
    (rExpFrac : ScaledInt 128 .uint) (hf : IntType.uint.InRange rExpFrac.m_i) :
    ∃ baseDiv rProduct iLastBaseTimes64,
      powDoublingLoop x rPowOfTwo fuel 1 p = some (baseDiv, rProduct) ∧
      powLastBaseTimes64 x baseDiv = some iLastBaseTimes64 ∧
      1 ≤ iLastBaseTimes64 ∧ iLastBaseTimes64 ≤ 64 ∧
      powLastBaseAssert iLastBaseTimes64 = true ∧
      (rExpFrac.m_i ≠ 0 ∧ iLastBaseTimes64 ≠ 64 →
        wrapInt (iLastBaseTimes64 - 1) = iLastBaseTimes64 - 1 ∧
        0 ≤ iLastBaseTimes64 - 1 ∧ iLastBaseTimes64 - 1 ≤ 62 ∧
        wrapUInt (rExpFrac.m_i - 1) = rExpFrac.m_i - 1 ∧ 0 ≤ rExpFrac.m_i - 1) := by
  have h1' : (16 : Int) ≤ x.m_i := by
    have : Int.tdiv 1024 64 = 16 := by decide
    omega
  have h2' : x.m_i ≤ 2097151 := by
    have : Int.tdiv MAX_INT 1024 = 2097151 := by decide
    omega
  obtain ⟨k, hk, hloop, hle, hprev⟩ :=
    powDoublingLoop_ends x rPowOfTwo (by omega) fuel hfuel p
  have hb := two_pow_bounds k hk
  obtain ⟨hi, hq0, hq1⟩ :=
    powLastBaseTimes64_eval x ((2 : Int) ^ k) (by omega) h2' hb.1 hb.2 hle
  have hq16 : 16 ≤ x.m_i / (2 : Int) ^ k := by
    rcases hprev with hk0 | hlt
    · subst hk0
      simp only [pow_zero, Int.ediv_one]
      exact h1'
    · have hk1 : k = (k - 1) + 1 := by
        rcases Nat.eq_zero_or_pos k with h0 | h0
        · subst h0
          simp at hlt
          omega
        · omega
      have hpow : (2 : Int) ^ k = (2 : Int) ^ (k - 1) * 2 := by
        conv_lhs => rw [hk1, pow_succ]
      have : 512 ≤ x.m_i / (2 : Int) ^ k :=
        Int.le_ediv_of_mul_le (by omega) (by rw [hpow]; omega)
      omega
  refine ⟨_, _, _, hloop, hi, by omega, by omega, ?_, ?_⟩
  · simp only [powLastBaseAssert, FAssertBounds, Bool.and_eq_true, decide_eq_true_eq]
    omega
  · intro ⟨hf0, _⟩
    simp only [IntType.InRange, IntType.MIN, IntType.MAX] at hf
    refine ⟨wrapInt_of_range (by omega) (by omega), by omega, by omega,
      wrapUInt_of_range (by omega) (by omega), by omega⟩

theorem powLastBaseTimes64_in_range_witness :
    Int.tdiv 1024 64 ≤ (5325 : Int) ∧ (5325 : Int) ≤ Int.tdiv MAX_INT 1024 ∧
    20 < 21 ∧ IntType.uint.InRange 13 ∧
    ∃ baseDiv rProduct iLastBaseTimes64,
      powDoublingLoop (⟨5325⟩ : ScaledInt 1024 .int) ⟨275⟩ 21 1 (ctorInt 1024 .uint 1) =
        some (baseDiv, rProduct) ∧
      powLastBaseTimes64 (⟨5325⟩ : ScaledInt 1024 .int) baseDiv = some iLastBaseTimes64 ∧
      1 ≤ iLastBaseTimes64 ∧ iLastBaseTimes64 ≤ 64 ∧
      powLastBaseAssert iLastBaseTimes64 = true ∧
      ((13 : Int) ≠ 0 ∧ iLastBaseTimes64 ≠ 64 →
        wrapInt (iLastBaseTimes64 - 1) = iLastBaseTimes64 - 1 ∧
        0 ≤ iLastBaseTimes64 - 1 ∧ iLastBaseTimes64 - 1 ≤ 62 ∧
        wrapUInt ((13 : Int) - 1) = 13 - 1 ∧ (0 : Int) ≤ 13 - 1) :=
  ⟨by decide, by decide, by decide, by decide,
    powLastBaseTimes64_in_range ⟨5325⟩ (by decide) (by decide) ⟨275⟩ (ctorInt 1024 .uint 1)
      21 (by decide) ⟨13⟩ (by decide)⟩

/-! ## The three factors of the fractional power -/

/-- The member `powNonNegative(ScaledInt rExp)` in terms of its locals: when
the base passes the guard, the loop ends with `baseDiv` and
`rProductOfPowersOfTwo`, the residual base is `iLastBaseTimes64` and the
integer power is `rPow`, the result is the product of the three factors,
multiplied from left to right in `ScaledInt<SCALE,uint>`. -/
theorem powNonNegativeScaled_of_locals (tables : FixedPointPowTables) (fuel : Nat)
    (x rExp : ScaledInt SCALE .int) (baseDiv : Int) (rProduct : ScaledInt SCALE .uint)
    (iLastBaseTimes64 : Int) (rPow : ScaledInt SCALE .int)
    (hg : ¬ x.m_i < Int.tdiv SCALE 64)
    (hloop : powDoublingLoop x (powPowOfTwo tables (powExpFrac rExp)) fuel 1
      (ctorInt SCALE .uint 1) = some (baseDiv, rProduct))
    (hi : powLastBaseTimes64 x baseDiv = some iLastBaseTimes64)
    (hp : pow x (IntType.int.div rExp.m_i SCALE) = some rPow) :
    powNonNegativeScaled tables fuel x rExp =
      some (ctorScaledInt SCALE .int
        (mul (mul (ctorScaledInt SCALE .uint rPow) rProduct)
          (ctorScaledInt SCALE .uint
            (powLastFactor tables (powExpFrac rExp) iLastBaseTimes64)))) := by
  unfold powPowOfTwo at hloop
  unfold powLastBaseTimes64 at hi
  unfold powNonNegativeScaled
  simp only [hg, if_false, hloop]
  cases hd : divInt x baseDiv with
  | none => rw [hd] at hi; cases hi
  | some q =>
    rw [hd] at hi
    simp only [Option.map_some', Option.some.injEq] at hi
    simp only [hi, hp, powLastFactor]

/-- The three factors for a base of at most `2^30 / 1024` and a non-negative
exponent: the function returns, `k ≤ 20` doublings having been counted, the
product of `P = x.pow(e)`, of `A`, which is `ScaledInt(1)` multiplied `k` times
by the first table's factor, and of `L`, the second table's factor. -/
theorem powNonNegativeScaled_three_factors (tables : FixedPointPowTables) (fuel : Nat)
    (hfuel : 20 < fuel) (x rExp : ScaledInt 1024 .int)
    (hx1 : 16 ≤ x.m_i) (hx2 : x.m_i ≤ 2097151) (he : 0 ≤ rExp.m_i)
    (he2 : rExp.m_i ≤ 2147483647) :
    ∃ k i, k ≤ 20 ∧ powLastBaseTimes64 x ((2 : Int) ^ k) = some i ∧
      x.m_i ≤ (2 : Int) ^ k * 1024 ∧ (k = 0 ∨ (2 : Int) ^ (k - 1) * 1024 < x.m_i) ∧
      powNonNegativeScaled tables fuel x rExp =
        some (ctorScaledInt 1024 .int
          (mul (mul (ctorScaledInt 1024 .uint (powNonNegative x (rExp.m_i / 1024)))
              ((fun q => mulAssign q
                (ctorScaledInt 1024 .uint (powPowOfTwo tables (powExpFrac rExp))))^[k]
                  (ctorInt 1024 .uint 1)))
            (ctorScaledInt 1024 .uint (powLastFactor tables (powExpFrac rExp) i)))) := by
  obtain ⟨k, hk, hloop, hle, hprev⟩ :=
    powDoublingLoop_ends x (powPowOfTwo tables (powExpFrac rExp)) (by omega) fuel hfuel
      (ctorInt 1024 .uint 1)
  have hb := two_pow_bounds k hk
  obtain ⟨hi, _, _⟩ :=
    powLastBaseTimes64_eval x ((2 : Int) ^ k) (by omega) hx2 hb.1 hb.2 hle
  have hq := ediv_nonneg_le he (show (0 : Int) < 1024 by norm_num)
  have hexp : IntType.int.div rExp.m_i 1024 = rExp.m_i / 1024 := by
    simp only [IntType.div, IntType.wrap]
    rw [tdiv_of_nonneg he (by norm_num), wrapInt_of_range (by omega) (by omega)]
  have hp : pow x (IntType.int.div rExp.m_i 1024) = some (powNonNegative x (rExp.m_i / 1024)) := by
    rw [hexp]
    unfold pow
    rw [if_neg (by omega)]
  refine ⟨k, _, hk, hi, hle, hprev, ?_⟩
  exact powNonNegativeScaled_of_locals tables fuel x rExp _ _ _ _
    (by have : Int.tdiv 1024 64 = 16 := by decide
        omega) hloop hi hp

/-- Claim C35 (the three factors of the fractional power): for `scaled_int`
and the sample tables with `powersOfTwoNormalized_256[13] = 19` and
`powersUnitInterval_256[41][12] = 244`, base `m_i = 5325` and exponent
`m_i = 2150` give the factors `27691`, `1270` and `980` and the result
`m_i = 32867`; for the base `m_i = 1073741825`, which is at least `Scale/64`,
the function does not return, whatever the tables, the exponent and the number
of tests granted to the doubling loop are. -/
theorem powNonNegativeScaled_example_and_no_return :
    (powNonNegative (⟨5325⟩ : ScaledInt 1024 .int) 2).m_i = 27691 ∧
    powDoublingLoop (⟨5325⟩ : ScaledInt 1024 .int)
      (powPowOfTwo sampleTables (powExpFrac (⟨2150⟩ : ScaledInt 1024 .int))) 21 1
        (ctorInt 1024 .uint 1) = some (8, ⟨1270⟩) ∧
    powLastBaseTimes64 (⟨5325⟩ : ScaledInt 1024 .int) 8 = some 42 ∧
    (ctorScaledInt 1024 .uint
      (powLastFactor sampleTables (powExpFrac (⟨2150⟩ : ScaledInt 1024 .int)) 42) :
        ScaledInt 1024 .uint).m_i = 980 ∧
    (mul (mul (⟨27691⟩ : ScaledInt 1024 .uint) ⟨1270⟩) ⟨980⟩).m_i = 32867 ∧
    powNonNegativeScaled sampleTables 21 (⟨5325⟩ : ScaledInt 1024 .int) ⟨2150⟩ =
      some ⟨32867⟩ ∧
    Int.tdiv 1024 64 ≤ (1073741825 : Int) ∧ (1073741825 : Int) ≤ MAX_INT ∧
    ∀ (tables : FixedPointPowTables) (fuel : Nat) (rExp : ScaledInt 1024 .int),
      powNonNegativeScaled tables fuel (⟨1073741825⟩ : ScaledInt 1024 .int) rExp = none := by
  refine ⟨by decide, by decide, by decide, by decide, by decide, by decide, by decide,
    by decide, ?_⟩
  intro tables fuel rExp
  have hloop := powDoublingLoop_none_of_large (⟨1073741825⟩ : ScaledInt 1024 .int)
    (by decide) (addAssignInt ⟨wrapUInt (tables.powersOfTwoNormalized_256 (powExpFrac rExp).m_i)⟩ 1)
    fuel 1 (ctorInt 1024 .uint 1) (Or.inl rfl)
  unfold powNonNegativeScaled
  rw [if_neg (by decide)]
  simp only [hloop]

/-! ## Fractional powers with a negative exponent -/

theorem powNonNegativeLoop_add (x : ScaledInt SCALE T) :
    ∀ (a b : Nat) (r : ScaledInt SCALE T),
      powNonNegativeLoop x (a + b) r = powNonNegativeLoop x b (powNonNegativeLoop x a r) := by
  intro a
  induction a with
  | zero => intro b r; simp [powNonNegativeLoop]
  | succ a ih =>
    intro b r
    rw [show a + 1 + b = (a + b) + 1 by omega]
    simp only [powNonNegativeLoop]
    exact ih b _

theorem powNonNegativeLoop_zero_int (x : ScaledInt 1024 .int) :
    ∀ n : Nat, powNonNegativeLoop x n (⟨0⟩ : ScaledInt 1024 .int) = ⟨0⟩ := by
  intro n
  induction n with
  | zero => rfl
  | succ n ih =>
    have h0 : mulAssign (⟨0⟩ : ScaledInt 1024 .int) x = ⟨0⟩ := by
      simp only [mulAssign, zero_mul]
      decide
    simp only [powNonNegativeLoop, h0, ih]

theorem mul_zero_uint (p : ScaledInt 1024 .uint) : mul (⟨0⟩ : ScaledInt 1024 .uint) p = ⟨0⟩ := by
  simp only [mul, mulAssign, zero_mul]
  decide

/-- Claim C36 (fractional power with a negative exponent): for `scaled_int`
and the exponent `e` with `m_i = -512`, `-e` as `operator-()` computes it has
`m_i = 524288` instead of `512`, so `x.pow(e)` is `1 / powNonNegative` with the
exponent `512` instead of `1/2`; for the base `ScaledInt(2)` that power is `0`
and `x.pow(e)` is a division by zero, whatever the tables are, whereas
`ScaledInt(1) / x.pow(e')` for `e'` with `m_i = 512` has `m_i = 724` with the
sample tables. -/
theorem powScaled_negative_exponent :
    (operatorNeg (⟨-512⟩ : ScaledInt 1024 .int)).m_i = 524288 ∧
    (∀ (tables : FixedPointPowTables) (fuel : Nat) (x : ScaledInt 1024 .int),
      powScaled tables fuel x ⟨-512⟩ =
        (powNonNegativeScaled tables fuel x ⟨524288⟩).bind fun r => intDiv 1 r) ∧
    (∀ (tables : FixedPointPowTables) (fuel : Nat),
      powScaled tables fuel (ctorInt 1024 .int 2) ⟨-512⟩ = none) ∧
    (powScaled sampleTables 21 (ctorInt 1024 .int 2) ⟨512⟩).bind (fun r => intDiv 1 r) =
      some ⟨724⟩ := by
  have hneg : operatorNeg (⟨-512⟩ : ScaledInt 1024 .int) = ⟨524288⟩ := by decide
  have hgen : ∀ (tables : FixedPointPowTables) (fuel : Nat) (x : ScaledInt 1024 .int),
      powScaled tables fuel x ⟨-512⟩ =
        (powNonNegativeScaled tables fuel x ⟨524288⟩).bind fun r => intDiv 1 r := by
    intro tables fuel x
    have hn : (IntType.int.bSIGNED && isNegative (⟨-512⟩ : ScaledInt 1024 .int)) = true := by
      decide
    unfold powScaled
    rw [if_pos hn, hneg]
  refine ⟨by decide, hgen, ?_, by decide⟩
  intro tables fuel
  rw [hgen]
  have hx : ctorInt 1024 .int 2 = (⟨2048⟩ : ScaledInt 1024 .int) := by decide
  rw [hx]
  have hfrac : powExpFrac (⟨524288⟩ : ScaledInt 1024 .int) = ⟨0⟩ := by decide
  rcases fuel with _ | _ | fuel
  · have hg : ¬ ((2048 : Int) < Int.tdiv 1024 64) := by decide
    simp [powNonNegativeScaled, powDoublingLoop, hg]
  · have hgt : gtInt (⟨2048⟩ : ScaledInt 1024 .int) 1 = true := by decide
    have hg : ¬ ((2048 : Int) < Int.tdiv 1024 64) := by decide
    simp [powNonNegativeScaled, powDoublingLoop, hgt, hg]
  · have hgt : gtInt (⟨2048⟩ : ScaledInt 1024 .int) 1 = true := by decide
    have hw : wrapInt (1 * 2) = 2 := by decide
    have hgt2 : gtInt (⟨2048⟩ : ScaledInt 1024 .int) 2 = false := by decide
    have hi : powLastBaseTimes64 (⟨2048⟩ : ScaledInt 1024 .int) 2 = some 64 := by decide
    have hp : pow (⟨2048⟩ : ScaledInt 1024 .int) (IntType.int.div 524288 1024) = some ⟨0⟩ := by
      have he : IntType.int.div 524288 1024 = ((4 + (4 + (4 + 500)) : Nat) : Int) := by decide
      have h4 : powNonNegativeLoop (⟨2048⟩ : ScaledInt 1024 .int) 4 (ctorInt 1024 .int 1) =
          ⟨16384⟩ := by decide
      have h8 : powNonNegativeLoop (⟨2048⟩ : ScaledInt 1024 .int) 4 ⟨16384⟩ = ⟨262144⟩ := by
        decide
      have h12 : powNonNegativeLoop (⟨2048⟩ : ScaledInt 1024 .int) 4 ⟨262144⟩ = ⟨0⟩ := by
        decide
      rw [he, pow, if_neg (by omega), powNonNegative, Int.toNat_ofNat,
        powNonNegativeLoop_add, h4, powNonNegativeLoop_add, h8, powNonNegativeLoop_add, h12,
        powNonNegativeLoop_zero_int]
    have hz : ctorScaledInt 1024 .uint (⟨0⟩ : ScaledInt 1024 .int) =
        (⟨0⟩ : ScaledInt 1024 .uint) := by decide
    rw [powNonNegativeScaled_of_locals tables (fuel + 1 + 1) ⟨2048⟩ ⟨524288⟩ 2 _ 64 ⟨0⟩
      (by decide) (by simp only [powDoublingLoop, hgt, if_true, hw, hgt2]; rfl) hi hp]
    rw [hz, mul_zero_uint, mul_zero_uint]
    decide

end ScaledInt

namespace CLinkList

variable {tVARTYPE : Type}

/-! ## LinkedList.h: chains of nodes -/

theorem headPtr_append (xs ys : List (Nat × tVARTYPE)) (d : Option Nat) :
    headPtr (xs ++ ys) d = headPtr xs (headPtr ys d) := by
  cases xs <;> rfl

theorem lastPtr_append (xs ys : List (Nat × tVARTYPE)) (d : Option Nat) :
    lastPtr (xs ++ ys) d = lastPtr ys (lastPtr xs d) := by
  induction xs generalizing d with
  | nil => rfl
  | cons x xs ih => exact ih _

theorem lastPtr_ne_none_of_some (xs : List (Nat × tVARTYPE)) (a : Nat) :
    lastPtr xs (some a) ≠ none := by
  induction xs generalizing a with
  | nil => simp [lastPtr]
  | cons x xs ih => exact ih _

theorem lastPtr_eq_none (xs : List (Nat × tVARTYPE)) : lastPtr xs none = none ↔ xs = [] := by
  cases xs with
  | nil => simp [lastPtr]
  | cons x xs => simp [lastPtr, lastPtr_ne_none_of_some]

theorem headPtr_eq_none (xs : List (Nat × tVARTYPE)) : headPtr xs none = none ↔ xs = [] := by
  cases xs <;> simp [headPtr]

theorem lastPtr_eq_some (xs : List (Nat × tVARTYPE)) (t : Nat) (h : lastPtr xs none = some t) :
    ∃ init v, xs = init ++ [(t, v)] := by
  rcases List.eq_nil_or_concat xs with rfl | ⟨init, ⟨a, v⟩, hx⟩
  · simp [lastPtr] at h
  · rw [List.concat_eq_append] at hx
    subst hx
    rw [lastPtr_append] at h
    simp only [lastPtr, Option.some.injEq] at h
    subst h
    exact ⟨init, v, rfl⟩

theorem headPtr_eq_some (xs : List (Nat × tVARTYPE)) (t : Nat) (h : headPtr xs none = some t) :
    ∃ v rest, xs = (t, v) :: rest := by
  cases xs with
  | nil => simp [headPtr] at h
  | cons x xs =>
    simp only [headPtr, Option.some.injEq] at h
    subst h
    exact ⟨x.2, xs, rfl⟩

theorem headPtr_cons (x : Nat × tVARTYPE) (xs : List (Nat × tVARTYPE)) (d : Option Nat) :
    headPtr (x :: xs) d = some x.1 := rfl

theorem headPtr_nil (d : Option Nat) : headPtr ([] : List (Nat × tVARTYPE)) d = d := rfl

theorem lastPtr_cons (x : Nat × tVARTYPE) (xs : List (Nat × tVARTYPE)) (d : Option Nat) :
    lastPtr (x :: xs) d = lastPtr xs (some x.1) := rfl

theorem lastPtr_nil (d : Option Nat) : lastPtr ([] : List (Nat × tVARTYPE)) d = d := rfl

theorem Links_nil (s : Store tVARTYPE) (p n : Option Nat) : Links s p [] n ↔ True := Iff.rfl

theorem Links_cons (s : Store tVARTYPE) (x : Nat × tVARTYPE) (xs : List (Nat × tVARTYPE))
    (p n : Option Nat) :
    Links s p (x :: xs) n ↔
      s x.1 = some ⟨x.2, headPtr xs n, p⟩ ∧ Links s (some x.1) xs n := Iff.rfl

theorem Links_append (s : Store tVARTYPE) (xs ys : List (Nat × tVARTYPE))
    (p n : Option Nat) :
    Links s p (xs ++ ys) n ↔ Links s p xs (headPtr ys n) ∧ Links s (lastPtr xs p) ys n := by
  induction xs generalizing p with
  | nil => simp [Links_nil, lastPtr_nil]
  | cons x xs ih =>
    rw [List.cons_append, Links_cons, Links_cons, headPtr_append, ih, lastPtr_cons, and_assoc]

theorem Links_congr {s s1 : Store tVARTYPE} (xs : List (Nat × tVARTYPE)) (p n : Option Nat)
    (h : ∀ a ∈ xs.map Prod.fst, s1 a = s a) : Links s1 p xs n ↔ Links s p xs n := by
  induction xs generalizing p with
  | nil => simp [Links]
  | cons x xs ih =>
    have h1 : s1 x.1 = s x.1 := h x.1 (by simp)
    have h2 : ∀ a ∈ xs.map Prod.fst, s1 a = s a := fun a ha => h a (by simp at ha ⊢; right; exact ha)
    rw [Links_cons, Links_cons, h1, ih _ h2]

theorem Links_isSome {s : Store tVARTYPE} {xs : List (Nat × tVARTYPE)} {p n : Option Nat}
    (h : Links s p xs n) : ∀ a ∈ xs.map Prod.fst, s a ≠ none := by
  induction xs generalizing p with
  | nil => simp
  | cons x xs ih =>
    intro a ha
    simp only [List.map_cons, List.mem_cons] at ha
    rcases ha with rfl | ha
    · rw [h.1]; simp
    · exact ih h.2 a ha

theorem walkNext_none (s : Store tVARTYPE) (k : Nat) : walkNext s k none = [] := by
  cases k <;> rfl

theorem walkPrev_none (s : Store tVARTYPE) (k : Nat) : walkPrev s k none = [] := by
  cases k <;> rfl

/-- The walk along `m_pNext` over a chain that ends in `NULL` visits exactly
the nodes of the chain, whatever number of further steps it is granted. -/
theorem walkNext_of_links {s : Store tVARTYPE} {xs : List (Nat × tVARTYPE)} {p : Option Nat}
    (h : Links s p xs none) (k : Nat) :
    walkNext s (xs.length + k) (headPtr xs none) = xs := by
  induction xs generalizing p with
  | nil => exact walkNext_none s _
  | cons x xs ih =>
    have e : (x :: xs).length + k = (xs.length + k) + 1 := by simp; omega
    rw [e, headPtr_cons]
    simp only [walkNext, h.1, ih h.2, Prod.mk.eta]

/-- The walk along `m_pPrev` from the last node of a chain visits the nodes of
the chain in reverse and goes on from the predecessor of the first. -/
theorem walkPrev_of_links {s : Store tVARTYPE} {xs : List (Nat × tVARTYPE)}
    {p n : Option Nat} (h : Links s p xs n) (k : Nat) :
    walkPrev s (xs.length + k) (lastPtr xs p) = xs.reverse ++ walkPrev s k p := by
  induction xs generalizing p k with
  | nil => simp [lastPtr_nil]
  | cons x xs ih =>
    have e : (x :: xs).length + k = xs.length + (k + 1) := by simp; omega
    rw [e, lastPtr_cons, ih h.2 (k + 1)]
    simp only [walkPrev, h.1, List.reverse_cons, List.append_assoc, List.singleton_append,
      Prod.mk.eta]

theorem length_le_of_nodup_of_lt (ns : List Nat) (N : Nat) (hnd : ns.Nodup)
    (hb : ∀ a ∈ ns, a < N) : ns.length ≤ N := by
  have h1 : ns.toFinset ⊆ Finset.range N := by
    intro a ha
    simp only [List.mem_toFinset] at ha
    simp only [Finset.mem_range]
    exact hb a ha
  have h2 := Finset.card_le_card h1
  rw [List.toFinset_card_of_nodup hnd, Finset.card_range] at h2
  exact h2

/-! ## LinkedList.h: single assignments on a chain -/

theorem Links_frame {s s1 : Store tVARTYPE} {xs : List (Nat × tVARTYPE)} {p n : Option Nat}
    (h : Links s p xs n) (x : Nat) (hx : x ∉ xs.map Prod.fst)
    (hfr : ∀ a, a ≠ x → s1 a = s a) : Links s1 p xs n :=
  (Links_congr xs p n fun a ha => hfr a fun e => hx (e ▸ ha)).mpr h

theorem Links_single (s : Store tVARTYPE) (q : Nat) (v : tVARTYPE) (p n : Option Nat) :
    Links s p [(q, v)] n ↔ s q = some ⟨v, n, p⟩ := by
  simp [Links_cons, Links_nil, headPtr_nil]

/-- The assignment `tl->m_pNext = n1` to the last node `tl` of a chain. -/
theorem setNext_last {s : Store tVARTYPE} {xs : List (Nat × tVARTYPE)} {p n : Option Nat}
    (h : Links s p xs n) (hnd : (xs.map Prod.fst).Nodup) {tl : Nat}
    (htl : lastPtr xs none = some tl) (n1 : Option Nat) :
    ∃ s1, s.setNext tl n1 = some s1 ∧ Links s1 p xs n1 ∧ ∀ a, a ≠ tl → s1 a = s a := by
  obtain ⟨init, w, rfl⟩ := lastPtr_eq_some xs tl htl
  rw [Links_append, Links_cons] at h
  obtain ⟨h1, hcell, -⟩ := h
  simp only [headPtr_nil, headPtr_cons] at h1 hcell
  have htinit : tl ∉ init.map Prod.fst := by
    simp only [List.map_append, List.map_cons, List.map_nil] at hnd
    intro hmem
    exact (List.nodup_append.mp hnd).2.2 hmem (List.mem_singleton_self tl)
  refine ⟨Function.update s tl (some ⟨w, n1, lastPtr init p⟩), ?_, ?_, ?_⟩
  · simp [Store.setNext, hcell]
  · rw [Links_append, Links_cons]
    refine ⟨?_, ?_, trivial⟩
    · simp only [headPtr_cons]
      exact Links_frame h1 tl htinit fun a ha => by simp [Function.update_apply, ha]
    · simp [Function.update_apply, headPtr_nil]
  · intro a ha
    simp [Function.update_apply, ha]

/-- The assignment `b->m_pPrev = p1` to the first node `b` of a chain. -/
theorem setPrev_head {s : Store tVARTYPE} {xs : List (Nat × tVARTYPE)} {p n : Option Nat}
    (h : Links s p xs n) (hnd : (xs.map Prod.fst).Nodup) {b : Nat}
    (hb : headPtr xs none = some b) (p1 : Option Nat) :
    ∃ s1, s.setPrev b p1 = some s1 ∧ Links s1 p1 xs n ∧ ∀ a, a ≠ b → s1 a = s a := by
  obtain ⟨w, rest, rfl⟩ := headPtr_eq_some xs b hb
  rw [Links_cons] at h
  obtain ⟨hcell, h1⟩ := h
  have hbrest : b ∉ rest.map Prod.fst := by
    simp only [List.map_cons, List.nodup_cons] at hnd
    exact hnd.1
  refine ⟨Function.update s b (some ⟨w, headPtr rest n, p1⟩), ?_, ?_, ?_⟩
  · simp [Store.setPrev, hcell]
  · rw [Links_cons]
    refine ⟨?_, ?_⟩
    · simp [Function.update_apply]
    · exact Links_frame h1 b hbrest fun a ha => by simp [Function.update_apply, ha]
  · intro a ha
    simp [Function.update_apply, ha]

theorem alloc_spec {s : Store tVARTYPE} {p : Nat} (val : tVARTYPE) (hfree : s p = none)
    (hp : p < storeLimit) :
    ∃ s1, s.alloc val p = some s1 ∧ Links s1 none [(p, val)] none ∧
      ∀ a, a ≠ p → s1 a = s a := by
  refine ⟨Function.update s p (some ⟨val, none, none⟩), ?_, ?_, ?_⟩
  · simp [Store.alloc, hfree, hp]
  · simp [Links_single, Function.update_apply]
  · intro a ha
    simp [Function.update_apply, ha]

theorem alloc_some {s s1 : Store tVARTYPE} {val : tVARTYPE} {p : Nat}
    (h : s.alloc val p = some s1) : s p = none ∧ p < storeLimit := by
  unfold Store.alloc at h
  split_ifs at h with hc
  exact ⟨Option.isNone_iff_eq_none.mp hc.1, hc.2⟩

theorem free_spec {s : Store tVARTYPE} {q : Nat} (hq : s q ≠ none) :
    ∃ s1, s.free q = some s1 ∧ s1 q = none ∧ ∀ a, a ≠ q → s1 a = s a := by
  obtain ⟨n, hn⟩ := Option.ne_none_iff_exists'.mp hq
  refine ⟨Function.update s q none, ?_, ?_, ?_⟩
  · simp [Store.free, hn]
  · simp [Function.update_apply]
  · intro a ha
    simp [Function.update_apply, ha]

theorem getPrev_of_links {s : Store tVARTYPE} {q : Nat} {v : tVARTYPE} {p n : Option Nat}
    (h : Links s p [(q, v)] n) : s.getPrev q = some p := by
  rw [Links_single] at h
  simp [Store.getPrev, h]

theorem getNext_of_links {s : Store tVARTYPE} {q : Nat} {v : tVARTYPE} {p n : Option Nat}
    (h : Links s p [(q, v)] n) : s.getNext q = some n := by
  rw [Links_single] at h
  simp [Store.getNext, h]

/-- The three parts of a chain around one of its nodes. -/
theorem Links_split (s : Store tVARTYPE) (pre post : List (Nat × tVARTYPE)) (q : Nat)
    (v : tVARTYPE) (p n : Option Nat) :
    Links s p (pre ++ (q, v) :: post) n ↔
      Links s p pre (some q) ∧ Links s (lastPtr pre p) [(q, v)] (headPtr post n) ∧
        Links s (some q) post n := by
  rw [Links_append, Links_cons, Links_single, headPtr_cons]

theorem nodup_split {pre post : List (Nat × tVARTYPE)} {q : Nat} {v : tVARTYPE}
    (h : ((pre ++ (q, v) :: post).map Prod.fst).Nodup) :
    (pre.map Prod.fst).Nodup ∧ (post.map Prod.fst).Nodup ∧ q ∉ pre.map Prod.fst ∧
      q ∉ post.map Prod.fst ∧ (∀ a ∈ pre.map Prod.fst, a ∉ post.map Prod.fst) ∧
      ((pre ++ post).map Prod.fst).Nodup := by
  simp only [List.map_append, List.map_cons] at h ⊢
  rw [List.nodup_append] at h
  obtain ⟨h1, h2, h3⟩ := h
  rw [List.nodup_cons] at h2
  refine ⟨h1, h2.2, fun hm => h3 hm (List.mem_cons_self _ _), h2.1,
    fun a ha hb => h3 ha (List.mem_cons_of_mem _ hb), ?_⟩
  rw [List.nodup_append]
  exact ⟨h1, h2.2, fun a ha hb => h3 ha (List.mem_cons_of_mem _ hb)⟩

/-! ## LinkedList.h: the inserting functions -/

theorem length_bound (xs : List (Nat × tVARTYPE)) (hnd : (xs.map Prod.fst).Nodup)
    (hb : ∀ a ∈ xs.map Prod.fst, a < storeLimit) : (xs.length : Int) ≤ 268435456 := by
  have := length_le_of_nodup_of_lt _ _ hnd hb
  simp only [List.length_map, storeLimit] at this
  omega

theorem alloc_eq {s : Store tVARTYPE} {p : Nat} (val : tVARTYPE) (hfree : s p = none)
    (hp : p < storeLimit) :
    s.alloc val p = some (Function.update s p (some ⟨val, none, none⟩)) := by
  simp [Store.alloc, hfree, hp]

/-- The function `insertAtEnd` on a well-formed list: it returns, the list
holds the former nodes followed by the new node, and no other slot of the
store changes. -/
theorem insertAtEnd_spec (s : Store tVARTYPE) (l : CLinkList) (xs : List (Nat × tVARTYPE))
    (val : tVARTYPE) (p : Nat) (h : IsList s l xs) (hfree : s p = none)
    (hp : p < storeLimit) :
    ∃ s1 l1, insertAtEnd s l val p = some (s1, l1) ∧ IsList s1 l1 (xs ++ [(p, val)]) ∧
      ∀ a, a ∉ xs.map Prod.fst → a ≠ p → s1 a = s a := by
  obtain ⟨hnd, hb, hlen, hhead, htail, hlinks⟩ := h
  have hpx : p ∉ xs.map Prod.fst := fun hmem => Links_isSome hlinks p hmem hfree
  have hnd1 : ((xs ++ [(p, val)]).map Prod.fst).Nodup := by
    simp only [List.map_append, List.map_cons, List.map_nil]
    exact List.Nodup.append hnd (List.nodup_singleton p) (by simpa using hpx)
  have hb1 : ∀ a ∈ (xs ++ [(p, val)]).map Prod.fst, a < storeLimit := by
    intro a ha
    simp only [List.map_append, List.map_cons, List.map_nil, List.mem_append,
      List.mem_singleton] at ha
    rcases ha with ha | rfl
    · exact hb a ha
    · exact hp
  have hlen1 : wrapInt (l.m_iLength + 1) = ((xs ++ [(p, val)]).length : Int) := by
    have := length_bound _ hnd1 hb1
    simp only [List.length_append, List.length_singleton, Nat.cast_add, Nat.cast_one] at this ⊢
    rw [hlen, wrapInt_of_range (by omega) (by omega)]
  have hs1 := alloc_eq val hfree hp
  rcases List.eq_nil_or_concat xs with rfl | ⟨init, ⟨t, v⟩, hx⟩
  · simp only [lastPtr_nil] at htail
    refine ⟨Function.update s p (some ⟨val, none, none⟩),
      ⟨wrapInt (l.m_iLength + 1), some p, some p⟩, ?_, ?_, ?_⟩
    · simp [insertAtEnd, hs1, htail]
    · refine ⟨hnd1, hb1, hlen1, rfl, rfl, ?_⟩
      simp [Links_cons, Links_nil, headPtr_nil]
    · intro a _ hap
      simp [Function.update_apply, hap]
  · rw [List.concat_eq_append] at hx
    subst hx
    rw [lastPtr_append, lastPtr_cons, lastPtr_nil] at htail
    rw [Links_append, Links_cons] at hlinks
    obtain ⟨hl1, hcell, -⟩ := hlinks
    simp only [headPtr_nil] at hcell
    have hne : t ≠ p := fun e => by rw [e, hfree] at hcell; cases hcell
    have htinit : t ∉ init.map Prod.fst := by
      simp only [List.map_append, List.map_cons, List.map_nil] at hnd
      have := (List.nodup_append.mp hnd).2.2
      intro hmem
      exact this hmem (List.mem_singleton_self t)
    have hpinit : p ∉ init.map Prod.fst := fun hmem => hpx (by simp at hmem ⊢; left; exact hmem)
    refine ⟨Function.update (Function.update (Function.update s p (some ⟨val, none, none⟩)) t
        (some ⟨v, some p, lastPtr init none⟩)) p (some ⟨val, none, some t⟩),
      ⟨wrapInt (l.m_iLength + 1), l.m_pHead, some p⟩, ?_, ?_, ?_⟩
    · simp [insertAtEnd, hs1, htail, Store.setNext, Store.setPrev, Function.update_apply, hne,
        hne.symm, hcell]
    · refine ⟨hnd1, hb1, hlen1, ?_, ?_, ?_⟩
      · simp only [hhead, headPtr_append, headPtr_cons]
      · simp only [lastPtr_append, lastPtr_cons, lastPtr_nil]
      · rw [List.append_assoc, List.singleton_append, Links_append, Links_cons, Links_cons]
        refine ⟨?_, ?_, ?_, trivial⟩
        · rw [Links_congr init _ _ (s := s)]
          · exact hl1
          · intro a ha
            have h1 : a ≠ p := fun e => hpinit (e ▸ ha)
            have h2 : a ≠ t := fun e => htinit (e ▸ ha)
            simp [Function.update_apply, h1, h2]
        · simp [Function.update_apply, hne, headPtr_cons]
        · simp [Function.update_apply, headPtr_nil, lastPtr_cons, lastPtr_nil]
    · intro a ha hap
      have h2 : a ≠ t := fun e => ha (by simp [e])
      simp [Function.update_apply, hap, h2]

/-! ## LinkedList.h: taking a node out of the chain -/

theorem headPtr_of_ne_nil {xs : List (Nat × tVARTYPE)} (h : xs ≠ []) (d d1 : Option Nat) :
    headPtr xs d = headPtr xs d1 := by
  cases xs with
  | nil => exact absurd rfl h
  | cons x xs => rfl

theorem lastPtr_of_ne_nil {xs : List (Nat × tVARTYPE)} (h : xs ≠ []) (d d1 : Option Nat) :
    lastPtr xs d = lastPtr xs d1 := by
  cases xs with
  | nil => exact absurd rfl h
  | cons x xs => rfl

theorem lastPtr_concat (xs : List (Nat × tVARTYPE)) (x : Nat × tVARTYPE) (d : Option Nat) :
    lastPtr (xs ++ [x]) d = some x.1 := by
  rw [lastPtr_append, lastPtr_cons, lastPtr_nil]

/-- The four cases shared by `deleteNode` and `moveToEnd`, applied to a node
of a well-formed list with its two neighbours: the other nodes are chained
from `NULL` to `NULL`, `m_pHead` and `m_pTail` are the first and the last of
them, and the node itself and all slots outside the list are unchanged. -/
theorem unlink_spec (s : Store tVARTYPE) (l : CLinkList) (pre post : List (Nat × tVARTYPE))
    (q : Nat) (v : tVARTYPE) (h : IsList s l (pre ++ (q, v) :: post)) :
    ∃ s1 l1, unlink s l (lastPtr pre none) (headPtr post none) = some (s1, l1) ∧
      Links s1 none (pre ++ post) none ∧ s1 q = s q ∧
      l1.m_pHead = headPtr (pre ++ post) none ∧ l1.m_pTail = lastPtr (pre ++ post) none ∧
      l1.m_iLength = l.m_iLength ∧
      ∀ a, a ∉ pre.map Prod.fst → a ∉ post.map Prod.fst → s1 a = s a := by
  obtain ⟨hnd, -, -, hhead, htail, hlinks⟩ := h
  obtain ⟨hndpre, hndpost, hqpre, hqpost, hdisj, -⟩ := nodup_split hnd
  rw [Links_split] at hlinks
  obtain ⟨hpre, hq, hpost⟩ := hlinks
  rw [headPtr_append, headPtr_cons] at hhead
  rw [lastPtr_append, lastPtr_cons] at htail
  rcases List.eq_nil_or_concat pre with rfl | ⟨pre1, ⟨a, d⟩, hx⟩
  · cases post with
    | nil =>
      refine ⟨s, { l with m_pHead := none, m_pTail := none }, rfl, trivial, rfl, rfl, rfl, rfl,
        fun _ _ _ => rfl⟩
    | cons x post1 =>
      obtain ⟨b, e⟩ := x
      obtain ⟨s1, hs1, hl1, hfr1⟩ := setPrev_head hpost hndpost (headPtr_cons _ _ _) none
      have hqb : q ≠ b := fun e1 => hqpost (by simp [e1])
      refine ⟨s1, { l with m_pHead := some b }, ?_, ?_, hfr1 q hqb, rfl, ?_, rfl, ?_⟩
      · simp only [lastPtr_nil, headPtr_cons, unlink, hs1, Option.some_bind]
      · simpa using hl1
      · simp only [htail, List.nil_append]
        exact lastPtr_of_ne_nil (List.cons_ne_nil _ _) _ _
      · intro x _ hx
        exact hfr1 x fun e1 => hx (by simp [e1])
  · rw [List.concat_eq_append] at hx
    subst hx
    have hlast : lastPtr (pre1 ++ [(a, d)]) none = some a := lastPtr_concat _ _ _
    have hprene : pre1 ++ [(a, d)] ≠ [] := by simp
    have hamem : a ∈ (pre1 ++ [(a, d)]).map Prod.fst := by simp
    cases post with
    | nil =>
      obtain ⟨s1, hs1, hl1, hfr1⟩ := setNext_last hpre hndpre hlast none
      have hqa : q ≠ a := fun e1 => hqpre (e1 ▸ hamem)
      refine ⟨s1, { l with m_pTail := some a }, ?_, ?_, hfr1 q hqa, ?_, ?_, rfl, ?_⟩
      · simp only [hlast, headPtr_nil, unlink, hs1, Option.some_bind]
      · simpa using hl1
      · simp only [hhead, List.append_nil]
        exact headPtr_of_ne_nil hprene _ _
      · simp only [List.append_nil, hlast]
      · intro x hx _
        exact hfr1 x fun e1 => hx (e1 ▸ hamem)
    | cons x post1 =>
      obtain ⟨b, e⟩ := x
      have hbmem : b ∈ ((b, e) :: post1).map Prod.fst := by simp
      have hab : a ∉ ((b, e) :: post1).map Prod.fst := hdisj a hamem
      have hba : b ∉ (pre1 ++ [(a, d)]).map Prod.fst := fun hm => hdisj b hm hbmem
      have hqa : q ≠ a := fun e1 => hqpre (e1 ▸ hamem)
      have hqb : q ≠ b := fun e1 => hqpost (e1 ▸ hbmem)
      obtain ⟨s0, hs0, hl0, hfr0⟩ := setNext_last hpre hndpre hlast (some b)
      have hpost0 := Links_frame hpost a hab hfr0
      obtain ⟨s1, hs1, hl1, hfr1⟩ := setPrev_head hpost0 hndpost (headPtr_cons _ _ _) (some a)
      have hpre1 := Links_frame hl0 b hba hfr1
      refine ⟨s1, l, ?_, ?_, ?_, ?_, ?_, rfl, ?_⟩
      · simp only [hlast, headPtr_cons, unlink, hs0, hs1, Option.some_bind]
      · rw [Links_append, hlast, headPtr_cons]
        exact ⟨hpre1, hl1⟩
      · rw [hfr1 q hqb, hfr0 q hqa]
      · rw [hhead, headPtr_append (pre1 ++ [(a, d)]) ((b, e) :: post1)]
        exact headPtr_of_ne_nil hprene _ _
      · rw [htail, lastPtr_append (pre1 ++ [(a, d)]) ((b, e) :: post1)]
        exact lastPtr_of_ne_nil (List.cons_ne_nil _ _) _ _
      · intro x hx1 hx2
        rw [hfr1 x fun e1 => hx2 (e1 ▸ hbmem), hfr0 x fun e1 => hx1 (e1 ▸ hamem)]

/-! ## LinkedList.h: `deleteNode` and `moveToEnd` -/

theorem mem_split_bound {pre post : List (Nat × tVARTYPE)} {q : Nat} {v : tVARTYPE}
    (hb : ∀ a ∈ (pre ++ (q, v) :: post).map Prod.fst, a < storeLimit) :
    (∀ a ∈ (pre ++ post).map Prod.fst, a < storeLimit) ∧ q < storeLimit := by
  constructor
  · intro a ha
    apply hb a
    simp only [List.map_append, List.map_cons, List.mem_append, List.mem_cons] at ha ⊢
    rcases ha with ha | ha
    · exact Or.inl ha
    · exact Or.inr (Or.inr ha)
  · exact hb q (by simp)

/-- The function `deleteNode` on a node of a well-formed list: it returns the
successor of the node, the list holds the other nodes in their order, the slot
of the node is free and no slot outside the list changes. -/
theorem deleteNode_spec (s : Store tVARTYPE) (l : CLinkList) (pre post : List (Nat × tVARTYPE))
    (q : Nat) (v : tVARTYPE) (h : IsList s l (pre ++ (q, v) :: post)) :
    ∃ s1 l1, deleteNode s l q = some (s1, l1, headPtr post none) ∧
      IsList s1 l1 (pre ++ post) ∧ s1 q = none ∧
      ∀ a, a ∉ (pre ++ (q, v) :: post).map Prod.fst → s1 a = s a := by
  obtain ⟨s1, l1, hun, hl1, hq1, hhead1, htail1, hlen1, hfr1⟩ := unlink_spec s l pre post q v h
  obtain ⟨hnd, hb, hlen, -, -, hlinks⟩ := h
  obtain ⟨-, -, hqpre, hqpost, -, hndpp⟩ := nodup_split hnd
  rw [Links_split] at hlinks
  obtain ⟨-, hq, -⟩ := hlinks
  have hqs : s1 q ≠ none := by
    rw [hq1, (Links_single _ _ _ _ _).mp hq]
    simp
  obtain ⟨s2, hs2, hq2, hfr2⟩ := free_spec hqs
  have hqpp : q ∉ (pre ++ post).map Prod.fst := by
    simp only [List.map_append, List.mem_append]
    exact fun hm => hm.elim hqpre hqpost
  have hbound := length_bound _ hnd hb
  refine ⟨s2, { l1 with m_iLength := wrapInt (l1.m_iLength - 1) }, ?_, ?_, hq2, ?_⟩
  · simp only [deleteNode, getPrev_of_links hq, getNext_of_links hq, Option.some_bind, hun, hs2]
  · refine ⟨hndpp, (mem_split_bound hb).1, ?_, hhead1, htail1, Links_frame hl1 q hqpp hfr2⟩
    show wrapInt (l1.m_iLength - 1) = _
    rw [hlen1, hlen]
    simp only [List.length_append, List.length_cons, Nat.cast_add, Nat.cast_one] at hbound ⊢
    rw [wrapInt_of_range (by omega) (by omega)]
    omega
  · intro a ha
    simp only [List.map_append, List.map_cons, List.mem_append, List.mem_cons, not_or] at ha
    rw [hfr2 a ha.2.1, hfr1 a ha.1 ha.2.2]

/-- The function `moveToEnd` on a node of a well-formed list: it returns, the
list holds the other nodes in their order followed by the node, `m_pTail` is
the node, `m_iLength` is unchanged, and no slot outside the list changes; when
the node is the last one, store and list are unchanged. -/
theorem moveToEnd_spec (s : Store tVARTYPE) (l : CLinkList) (pre post : List (Nat × tVARTYPE))
    (q : Nat) (v : tVARTYPE) (h : IsList s l (pre ++ (q, v) :: post)) :
    ∃ s1 l1, moveToEnd s l q = some (s1, l1) ∧
      IsList s1 l1 (pre ++ post ++ [(q, v)]) ∧
      (∀ a, a ∉ (pre ++ (q, v) :: post).map Prod.fst → s1 a = s a) ∧
      (post = [] → s1 = s ∧ l1 = l) := by
  by_cases hpost : post = []
  · subst hpost
    have htail : l.m_pTail = some q := by rw [h.2.2.2.2.1, lastPtr_concat]
    refine ⟨s, l, ?_, by simpa using h, fun _ _ => rfl, fun _ => ⟨rfl, rfl⟩⟩
    unfold moveToEnd
    split_ifs with h1 h2
    · rfl
    · rfl
    · exact absurd htail.symm h2
  · obtain ⟨s1, l1, hun, hl1, hq1, hhead1, htail1, hlen1, hfr1⟩ :=
      unlink_spec s l pre post q v h
    obtain ⟨hnd, hb, hlen, -, htail, hlinks⟩ := h
    obtain ⟨-, -, hqpre, hqpost, -, hndpp⟩ := nodup_split hnd
    rw [Links_split] at hlinks
    obtain ⟨-, hq, -⟩ := hlinks
    have hqpp : q ∉ (pre ++ post).map Prod.fst := by
      simp only [List.map_append, List.mem_append]
      exact fun hm => hm.elim hqpre hqpost
    have hppne : pre ++ post ≠ [] := by simp [hpost]
    -- the list has at least two nodes and the node is not the last one
    have hlen2 : ¬ (l.getLength = 1) := by
      have : 1 ≤ post.length := List.length_pos.mpr hpost
      simp only [getLength, hlen, List.length_append, List.length_cons, Nat.cast_add,
        Nat.cast_one]
      omega
    obtain ⟨tl, htl⟩ : ∃ tl, lastPtr (pre ++ post) none = some tl := by
      cases hc : lastPtr (pre ++ post) none with
      | none => exact absurd ((lastPtr_eq_none _).mp hc) hppne
      | some tl => exact ⟨tl, rfl⟩
    have htlmem : tl ∈ (pre ++ post).map Prod.fst := by
      obtain ⟨init, w, hi⟩ := lastPtr_eq_some _ _ htl
      rw [hi]
      simp
    have htlq : tl ≠ q := fun e => hqpp (e ▸ htlmem)
    have htail0 : l.m_pTail = some tl := by
      rw [htail, lastPtr_append, lastPtr_cons, lastPtr_of_ne_nil hpost (some q) (lastPtr pre none),
        ← lastPtr_append, htl]
    have hnottail : ¬ (some q = l.m_pTail) := by
      rw [htail0]
      simp only [Option.some.injEq]
      exact fun e => htlq e.symm
    -- pNode->m_pNext = NULL
    have hq1' : Links s1 (lastPtr pre none) [(q, v)] (headPtr post none) := by
      rw [Links_single, hq1]
      exact (Links_single _ _ _ _ _).mp hq
    obtain ⟨s2, hs2, hq2, hfr2⟩ :=
      setNext_last hq1' (by simp) (lastPtr_concat [] (q, v) none) none
    have hl2 := Links_frame hl1 q hqpp hfr2
    -- m_pTail->m_pNext = pNode
    obtain ⟨s3, hs3, hl3, hfr3⟩ := setNext_last hl2 hndpp htl (some q)
    have hq3 := Links_frame hq2 tl (by simpa using htlq) hfr3
    -- pNode->m_pPrev = m_pTail
    obtain ⟨s4, hs4, hq4, hfr4⟩ :=
      setPrev_head hq3 (by simp) (headPtr_cons (q, v) [] none) (some tl)
    have hl4 := Links_frame hl3 q hqpp hfr4
    have hperm : List.Perm (pre ++ post ++ [(q, v)]) (pre ++ (q, v) :: post) := by
      rw [List.append_assoc]
      exact List.Perm.append_left pre (List.perm_append_singleton (q, v) post)
    refine ⟨s4, { l1 with m_pTail := some q }, ?_, ?_, ?_, fun e => absurd e hpost⟩
    · unfold moveToEnd
      rw [if_neg hlen2, if_neg hnottail]
      simp only [getPrev_of_links hq, getNext_of_links hq, Option.some_bind, hun, hs2,
        htail1, htl, hs3, hs4]
    · refine ⟨?_, ?_, ?_, ?_, ?_, ?_⟩
      · exact ((hperm.map Prod.fst).nodup_iff).mpr hnd
      · intro a ha
        exact hb a (((hperm.map Prod.fst).mem_iff).mp ha)
      · show l1.m_iLength = _
        rw [hlen1, hlen, hperm.length_eq]
      · show l1.m_pHead = _
        rw [hhead1, headPtr_append (pre ++ post)]
        exact headPtr_of_ne_nil hppne _ _
      · show some q = _
        rw [lastPtr_concat]
      · rw [Links_append, htl, headPtr_cons]
        exact ⟨hl4, hq4⟩
    · intro a ha
      have haq : a ≠ q := fun e => ha (by simp [e])
      have hatl : a ≠ tl := by
        intro e
        apply ha
        rw [e]
        simp only [List.map_append, List.map_cons, List.mem_append, List.mem_cons] at htlmem ⊢
        rcases htlmem with hm | hm
        · exact Or.inl hm
        · exact Or.inr (Or.inr hm)
      simp only [List.map_append, List.map_cons, List.mem_append, List.mem_cons, not_or] at ha
      rw [hfr4 a haq, hfr3 a hatl, hfr2 a haq, hfr1 a ha.1 ha.2.2]

/-! ## LinkedList.h: `insertAtBeginning`, `insertBefore`, `insertAfter` -/

theorem wrapInt_length_succ (l : CLinkList) (xs ys : List (Nat × tVARTYPE))
    (hlen : l.m_iLength = xs.length) (hys : ys.length = xs.length + 1)
    (hnd : (ys.map Prod.fst).Nodup) (hb : ∀ a ∈ ys.map Prod.fst, a < storeLimit) :
    wrapInt (l.m_iLength + 1) = (ys.length : Int) := by
  have := length_bound _ hnd hb
  rw [hlen, hys] at *
  push_cast at this ⊢
  exact wrapInt_of_range (by omega) (by omega)

/-- The function `insertAtBeginning` on a well-formed list: it returns, the
list holds the new node followed by the former nodes, and no other slot of the
store changes. -/
theorem insertAtBeginning_spec (s : Store tVARTYPE) (l : CLinkList)
    (xs : List (Nat × tVARTYPE)) (val : tVARTYPE) (p : Nat) (h : IsList s l xs)
    (hfree : s p = none) (hp : p < storeLimit) :
    ∃ s1 l1, insertAtBeginning s l val p = some (s1, l1) ∧ IsList s1 l1 ((p, val) :: xs) ∧
      ∀ a, a ∉ xs.map Prod.fst → a ≠ p → s1 a = s a := by
  obtain ⟨hnd, hb, hlen, hhead, htail, hlinks⟩ := h
  have hpx : p ∉ xs.map Prod.fst := fun hmem => Links_isSome hlinks p hmem hfree
  have hnd1 : (((p, val) :: xs).map Prod.fst).Nodup := by
    simp only [List.map_cons, List.nodup_cons]
    exact ⟨hpx, hnd⟩
  have hb1 : ∀ a ∈ ((p, val) :: xs).map Prod.fst, a < storeLimit := by
    intro a ha
    simp only [List.map_cons, List.mem_cons] at ha
    rcases ha with rfl | ha
    · exact hp
    · exact hb a ha
  have hlen1 := wrapInt_length_succ l xs ((p, val) :: xs) hlen (by simp) hnd1 hb1
  obtain ⟨s1, hs1, hp1, hfr1⟩ := alloc_spec val hfree hp
  have hl1 := Links_frame hlinks p hpx hfr1
  cases xs with
  | nil =>
    simp only [headPtr_nil] at hhead
    refine ⟨s1, ⟨wrapInt (l.m_iLength + 1), some p, some p⟩, ?_, ?_, fun a _ ha => hfr1 a ha⟩
    · simp only [insertAtBeginning, hs1, Option.some_bind, hhead]
    · exact ⟨hnd1, hb1, hlen1, rfl, rfl, hp1⟩
  | cons x rest =>
    obtain ⟨h0, v0⟩ := x
    simp only [headPtr_cons] at hhead
    have hph0 : p ≠ h0 := fun e => hpx (by simp [e])
    obtain ⟨s2, hs2, hl2, hfr2⟩ := setPrev_head hl1 hnd (headPtr_cons _ _ _) (some p)
    have hp2 := Links_frame hp1 h0 (by simpa using Ne.symm hph0) hfr2
    obtain ⟨s3, hs3, hp3, hfr3⟩ :=
      setNext_last hp2 (by simp) (lastPtr_concat [] (p, val) none) (some h0)
    have hl3 := Links_frame hl2 p hpx hfr3
    refine ⟨s3, { l with m_pHead := some p, m_iLength := wrapInt (l.m_iLength + 1) }, ?_, ?_, ?_⟩
    · simp only [insertAtBeginning, hs1, Option.some_bind, hhead, hs2, hs3]
    · refine ⟨hnd1, hb1, hlen1, rfl, ?_, ?_⟩
      · show l.m_pTail = _
        rw [htail, lastPtr_cons (p, val)]
        exact lastPtr_of_ne_nil (List.cons_ne_nil _ _) _ _
      · have := (Links_append s3 [(p, val)] ((h0, v0) :: rest) none none).mpr ⟨hp3, hl3⟩
        simpa using this
    · intro a ha hap
      have hah0 : a ≠ h0 := fun e => ha (by simp [e])
      rw [hfr3 a hap, hfr2 a hah0, hfr1 a hap]

/-- The function `insertBefore` with a node of a well-formed list: it returns,
the new node stands immediately before that node, and no other slot of the
store changes. -/
theorem insertBefore_spec (s : Store tVARTYPE) (l : CLinkList)
    (pre post : List (Nat × tVARTYPE)) (q : Nat) (v : tVARTYPE) (val : tVARTYPE) (p : Nat)
    (h : IsList s l (pre ++ (q, v) :: post)) (hfree : s p = none) (hp : p < storeLimit) :
    ∃ s1 l1, insertBefore s l val (some q) p = some (s1, l1) ∧
      IsList s1 l1 (pre ++ (p, val) :: (q, v) :: post) ∧
      ∀ a, a ∉ (pre ++ (q, v) :: post).map Prod.fst → a ≠ p → s1 a = s a := by
  have hq := ((Links_split s pre post q v none none).mp h.2.2.2.2.2).2.1
  rcases List.eq_nil_or_concat pre with rfl | ⟨pre1, ⟨a, d⟩, hx⟩
  · obtain ⟨s1, l1, hop, hl1, hfr1⟩ := insertAtBeginning_spec s l _ val p h hfree hp
    refine ⟨s1, l1, ?_, by simpa using hl1, by simpa using hfr1⟩
    simp only [insertBefore, getPrev_of_links hq, Option.some_bind, lastPtr_nil]
    exact hop
  · rw [List.concat_eq_append] at hx
    subst hx
    obtain ⟨hnd, hb, hlen, hhead, htail, hlinks⟩ := h
    have hpx : p ∉ ((pre1 ++ [(a, d)]) ++ (q, v) :: post).map Prod.fst :=
      fun hmem => Links_isSome hlinks p hmem hfree
    have hperm : List.Perm ((pre1 ++ [(a, d)]) ++ (p, val) :: (q, v) :: post)
        ((p, val) :: ((pre1 ++ [(a, d)]) ++ (q, v) :: post)) := List.perm_middle
    have hnd1 : ((pre1 ++ [(a, d)] ++ (p, val) :: (q, v) :: post).map Prod.fst).Nodup := by
      rw [(hperm.map Prod.fst).nodup_iff]
      simp only [List.map_cons, List.nodup_cons]
      exact ⟨hpx, hnd⟩
    have hb1 : ∀ x ∈ (pre1 ++ [(a, d)] ++ (p, val) :: (q, v) :: post).map Prod.fst,
        x < storeLimit := by
      intro x hx
      rw [(hperm.map Prod.fst).mem_iff] at hx
      simp only [List.map_cons, List.mem_cons] at hx
      rcases hx with rfl | hx
      · exact hp
      · exact hb x hx
    have hlen1 := wrapInt_length_succ l _ (pre1 ++ [(a, d)] ++ (p, val) :: (q, v) :: post) hlen
      (by simp only [List.length_append, List.length_cons]; omega) hnd1 hb1
    obtain ⟨hndpre, hndpost, hqpre, hqpost, hdisj, -⟩ := nodup_split hnd
    have hprene : pre1 ++ [(a, d)] ≠ [] := by simp
    have hlast : lastPtr (pre1 ++ [(a, d)]) none = some a := lastPtr_concat _ _ _
    have hamem : a ∈ (pre1 ++ [(a, d)]).map Prod.fst := by simp
    have hndq : (((q, v) :: post).map Prod.fst).Nodup := by
      simp only [List.map_cons, List.nodup_cons]
      exact ⟨hqpost, hndpost⟩
    have haq : a ∉ ((q, v) :: post).map Prod.fst := by
      simp only [List.map_cons, List.mem_cons, not_or]
      exact ⟨fun e => hqpre (e ▸ hamem), hdisj a hamem⟩
    have hppre : p ∉ (pre1 ++ [(a, d)]).map Prod.fst := fun hm => hpx (by
      simp only [List.map_append, List.mem_append] at hm ⊢
      exact Or.inl hm)
    have hpq : p ∉ ((q, v) :: post).map Prod.fst := fun hm => hpx (by
      simp only [List.map_append, List.mem_append] at hm ⊢
      exact Or.inr hm)
    have hpa : p ≠ a := fun e => hppre (e ▸ hamem)
    have hqp : q ≠ p := fun e => hpq (by simp [e])
    rw [Links_append] at hlinks
    obtain ⟨hpre, hqpostl⟩ := hlinks
    rw [hlast] at hqpostl
    simp only [headPtr_cons] at hpre
    rw [hlast] at hq
    -- pNode = new CLLNode<tVARTYPE>(val)
    obtain ⟨s1, hs1, hp1, hfr1⟩ := alloc_spec val hfree hp
    have hpre1 := Links_frame hpre p hppre hfr1
    have hqpost1 := Links_frame hqpostl p hpq hfr1
    have hq1 : s1.getPrev q = some (some a) := by
      have := getPrev_of_links hq
      simpa [Store.getPrev, hfr1 q hqp] using this
    -- pThisNode->m_pPrev->m_pNext = pNode
    obtain ⟨s2, hs2, hpre2, hfr2⟩ := setNext_last hpre1 hndpre hlast (some p)
    have hqpost2 := Links_frame hqpost1 a haq hfr2
    have hp2 := Links_frame hp1 a (by simpa using Ne.symm hpa) hfr2
    have hq2 : s2.getPrev q = some (some a) := by
      simpa [Store.getPrev, hfr2 q (fun e => hqpre (e ▸ hamem))] using hq1
    -- pNode->m_pPrev = pThisNode->m_pPrev
    obtain ⟨s3, hs3, hp3, hfr3⟩ :=
      setPrev_head hp2 (by simp) (headPtr_cons (p, val) [] none) (some a)
    have hpre3 := Links_frame hpre2 p hppre hfr3
    have hqpost3 := Links_frame hqpost2 p hpq hfr3
    -- pThisNode->m_pPrev = pNode
    obtain ⟨s4, hs4, hqpost4, hfr4⟩ := setPrev_head hqpost3 hndq (headPtr_cons _ _ _) (some p)
    have hpre4 := Links_frame hpre3 q hqpre hfr4
    have hp4 := Links_frame hp3 q (by simpa using hqp) hfr4
    -- pNode->m_pNext = pThisNode
    obtain ⟨s5, hs5, hp5, hfr5⟩ :=
      setNext_last hp4 (by simp) (lastPtr_concat [] (p, val) none) (some q)
    have hpre5 := Links_frame hpre4 p hppre hfr5
    have hqpost5 := Links_frame hqpost4 p hpq hfr5
    refine ⟨s5, { l with m_iLength := wrapInt (l.m_iLength + 1) }, ?_, ?_, ?_⟩
    · simp only [insertBefore, getPrev_of_links hq, Option.some_bind, hs1, hq1, hs2, hq2, hs3,
        hs4, hs5]
    · refine ⟨hnd1, hb1, hlen1, ?_, ?_, ?_⟩
      · show l.m_pHead = _
        rw [hhead, headPtr_append (pre1 ++ [(a, d)]) ((q, v) :: post),
          headPtr_append (pre1 ++ [(a, d)]) ((p, val) :: (q, v) :: post)]
        exact headPtr_of_ne_nil hprene _ _
      · show l.m_pTail = _
        rw [htail, lastPtr_append (pre1 ++ [(a, d)]) ((q, v) :: post),
          lastPtr_append (pre1 ++ [(a, d)]) ((p, val) :: (q, v) :: post)]
        rfl
      · rw [Links_append, hlast, headPtr_cons]
        refine ⟨hpre5, ?_⟩
        have := (Links_append s5 [(p, val)] ((q, v) :: post) (some a) none).mpr ⟨hp5, hqpost5⟩
        simpa using this
    · intro x hx hxp
      have hxa : x ≠ a := fun e => hx (by
        rw [List.map_append, List.mem_append]
        exact Or.inl (e ▸ hamem))
      have hxq : x ≠ q := fun e => hx (by simp [e])
      rw [hfr5 x hxp, hfr4 x hxq, hfr3 x hxp, hfr2 x hxa, hfr1 x hxp]

theorem getNext_congr {s s1 : Store tVARTYPE} {q : Nat} (h : s1 q = s q) :
    s1.getNext q = s.getNext q := by
  simp [Store.getNext, h]

/-- The function `insertAfter` with a node of a well-formed list: it returns,
the new node stands immediately after that node, and no other slot of the
store changes. -/
theorem insertAfter_spec (s : Store tVARTYPE) (l : CLinkList)
    (pre post : List (Nat × tVARTYPE)) (q : Nat) (v : tVARTYPE) (val : tVARTYPE) (p : Nat)
    (h : IsList s l (pre ++ (q, v) :: post)) (hfree : s p = none) (hp : p < storeLimit) :
    ∃ s1 l1, insertAfter s l val (some q) p = some (s1, l1) ∧
      IsList s1 l1 (pre ++ (q, v) :: (p, val) :: post) ∧
      ∀ a, a ∉ (pre ++ (q, v) :: post).map Prod.fst → a ≠ p → s1 a = s a := by
  have hq := ((Links_split s pre post q v none none).mp h.2.2.2.2.2).2.1
  cases post with
  | nil =>
    obtain ⟨s1, l1, hop, hl1, hfr1⟩ := insertAtEnd_spec s l _ val p h hfree hp
    refine ⟨s1, l1, ?_, by simpa using hl1, hfr1⟩
    simp only [insertAfter, getNext_of_links hq, Option.some_bind, headPtr_nil]
    exact hop
  | cons x post1 =>
    obtain ⟨b, e⟩ := x
    obtain ⟨hnd, hb, hlen, hhead, htail, hlinks⟩ := h
    have hpx : p ∉ (pre ++ (q, v) :: (b, e) :: post1).map Prod.fst :=
      fun hmem => Links_isSome hlinks p hmem hfree
    have hsplit : pre ++ (q, v) :: (b, e) :: post1 = (pre ++ [(q, v)]) ++ (b, e) :: post1 := by
      simp
    have hsplit1 : pre ++ (q, v) :: (p, val) :: (b, e) :: post1 =
        (pre ++ [(q, v)]) ++ (p, val) :: (b, e) :: post1 := by simp
    rw [hsplit] at hnd hb hlen hhead htail hlinks hpx
    rw [hsplit, hsplit1]
    have hperm : List.Perm ((pre ++ [(q, v)]) ++ (p, val) :: (b, e) :: post1)
        ((p, val) :: ((pre ++ [(q, v)]) ++ (b, e) :: post1)) := List.perm_middle
    have hnd1 : ((pre ++ [(q, v)] ++ (p, val) :: (b, e) :: post1).map Prod.fst).Nodup := by
      rw [(hperm.map Prod.fst).nodup_iff]
      simp only [List.map_cons, List.nodup_cons]
      exact ⟨hpx, hnd⟩
    have hb1 : ∀ x ∈ (pre ++ [(q, v)] ++ (p, val) :: (b, e) :: post1).map Prod.fst,
        x < storeLimit := by
      intro x hx
      rw [(hperm.map Prod.fst).mem_iff] at hx
      simp only [List.map_cons, List.mem_cons] at hx
      rcases hx with rfl | hx
      · exact hp
      · exact hb x hx
    have hlen1 := wrapInt_length_succ l _ (pre ++ [(q, v)] ++ (p, val) :: (b, e) :: post1) hlen
      (by simp only [List.length_append, List.length_cons]; omega) hnd1 hb1
    have hnd0 := hnd
    rw [List.map_append] at hnd0
    obtain ⟨hndpreq, hndpost, hdisj⟩ := List.nodup_append.mp hnd0
    have hpreqne : pre ++ [(q, v)] ≠ [] := by simp
    have hlast : lastPtr (pre ++ [(q, v)]) none = some q := lastPtr_concat _ _ _
    have hqmem : q ∈ (pre ++ [(q, v)]).map Prod.fst := by simp
    have hbmem : b ∈ ((b, e) :: post1).map Prod.fst := by simp
    have hqpost : q ∉ ((b, e) :: post1).map Prod.fst := fun hm => hdisj hqmem hm
    have hbpreq : b ∉ (pre ++ [(q, v)]).map Prod.fst := fun hm => hdisj hm hbmem
    have hppreq : p ∉ (pre ++ [(q, v)]).map Prod.fst := fun hm => hpx (by
      rw [List.map_append, List.mem_append]
      exact Or.inl hm)
    have hppost : p ∉ ((b, e) :: post1).map Prod.fst := fun hm => hpx (by
      rw [List.map_append, List.mem_append]
      exact Or.inr hm)
    have hqp : q ≠ p := fun e1 => hppreq (e1 ▸ hqmem)
    have hbp : b ≠ p := fun e1 => hppost (e1 ▸ hbmem)
    have hqb : q ≠ b := fun e1 => hqpost (e1 ▸ hbmem)
    rw [Links_append] at hlinks
    obtain ⟨hpreq, hpostl⟩ := hlinks
    rw [hlast] at hpostl
    simp only [headPtr_cons] at hpreq hq
    -- pNode = new CLLNode<tVARTYPE>(val)
    obtain ⟨s1, hs1, hp1, hfr1⟩ := alloc_spec val hfree hp
    have hpreq1 := Links_frame hpreq p hppreq hfr1
    have hpost1 := Links_frame hpostl p hppost hfr1
    have hq1 : s1.getNext q = some (some b) := by
      rw [getNext_congr (hfr1 q hqp)]
      exact getNext_of_links hq
    -- pThisNode->m_pNext->m_pPrev = pNode
    obtain ⟨s2, hs2, hpost2, hfr2⟩ := setPrev_head hpost1 hndpost (headPtr_cons _ _ _) (some p)
    have hpreq2 := Links_frame hpreq1 b hbpreq hfr2
    have hp2 := Links_frame hp1 b (by simpa using hbp) hfr2
    have hq2 : s2.getNext q = some (some b) := by
      rw [getNext_congr (hfr2 q hqb)]
      exact hq1
    -- pNode->m_pNext = pThisNode->m_pNext
    obtain ⟨s3, hs3, hp3, hfr3⟩ :=
      setNext_last hp2 (by simp) (lastPtr_concat [] (p, val) none) (some b)
    have hpreq3 := Links_frame hpreq2 p hppreq hfr3
    have hpost3 := Links_frame hpost2 p hppost hfr3
    -- pThisNode->m_pNext = pNode
    obtain ⟨s4, hs4, hpreq4, hfr4⟩ := setNext_last hpreq3 hndpreq hlast (some p)
    have hpost4 := Links_frame hpost3 q hqpost hfr4
    have hp4 := Links_frame hp3 q (by simpa using hqp) hfr4
    -- pNode->m_pPrev = pThisNode
    obtain ⟨s5, hs5, hp5, hfr5⟩ :=
      setPrev_head hp4 (by simp) (headPtr_cons (p, val) [] none) (some q)
    have hpreq5 := Links_frame hpreq4 p hppreq hfr5
    have hpost5 := Links_frame hpost4 p hppost hfr5
    refine ⟨s5, { l with m_iLength := wrapInt (l.m_iLength + 1) }, ?_, ?_, ?_⟩
    · simp only [insertAfter, getNext_of_links hq, Option.some_bind, hs1, hq1, hs2, hq2, hs3,
        hs4, hs5]
    · refine ⟨hnd1, hb1, hlen1, ?_, ?_, ?_⟩
      · show l.m_pHead = _
        rw [hhead, headPtr_append (pre ++ [(q, v)]) ((b, e) :: post1),
          headPtr_append (pre ++ [(q, v)]) ((p, val) :: (b, e) :: post1)]
        exact headPtr_of_ne_nil hpreqne _ _
      · show l.m_pTail = _
        rw [htail, lastPtr_append (pre ++ [(q, v)]) ((b, e) :: post1),
          lastPtr_append (pre ++ [(q, v)]) ((p, val) :: (b, e) :: post1)]
        rfl
      · rw [Links_append, hlast, headPtr_cons]
        refine ⟨hpreq5, ?_⟩
        have := (Links_append s5 [(p, val)] ((b, e) :: post1) (some q) none).mpr ⟨hp5, hpost5⟩
        simpa using this
    · intro x hx hxp
      have hxq : x ≠ q := fun e1 => hx (by
        rw [List.map_append, List.mem_append]
        exact Or.inl (e1 ▸ hqmem))
      have hxb : x ≠ b := fun e1 => hx (by
        rw [List.map_append, List.mem_append]
        exact Or.inr (e1 ▸ hbmem))
      rw [hfr5 x hxp, hfr4 x hxq, hfr3 x hxp, hfr2 x hxb, hfr1 x hxp]

/-! ## LinkedList.h: `concatenate`, `swap`, `clear` -/

/-- The function `concatenate` on two well-formed lists without a common
node: it returns, this list holds its former nodes followed by those of the
argument, the argument is empty, and no slot outside the two lists changes;
when the argument is empty, store and list are unchanged. -/
theorem concatenate_spec (s : Store tVARTYPE) (l list : CLinkList)
    (xs ys : List (Nat × tVARTYPE)) (hl : IsList s l xs) (hlist : IsList s list ys)
    (hdisj : ∀ a ∈ xs.map Prod.fst, a ∉ ys.map Prod.fst) :
    ∃ s1 l1, concatenate s l list = some (s1, l1, CLinkList.ctor) ∧
      IsList s1 l1 (xs ++ ys) ∧ IsList s1 CLinkList.ctor ([] : List (Nat × tVARTYPE)) ∧
      (∀ a, a ∉ xs.map Prod.fst → a ∉ ys.map Prod.fst → s1 a = s a) ∧
      (ys = [] → s1 = s ∧ l1 = l) := by
  obtain ⟨hnd, hb, hlen, hhead, htail, hlinks⟩ := hl
  obtain ⟨hndy, hby, hleny, hheady, htaily, hlinksy⟩ := hlist
  have hempty : ∀ s1 : Store tVARTYPE, IsList s1 CLinkList.ctor ([] : List (Nat × tVARTYPE)) :=
    fun s1 => ⟨by simp, by simp, rfl, rfl, rfl, trivial⟩
  cases ys with
  | nil =>
    have hlisteq : list = CLinkList.ctor := by
      cases list
      simp only [headPtr_nil, lastPtr_nil, List.length_nil, Nat.cast_zero] at hheady htaily hleny
      simp only [CLinkList.ctor, hheady, htaily, hleny]
    refine ⟨s, l, ?_, by simpa using ⟨hnd, hb, hlen, hhead, htail, hlinks⟩, hempty s,
      fun _ _ _ => rfl, fun _ => ⟨rfl, rfl⟩⟩
    subst hlisteq
    rfl
  | cons y ys1 =>
    obtain ⟨b, e⟩ := y
    simp only [headPtr_cons] at hheady
    have hnd1 : ((xs ++ (b, e) :: ys1).map Prod.fst).Nodup := by
      rw [List.map_append, List.nodup_append]
      exact ⟨hnd, hndy, fun a ha hb1 => hdisj a ha hb1⟩
    have hb1 : ∀ a ∈ (xs ++ (b, e) :: ys1).map Prod.fst, a < storeLimit := by
      intro a ha
      rw [List.map_append, List.mem_append] at ha
      exact ha.elim (hb a) (hby a)
    have hlen1 : wrapInt (l.m_iLength + list.m_iLength) =
        ((xs ++ (b, e) :: ys1).length : Int) := by
      have := length_bound _ hnd1 hb1
      rw [hlen, hleny]
      rw [List.length_append] at this ⊢
      push_cast at this ⊢
      exact wrapInt_of_range (by omega) (by omega)
    have hbmem : b ∈ ((b, e) :: ys1).map Prod.fst := by simp
    have htail1 : list.m_pTail = lastPtr (xs ++ (b, e) :: ys1) none := by
      rw [htaily, lastPtr_append]
      exact lastPtr_of_ne_nil (List.cons_ne_nil _ _) _ _
    rcases List.eq_nil_or_concat xs with rfl | ⟨xs1, ⟨t, w⟩, hx⟩
    · simp only [lastPtr_nil] at htail
      refine ⟨s, ⟨wrapInt (l.m_iLength + list.m_iLength), list.m_pHead, list.m_pTail⟩,
        ?_, ?_, hempty s, fun _ _ _ => rfl, fun e1 => by cases e1⟩
      · simp only [concatenate, hheady, htail, Option.some_bind, CLinkList.ctor]
      · exact ⟨hnd1, hb1, hlen1, by simp [hheady, headPtr_cons], htail1, by simpa using hlinksy⟩
    · rw [List.concat_eq_append] at hx
      subst hx
      have hlast : lastPtr (xs1 ++ [(t, w)]) none = some t := lastPtr_concat _ _ _
      rw [hlast] at htail
      have htmem : t ∈ (xs1 ++ [(t, w)]).map Prod.fst := by simp
      have hty : t ∉ ((b, e) :: ys1).map Prod.fst := hdisj t htmem
      have hbx : b ∉ (xs1 ++ [(t, w)]).map Prod.fst := fun hm => hdisj b hm hbmem
      -- m_pTail->m_pNext = list.m_pHead
      obtain ⟨s1, hs1, hx1, hfr1⟩ := setNext_last hlinks hnd hlast (some b)
      have hy1 := Links_frame hlinksy t hty hfr1
      -- list.m_pHead->m_pPrev = m_pTail
      obtain ⟨s2, hs2, hy2, hfr2⟩ := setPrev_head hy1 hndy (headPtr_cons _ _ _) (some t)
      have hx2 := Links_frame hx1 b hbx hfr2
      refine ⟨s2, ⟨wrapInt (l.m_iLength + list.m_iLength), l.m_pHead, list.m_pTail⟩,
        ?_, ?_, hempty s2, ?_, fun e1 => by cases e1⟩
      · simp only [concatenate, hheady, htail, Option.some_bind, hs1, hs2, CLinkList.ctor]
      · refine ⟨hnd1, hb1, hlen1, ?_, htail1, ?_⟩
        · show l.m_pHead = _
          rw [hhead, headPtr_append (xs1 ++ [(t, w)]) ((b, e) :: ys1)]
          exact headPtr_of_ne_nil (by simp) _ _
        · rw [Links_append, hlast, headPtr_cons]
          exact ⟨hx2, hy2⟩
      · intro a ha1 ha2
        rw [hfr2 a fun e1 => ha2 (e1 ▸ hbmem), hfr1 a fun e1 => ha1 (e1 ▸ htmem)]

/-- The loop of `clear` on a chain that ends in `NULL`: as many iterations as
there are nodes suffice, every node of the chain is deleted and no other slot
changes. -/
theorem clearLoop_spec (xs : List (Nat × tVARTYPE)) :
    ∀ (s : Store tVARTYPE) (p : Option Nat) (fuel : Nat), Links s p xs none →
      (xs.map Prod.fst).Nodup → xs.length ≤ fuel →
      ∃ s1, clearLoop fuel s (headPtr xs none) = some s1 ∧
        (∀ a ∈ xs.map Prod.fst, s1 a = none) ∧ ∀ a, a ∉ xs.map Prod.fst → s1 a = s a := by
  induction xs with
  | nil =>
    intro s p fuel _ _ _
    refine ⟨s, ?_, by simp, fun _ _ => rfl⟩
    cases fuel <;> rfl
  | cons x xs ih =>
    intro s p fuel hl hnd hfuel
    obtain ⟨a, d⟩ := x
    obtain ⟨fuel, rfl⟩ : ∃ f, fuel = f + 1 := ⟨fuel - 1, by simp at hfuel; omega⟩
    rw [Links_cons] at hl
    obtain ⟨hcell, hrest⟩ := hl
    simp only [List.map_cons, List.nodup_cons] at hnd
    obtain ⟨s1, hs1, ha1, hfr1⟩ := free_spec (s := s) (q := a) (by rw [hcell]; simp)
    have hrest1 := Links_frame hrest a hnd.1 hfr1
    obtain ⟨s2, hs2, hdel2, hfr2⟩ := ih s1 (some a) fuel hrest1 hnd.2 (by simp at hfuel; omega)
    refine ⟨s2, ?_, ?_, ?_⟩
    · simp only [headPtr_cons, clearLoop, Store.getNext, hcell, Option.map_some',
        Option.some_bind, hs1, hs2]
    · intro y hy
      simp only [List.map_cons, List.mem_cons] at hy
      rcases hy with rfl | hy
      · by_cases hmem : y ∈ xs.map Prod.fst
        · exact hdel2 y hmem
        · rw [hfr2 y hmem, ha1]
      · exact hdel2 y hy
    · intro y hy
      simp only [List.map_cons, List.mem_cons, not_or] at hy
      rw [hfr2 y hy.2, hfr1 y hy.1]

/-- Whatever number of iterations the loop of `clear` is granted, a result it
returns leaves every slot outside the chain unchanged. -/
theorem clearLoop_frame (xs : List (Nat × tVARTYPE)) :
    ∀ (s s1 : Store tVARTYPE) (p : Option Nat) (fuel : Nat), Links s p xs none →
      (xs.map Prod.fst).Nodup → clearLoop fuel s (headPtr xs none) = some s1 →
      ∀ a, a ∉ xs.map Prod.fst → s1 a = s a := by
  induction xs with
  | nil =>
    intro s s1 p fuel _ _ hres a _
    have : clearLoop fuel s (headPtr ([] : List (Nat × tVARTYPE)) none) = some s := by
      cases fuel <;> rfl
    rw [this] at hres
    cases hres
    rfl
  | cons x xs ih =>
    intro s s1 p fuel hl hnd hres y hy
    obtain ⟨a, d⟩ := x
    rw [Links_cons] at hl
    obtain ⟨hcell, hrest⟩ := hl
    simp only [List.map_cons, List.nodup_cons] at hnd
    simp only [List.map_cons, List.mem_cons, not_or] at hy
    cases fuel with
    | zero => cases hres
    | succ fuel =>
      obtain ⟨s2, hs2, -, hfr2⟩ := free_spec (s := s) (q := a) (by rw [hcell]; simp)
      have hrest2 := Links_frame hrest a hnd.1 hfr2
      simp only [headPtr_cons, clearLoop, Store.getNext, hcell, Option.map_some',
        Option.some_bind, hs2] at hres
      rw [ih s2 s1 (some a) fuel hrest2 hnd.2 hres y hy.2, hfr2 y hy.1]

/-! ## LinkedList.h: what a well-formed list shows, and the reachable states -/

theorem walkNext_mem {s : Store tVARTYPE} (xs : List (Nat × tVARTYPE)) :
    ∀ (p : Option Nat) (fuel : Nat), Links s p xs none →
      ∀ x ∈ walkNext s fuel (headPtr xs none), x ∈ xs := by
  induction xs with
  | nil =>
    intro p fuel _ x hx
    rw [headPtr_nil, walkNext_none] at hx
    exact hx
  | cons y ys ih =>
    intro p fuel hl x hx
    cases fuel with
    | zero => cases hx
    | succ fuel =>
      rw [Links_cons] at hl
      simp only [headPtr_cons, walkNext, hl.1, Prod.mk.eta, List.mem_cons] at hx
      rcases hx with rfl | hx
      · exact List.mem_cons_self _ _
      · exact List.mem_cons_of_mem _ (ih _ fuel hl.2 x hx)

/-- A node argument of a well-formed list is one of its nodes. -/
theorem isNodeOf_split {s : Store tVARTYPE} {l : CLinkList} {xs : List (Nat × tVARTYPE)}
    (h : IsList s l xs) {q : Nat} (hq : IsNodeOf s l q) :
    ∃ pre v post, xs = pre ++ (q, v) :: post := by
  obtain ⟨fuel, hmem⟩ := hq
  rw [List.mem_map] at hmem
  obtain ⟨⟨q1, v⟩, hx, rfl⟩ := hmem
  rw [h.2.2.2.1] at hx
  have := walkNext_mem xs none fuel h.2.2.2.2.2 _ hx
  obtain ⟨pre, post, rfl⟩ := List.append_of_mem this
  exact ⟨pre, v, post, rfl⟩

/-- What a well-formed list shows to its user. -/
theorem invariant_of_isList {s : Store tVARTYPE} {l : CLinkList} {xs : List (Nat × tVARTYPE)}
    (h : IsList s l xs) :
    l.getLength = xs.length ∧
    (∀ k, walkNext s (xs.length + k) l.head = xs) ∧
    (∀ k, walkPrev s (xs.length + k) l.tail = xs.reverse) ∧
    (l.head = none ↔ l.tail = none) ∧ (l.tail = none ↔ l.getLength = 0) ∧
    (∀ p, l.head = some p → prev s p = some none) ∧
    (∀ p, l.tail = some p → next s p = some none) ∧
    insertAssert l = true := by
  obtain ⟨-, -, hlen, hhead, htail, hlinks⟩ := h
  simp only [head, tail, getLength, prev, next]
  refine ⟨hlen, ?_, ?_, ?_, ?_, ?_, ?_, ?_⟩
  · intro k
    rw [hhead]
    exact walkNext_of_links hlinks k
  · intro k
    rw [htail, walkPrev_of_links hlinks k, walkPrev_none, List.append_nil]
  · rw [hhead, htail, headPtr_eq_none, lastPtr_eq_none]
  · rw [htail, hlen, lastPtr_eq_none]
    constructor
    · rintro rfl
      rfl
    · intro h0
      exact List.length_eq_zero.mp (by exact_mod_cast h0)
  · intro p hp
    rw [hhead] at hp
    obtain ⟨v, rest, rfl⟩ := headPtr_eq_some xs p hp
    rw [Links_cons] at hlinks
    simp [Store.getPrev, hlinks.1]
  · intro p hp
    rw [htail] at hp
    obtain ⟨init, v, rfl⟩ := lastPtr_eq_some xs p hp
    rw [Links_append, Links_cons] at hlinks
    simp [Store.getNext, hlinks.2.1, headPtr_nil]
  · cases xs with
    | nil =>
      simp only [headPtr_nil] at hhead
      simp [insertAssert, hhead]
    | cons x xs =>
      simp only [insertAssert, hlen, List.length_cons, Bool.or_eq_true, decide_eq_true_eq]
      right
      push_cast
      omega

theorem isList_other {s s1 : Store tVARTYPE} {list : CLinkList}
    {xs ys : List (Nat × tVARTYPE)} (hlist : IsList s list ys)
    (hdisj : ∀ a ∈ xs.map Prod.fst, a ∉ ys.map Prod.fst)
    (hfr : ∀ a, a ∉ xs.map Prod.fst → s a ≠ none → s1 a = s a) : IsList s1 list ys := by
  obtain ⟨hnd, hb, hlen, hhead, htail, hlinks⟩ := hlist
  refine ⟨hnd, hb, hlen, hhead, htail, (Links_congr ys none none fun a ha => ?_).mpr hlinks⟩
  exact hfr a (fun hx => hdisj a hx ha) (Links_isSome hlinks a ha)

theorem disjoint_new {s : Store tVARTYPE} {list : CLinkList}
    {xs xs1 ys : List (Nat × tVARTYPE)} (hlist : IsList s list ys)
    (hdisj : ∀ a ∈ xs.map Prod.fst, a ∉ ys.map Prod.fst)
    (hnew : ∀ a ∈ xs1.map Prod.fst, a ∈ xs.map Prod.fst ∨ s a = none) :
    ∀ a ∈ xs1.map Prod.fst, a ∉ ys.map Prod.fst := by
  intro a ha hy
  rcases hnew a ha with h1 | h1
  · exact hdisj a h1 hy
  · exact Links_isSome hlist.2.2.2.2.2 a hy h1

theorem insertAtBeginning_some {s : Store tVARTYPE} {l : CLinkList} {val : tVARTYPE} {p : Nat}
    {r : Store tVARTYPE × CLinkList} (h : insertAtBeginning s l val p = some r) :
    s p = none ∧ p < storeLimit := by
  simp only [insertAtBeginning, Option.bind_eq_some] at h
  obtain ⟨s1, hs1, -⟩ := h
  exact alloc_some hs1

theorem insertAtEnd_some {s : Store tVARTYPE} {l : CLinkList} {val : tVARTYPE} {p : Nat}
    {r : Store tVARTYPE × CLinkList} (h : insertAtEnd s l val p = some r) :
    s p = none ∧ p < storeLimit := by
  simp only [insertAtEnd, Option.bind_eq_some] at h
  obtain ⟨s1, hs1, -⟩ := h
  exact alloc_some hs1

theorem insertBefore_some {s : Store tVARTYPE} {l : CLinkList} {val : tVARTYPE}
    {pThis : Option Nat} {p : Nat} {r : Store tVARTYPE × CLinkList}
    (h : insertBefore s l val pThis p = some r) : s p = none ∧ p < storeLimit := by
  cases pThis with
  | none => exact insertAtBeginning_some h
  | some q =>
    simp only [insertBefore, Option.bind_eq_some] at h
    obtain ⟨pp, -, h⟩ := h
    cases pp with
    | none => exact insertAtBeginning_some h
    | some a =>
      simp only [Option.bind_eq_some] at h
      obtain ⟨s1, hs1, -⟩ := h
      exact alloc_some hs1

theorem insertAfter_some {s : Store tVARTYPE} {l : CLinkList} {val : tVARTYPE}
    {pThis : Option Nat} {p : Nat} {r : Store tVARTYPE × CLinkList}
    (h : insertAfter s l val pThis p = some r) : s p = none ∧ p < storeLimit := by
  cases pThis with
  | none => exact insertAtEnd_some h
  | some q =>
    simp only [insertAfter, Option.bind_eq_some] at h
    obtain ⟨pp, -, h⟩ := h
    cases pp with
    | none => exact insertAtEnd_some h
    | some a =>
      simp only [Option.bind_eq_some] at h
      obtain ⟨s1, hs1, -⟩ := h
      exact alloc_some hs1

/-- Every state that the operations reach consists of two well-formed lists
without a common node. -/
theorem reachable_isList {s : Store tVARTYPE} {l list : CLinkList} (h : Reachable s l list) :
    ∃ xs ys, IsList s l xs ∧ IsList s list ys ∧
      ∀ a ∈ xs.map Prod.fst, a ∉ ys.map Prod.fst := by
  induction h with
  | ctor =>
    exact ⟨[], [], ⟨by simp, by simp, rfl, rfl, rfl, trivial⟩,
      ⟨by simp, by simp, rfl, rfl, rfl, trivial⟩, by simp⟩
  | exchange _ ih =>
    obtain ⟨xs, ys, hx, hy, hd⟩ := ih
    exact ⟨ys, xs, hy, hx, fun a ha hb => hd a hb ha⟩
  | insertAtBeginning val p _ hop ih =>
    obtain ⟨xs, ys, hx, hy, hd⟩ := ih
    obtain ⟨hfree, hp⟩ := insertAtBeginning_some hop
    obtain ⟨s2, l2, hop2, hl2, hfr2⟩ := insertAtBeginning_spec _ _ xs val p hx hfree hp
    rw [hop2] at hop
    cases hop
    refine ⟨_, ys, hl2, isList_other hy hd fun a ha hs => hfr2 a ha fun e => hs (e ▸ hfree),
      disjoint_new hy hd fun a ha => ?_⟩
    simp only [List.map_cons, List.mem_cons] at ha
    rcases ha with rfl | ha
    · exact Or.inr hfree
    · exact Or.inl ha
  | insertAtEnd val p _ hop ih =>
    obtain ⟨xs, ys, hx, hy, hd⟩ := ih
    obtain ⟨hfree, hp⟩ := insertAtEnd_some hop
    obtain ⟨s2, l2, hop2, hl2, hfr2⟩ := insertAtEnd_spec _ _ xs val p hx hfree hp
    rw [hop2] at hop
    cases hop
    refine ⟨_, ys, hl2, isList_other hy hd fun a ha hs => hfr2 a ha fun e => hs (e ▸ hfree),
      disjoint_new hy hd fun a ha => ?_⟩
    simp only [List.map_append, List.map_cons, List.map_nil, List.mem_append,
      List.mem_singleton] at ha
    rcases ha with ha | rfl
    · exact Or.inl ha
    · exact Or.inr hfree
  | insertBefore val pThis p _ hnode hop ih =>
    obtain ⟨xs, ys, hx, hy, hd⟩ := ih
    obtain ⟨hfree, hp⟩ := insertBefore_some hop
    cases pThis with
    | none =>
      obtain ⟨s2, l2, hop2, hl2, hfr2⟩ := insertAtBeginning_spec _ _ xs val p hx hfree hp
      rw [show insertBefore _ _ val none p = insertAtBeginning _ _ val p from rfl, hop2] at hop
      cases hop
      refine ⟨_, ys, hl2, isList_other hy hd fun a ha hs => hfr2 a ha fun e => hs (e ▸ hfree),
        disjoint_new hy hd fun a ha => ?_⟩
      simp only [List.map_cons, List.mem_cons] at ha
      rcases ha with rfl | ha
      · exact Or.inr hfree
      · exact Or.inl ha
    | some q =>
      obtain ⟨pre, v, post, rfl⟩ := isNodeOf_split hx (hnode q rfl)
      obtain ⟨s2, l2, hop2, hl2, hfr2⟩ := insertBefore_spec _ _ pre post q v val p hx hfree hp
      rw [hop2] at hop
      cases hop
      refine ⟨_, ys, hl2, isList_other hy hd fun a ha hs => hfr2 a ha fun e => hs (e ▸ hfree),
        disjoint_new hy hd fun a ha => ?_⟩
      simp only [List.map_append, List.map_cons, List.mem_append, List.mem_cons] at ha ⊢
      rcases ha with ha | rfl | ha
      · exact Or.inl (Or.inl ha)
      · exact Or.inr hfree
      · exact Or.inl (Or.inr ha)
  | insertAfter val pThis p _ hnode hop ih =>
    obtain ⟨xs, ys, hx, hy, hd⟩ := ih
    obtain ⟨hfree, hp⟩ := insertAfter_some hop
    cases pThis with
    | none =>
      obtain ⟨s2, l2, hop2, hl2, hfr2⟩ := insertAtEnd_spec _ _ xs val p hx hfree hp
      rw [show insertAfter _ _ val none p = insertAtEnd _ _ val p from rfl, hop2] at hop
      cases hop
      refine ⟨_, ys, hl2, isList_other hy hd fun a ha hs => hfr2 a ha fun e => hs (e ▸ hfree),
        disjoint_new hy hd fun a ha => ?_⟩
      simp only [List.map_append, List.map_cons, List.map_nil, List.mem_append,
        List.mem_singleton] at ha
      rcases ha with ha | rfl
      · exact Or.inl ha
      · exact Or.inr hfree
    | some q =>
      obtain ⟨pre, v, post, rfl⟩ := isNodeOf_split hx (hnode q rfl)
      obtain ⟨s2, l2, hop2, hl2, hfr2⟩ := insertAfter_spec _ _ pre post q v val p hx hfree hp
      rw [hop2] at hop
      cases hop
      refine ⟨_, ys, hl2, isList_other hy hd fun a ha hs => hfr2 a ha fun e => hs (e ▸ hfree),
        disjoint_new hy hd fun a ha => ?_⟩
      simp only [List.map_append, List.map_cons, List.mem_append, List.mem_cons] at ha ⊢
      rcases ha with ha | rfl | rfl | ha
      · exact Or.inl (Or.inl ha)
      · exact Or.inl (Or.inr (Or.inl rfl))
      · exact Or.inr hfree
      · exact Or.inl (Or.inr (Or.inr ha))
  | deleteNode q _ hnode hop ih =>
    obtain ⟨xs, ys, hx, hy, hd⟩ := ih
    obtain ⟨pre, v, post, rfl⟩ := isNodeOf_split hx hnode
    obtain ⟨s2, l2, hop2, hl2, -, hfr2⟩ := deleteNode_spec _ _ pre post q v hx
    rw [hop2] at hop
    cases hop
    refine ⟨_, ys, hl2, isList_other hy hd fun a ha _ => hfr2 a ha,
      disjoint_new hy hd fun a ha => Or.inl ?_⟩
    simp only [List.map_append, List.map_cons, List.mem_append, List.mem_cons] at ha ⊢
    rcases ha with ha | ha
    · exact Or.inl ha
    · exact Or.inr (Or.inr ha)
  | moveToEnd q _ hnode hop ih =>
    obtain ⟨xs, ys, hx, hy, hd⟩ := ih
    obtain ⟨pre, v, post, rfl⟩ := isNodeOf_split hx hnode
    obtain ⟨s2, l2, hop2, hl2, hfr2, -⟩ := moveToEnd_spec _ _ pre post q v hx
    rw [hop2] at hop
    cases hop
    refine ⟨_, ys, hl2, isList_other hy hd fun a ha _ => hfr2 a ha,
      disjoint_new hy hd fun a ha => Or.inl ?_⟩
    simp only [List.map_append, List.map_cons, List.map_nil, List.mem_append, List.mem_cons,
      List.mem_singleton] at ha ⊢
    rcases ha with (ha | ha) | ha | ha
    · exact Or.inl ha
    · exact Or.inr (Or.inr ha)
    · exact Or.inr (Or.inl ha)
    · cases ha
  | concatenate _ hop ih =>
    obtain ⟨xs, ys, hx, hy, hd⟩ := ih
    obtain ⟨s2, l2, hop2, hl2, hempty, -, -⟩ := concatenate_spec _ _ _ xs ys hx hy hd
    rw [hop2] at hop
    cases hop
    exact ⟨_, [], hl2, hempty, by simp⟩
  | swap _ ih =>
    obtain ⟨xs, ys, hx, hy, hd⟩ := ih
    exact ⟨ys, xs, hy, hx, fun a ha hb => hd a hb ha⟩
  | clear fuel _ hop ih =>
    obtain ⟨xs, ys, hx, hy, hd⟩ := ih
    simp only [clear, Option.map_eq_some'] at hop
    obtain ⟨s2, hs2, hres⟩ := hop
    cases hres
    rw [hx.2.2.2.1] at hs2
    have hfr := clearLoop_frame xs _ _ none fuel hx.2.2.2.2.2 hx.1 hs2
    exact ⟨[], ys, ⟨by simp, by simp, rfl, rfl, rfl, trivial⟩,
      isList_other hy hd fun a ha _ => hfr a ha, by simp⟩

/-! ## LinkedList.h: the three properties -/

/-- Claim C32 (`concatenate` moves the argument's contents onto the end of
this list): for two well-formed lists `A` with the nodes `as` and `B` with the
nodes `bs` that have no node in common, `A.concatenate(B)` returns; afterwards
`A` is the well-formed list of the nodes `as ++ bs`, the walk from `head()`
visits them in this order, `getLength()` is `m + n`, `head()` and `tail()` are
the first and the last of them, and `B` has length `0` and `head()` and
`tail()` `NULL`; when `B` is empty, store and `A` are unchanged. -/
theorem concatenate_moves_contents (s : Store tVARTYPE) (A B : CLinkList)
    (as bs : List (Nat × tVARTYPE)) (hA : IsList s A as) (hB : IsList s B bs)
    (hAB : ∀ a ∈ as.map Prod.fst, a ∉ bs.map Prod.fst) :
    ∃ s1 A1 B1, concatenate s A B = some (s1, A1, B1) ∧
      IsList s1 A1 (as ++ bs) ∧
      (∀ k, walkNext s1 ((as ++ bs).length + k) A1.head = as ++ bs) ∧
      A1.getLength = (as.length : Int) + (bs.length : Int) ∧
      A1.head = headPtr (as ++ bs) none ∧ A1.tail = lastPtr (as ++ bs) none ∧
      B1.getLength = 0 ∧ B1.head = none ∧ B1.tail = none ∧
      (bs = [] → s1 = s ∧ A1 = A) := by
  obtain ⟨s1, A1, hop, hl, -, -, hsame⟩ := concatenate_spec s A B as bs hA hB hAB
  refine ⟨s1, A1, CLinkList.ctor, hop, hl, (invariant_of_isList hl).2.1, ?_, hl.2.2.2.1,
    hl.2.2.2.2.1, rfl, rfl, rfl, hsame⟩
  rw [(invariant_of_isList hl).1, List.length_append]
  push_cast
  rfl

theorem concatenate_moves_contents_witness :
    IsList sampleStore sampleListA [(0, 10), (1, 20), (2, 30)] ∧
    IsList sampleStore sampleListB [(3, 40), (4, 50)] ∧
    (∀ a ∈ [(0, 10), (1, 20), (2, 30)].map Prod.fst, a ∉ [(3, 40), (4, 50)].map Prod.fst) ∧
    ∃ s1 A1 B1, concatenate sampleStore sampleListA sampleListB = some (s1, A1, B1) ∧
      IsList s1 A1 ([(0, 10), (1, 20), (2, 30)] ++ [(3, 40), (4, 50)]) ∧
      (∀ k, walkNext s1 (([(0, 10), (1, 20), (2, 30)] ++ [(3, 40), (4, 50)]).length + k)
        A1.head = [(0, 10), (1, 20), (2, 30)] ++ [(3, 40), (4, 50)]) ∧
      A1.getLength = ([(0, 10), (1, 20), (2, 30)].length : Int) +
        ([(3, 40), (4, 50)].length : Int) ∧
      A1.head = headPtr ([(0, 10), (1, 20), (2, 30)] ++ [(3, 40), (4, 50)]) none ∧
      A1.tail = lastPtr ([(0, 10), (1, 20), (2, 30)] ++ [(3, 40), (4, 50)]) none ∧
      B1.getLength = 0 ∧ B1.head = none ∧ B1.tail = none ∧
      ([(3, 40), (4, 50)] = ([] : List (Nat × Nat)) → s1 = sampleStore ∧ A1 = sampleListA) :=
  ⟨by decide, by decide, by decide,
    concatenate_moves_contents sampleStore sampleListA sampleListB _ _ (by decide) (by decide)
      (by decide)⟩

/-- Claim C39 (the structural invariant of `CLinkList`): in every state that
two list objects reach from two empty lists by `insertAtBeginning`,
`insertAtEnd`, `insertBefore`, `insertAfter`, `deleteNode`, `moveToEnd`,
`concatenate`, `swap` and `clear`, the node arguments being nodes of the list
(or `NULL` for the two functions that accept it), each of the two lists
satisfies the structural invariant: `getLength()` is the number of nodes on
the walk from `head()` along `m_pNext`, `head()` is `NULL` iff `tail()` is
`NULL` iff `getLength() == 0`, the head has no `m_pPrev` and the tail no
`m_pNext`, the walk from `tail()` along `m_pPrev` visits the same nodes in
reverse, and the assertion `(m_pHead == NULL) || (m_iLength > 0)` holds. -/
theorem reachable_structuralInvariant (s : Store tVARTYPE) (l list : CLinkList)
    (h : Reachable s l list) : StructuralInvariant s l ∧ StructuralInvariant s list := by
  obtain ⟨xs, ys, hx, hy, -⟩ := reachable_isList h
  exact ⟨⟨xs, invariant_of_isList hx⟩, ⟨ys, invariant_of_isList hy⟩⟩

theorem reachable_structuralInvariant_witness :
    Reachable reachedStore ⟨3, some 0, some 2⟩ CLinkList.ctor ∧
    StructuralInvariant reachedStore ⟨3, some 0, some 2⟩ ∧
    StructuralInvariant reachedStore CLinkList.ctor :=
  ⟨Reachable.concatenate
      (Reachable.moveToEnd 1
        (Reachable.exchange
          (Reachable.insertAtEnd 7 2
            (Reachable.exchange
              (Reachable.insertAtBeginning 5 1
                (Reachable.insertAtEnd 10 0 Reachable.ctor rfl) rfl)) rfl))
        ⟨2, by decide⟩ rfl) rfl,
    reachable_structuralInvariant _ _ _
      (Reachable.concatenate
        (Reachable.moveToEnd 1
          (Reachable.exchange
            (Reachable.insertAtEnd 7 2
              (Reachable.exchange
                (Reachable.insertAtBeginning 5 1
                  (Reachable.insertAtEnd 10 0 Reachable.ctor rfl) rfl)) rfl))
          ⟨2, by decide⟩ rfl) rfl)⟩

/-- Claim C40 (`moveToEnd`): for every well-formed list with the nodes
`pre ++ (q, v) :: post` and its node `q`, `moveToEnd(q)` returns; afterwards
the list is the well-formed list of the nodes `pre ++ post ++ [(q, v)]`, the
walk from `head()` visits them in this order, `tail()` is the moved node and
`getLength()` is what it was; when the node is the last one, in particular
when the list has one node, store and list are unchanged. -/
theorem moveToEnd_moves_node (s : Store tVARTYPE) (l : CLinkList)
    (pre post : List (Nat × tVARTYPE)) (q : Nat) (v : tVARTYPE)
    (h : IsList s l (pre ++ (q, v) :: post)) :
    ∃ s1 l1, moveToEnd s l q = some (s1, l1) ∧
      IsList s1 l1 (pre ++ post ++ [(q, v)]) ∧
      (∀ k, walkNext s1 ((pre ++ post ++ [(q, v)]).length + k) l1.head =
        pre ++ post ++ [(q, v)]) ∧
      l1.tail = some q ∧ l1.getLength = l.getLength ∧
      l1.getLength = ((pre ++ (q, v) :: post).length : Int) ∧
      (post = [] → s1 = s ∧ l1 = l) ∧
      ((pre ++ (q, v) :: post).length = 1 → s1 = s ∧ l1 = l) := by
  obtain ⟨s1, l1, hop, hl, -, hsame⟩ := moveToEnd_spec s l pre post q v h
  have hlen : l1.getLength = l.getLength := by
    simp only [getLength, hl.2.2.1, h.2.2.1, List.length_append, List.length_cons,
      List.length_nil]
    push_cast
    omega
  refine ⟨s1, l1, hop, hl, (invariant_of_isList hl).2.1, ?_, hlen, ?_, hsame, ?_⟩
  · show l1.m_pTail = some q
    rw [hl.2.2.2.2.1, lastPtr_concat]
  · rw [hlen]
    exact h.2.2.1
  · intro h1
    apply hsame
    simp only [List.length_append, List.length_cons] at h1
    exact List.length_eq_zero.mp (by omega)

theorem moveToEnd_moves_node_witness :
    IsList sampleStore sampleListA ([(0, 10)] ++ (1, 20) :: [(2, 30)]) ∧
    ∃ s1 l1, moveToEnd sampleStore sampleListA 1 = some (s1, l1) ∧
      IsList s1 l1 ([(0, 10)] ++ [(2, 30)] ++ [(1, 20)]) ∧
      (∀ k, walkNext s1 (([(0, 10)] ++ [(2, 30)] ++ [(1, 20)]).length + k) l1.head =
        [(0, 10)] ++ [(2, 30)] ++ [(1, 20)]) ∧
      l1.tail = some 1 ∧ l1.getLength = sampleListA.getLength ∧
      l1.getLength = (([(0, 10)] ++ (1, 20) :: [(2, 30)]).length : Int) ∧
      ([(2, 30)] = ([] : List (Nat × Nat)) → s1 = sampleStore ∧ l1 = sampleListA) ∧
      (([(0, 10)] ++ (1, 20) :: [(2, 30)]).length = 1 → s1 = sampleStore ∧ l1 = sampleListA) :=
  ⟨by decide, moveToEnd_moves_node sampleStore sampleListA [(0, 10)] [(2, 30)] 1 20 (by decide)⟩

end CLinkList

end CvGameCoreDLL
